import Mathlib

/-!
# senpairx: the input editor and the scrollback renderer

A shallow embedding of `ui/editor.go` and of `UI.drawBuffer` / `colorFromCode`
from `ui/ui.go`, with the properties of the specification stated over it.

Conventions of the embedding:

* Go `int` values are `Int`. The first row of the line walk,
  `scrollAmt + h - 3`, and the subtraction of the rendered heights from it are
  wrapped to 64 bits as Go does (`wrapInt`): the code bounds neither the field
  `scrollAmt` nor the heights. The remaining arithmetic is on indices,
  lengths, display widths, and rows and columns within a line; it leaves the
  64-bit range only with a text, a line or a screen of about `2^63` entries,
  and is not wrapped.
* A Go string is the list of its code points; `string(rs)` for a rune slice
  replaces the runes that are not valid code points by U+FFFD (`goString`).
* A Go `rune` is an `Int` (its code point).
* A Go slice owned by one struct is a `List`; an index or slice expression
  that is out of range makes the Go program panic, which is `none` here.
* `runewidth.RuneWidth` is a library function; it is a parameter `rw`.
-/

namespace Senpai

/-- A Go rune, as its code point. -/
abbrev Rune := Int

/-- The value a Go `int` (64 bits, two's complement) holds after an operation
whose exact result is `v`. -/
def wrapInt (v : Int) : Int :=
  (v + 9223372036854775808) % 18446744073709551616 - 9223372036854775808

/-! ## Slice primitives -/

/-- Go `l[i]` as a read: panics (`none`) unless `0 ≤ i < len(l)`. -/
def idx {α : Type} (l : List α) (i : Int) : Option α :=
  if 0 ≤ i then l[i.toNat]? else none

/-- Go `l[i] = v`: panics (`none`) unless `0 ≤ i < len(l)`. -/
def setIdx {α : Type} (l : List α) (i : Int) (v : α) : Option (List α) :=
  if 0 ≤ i ∧ i < (l.length : Int) then some (l.set i.toNat v) else none

/-- Go `l[:j]`, for `0 ≤ j ≤ len(l)`. -/
def sliceTo {α : Type} (l : List α) (j : Int) : Option (List α) :=
  if 0 ≤ j ∧ j ≤ (l.length : Int) then some (l.take j.toNat) else none

/-- Go `copy(l[d:], l[s:])` on one slice `l`: both slice expressions need
`0 ≤ d, s ≤ len(l)`; then `min(len(l)-d, len(l)-s)` elements are moved (with
the semantics of `memmove`), the rest of `l` is untouched. -/
def copyWithin {α : Type} (l : List α) (d s : Int) : Option (List α) :=
  if 0 ≤ d ∧ d ≤ (l.length : Int) ∧ 0 ≤ s ∧ s ≤ (l.length : Int) then
    let n := min (l.length - d.toNat) (l.length - s.toNat)
    some (l.take d.toNat ++ (l.drop s.toNat).take n ++ l.drop (d.toNat + n))
  else none

/-! ## The editor (`ui/editor.go`) -/

/-- The text field where the user writes messages and commands. -/
structure editor where
  text : List Rune
  textWidth : List Int
  cursorIdx : Int
  offsetIdx : Int
  width : Int
  deriving DecidableEq, Repr

/-- Go `newEditor`. -/
def newEditor (width : Int) : editor :=
  { text := [], textWidth := [0], cursorIdx := 0, offsetIdx := 0, width := width }

/-- Go `(*editor).Resize`. -/
def Resize (e : editor) (width : Int) : editor :=
  let e1 := if width < e.width then { e with cursorIdx := 0, offsetIdx := 0 } else e
  { e1 with width := width }

/-- Go `(*editor).IsCommand`: `len(e.text) != 0 && e.text[0] == '/'`. -/
def IsCommand (e : editor) : Bool :=
  e.text.length != 0 && e.text[0]? == some 47

/-- Go `(*editor).TextLen`. -/
def TextLen (e : editor) : Int := e.text.length

/-- Go `(*editor).Right`. -/
def Right (e : editor) : Option editor :=
  if e.cursorIdx = e.text.length then some e
  else do
    let c := e.cursorIdx + 1
    let a ← idx e.textWidth c
    let b ← idx e.textWidth e.offsetIdx
    if e.width < a - b then
      let o := e.offsetIdx + 16
      let max : Int := e.text.length - 1
      some { e with cursorIdx := c, offsetIdx := if max < o then max else o }
    else
      some { e with cursorIdx := c }

/-- Go `(*editor).Left`. -/
def Left (e : editor) : editor :=
  if e.cursorIdx = 0 then e
  else
    let c := e.cursorIdx - 1
    if c ≤ e.offsetIdx then
      let o := e.offsetIdx - 16
      { e with cursorIdx := c, offsetIdx := if o < 0 then 0 else o }
    else
      { e with cursorIdx := c }

/-- The loop `for i := ...; i < len(tw); i++ { tw[i] = w + tw[i-1] }` of
`PutRune`, started at `i`; the first argument bounds the iterations and is
`len(tw) - i` at the call, which is the exact number the loop runs. -/
def putLoop (w : Int) : Nat → Int → List Int → Option (List Int)
  | 0, _, tw => some tw
  | n + 1, i, tw =>
    if i < (tw.length : Int) then do
      let p ← idx tw (i - 1)
      let tw1 ← setIdx tw i (w + p)
      putLoop w n (i + 1) tw1
    else some tw

/-- Go `(*editor).PutRune`, with `rw` for `runewidth.RuneWidth`. -/
def PutRune (rw : Rune → Int) (e : editor) (r : Rune) : Option editor := do
  let text1 := e.text ++ [32]
  let text2 ← copyWithin text1 (e.cursorIdx + 1) e.cursorIdx
  let text3 ← setIdx text2 e.cursorIdx r
  let w := rw r
  let tw ← idx e.textWidth ((e.textWidth.length : Int) - 1)
  let tw1 := e.textWidth ++ [tw + w]
  let tw2 ← putLoop w ((tw1.length : Int) - (e.cursorIdx + 1)).toNat (e.cursorIdx + 1) tw1
  Right { e with text := text3, textWidth := tw2 }

/-- The loop `for i := ...; i < len(tw); i++ { tw[i] -= w }` of `RemRune`. -/
def remLoop (w : Int) : Nat → Int → List Int → Option (List Int)
  | 0, _, tw => some tw
  | n + 1, i, tw =>
    if i < (tw.length : Int) then do
      let p ← idx tw i
      let tw1 ← setIdx tw i (p - w)
      remLoop w n (i + 1) tw1
    else some tw

/-- Go `(*editor).RemRune`: the returned flag and the editor afterwards. -/
def RemRune (e : editor) : Option (Bool × editor) :=
  if ¬ (0 < e.cursorIdx) then some (false, e)
  else do
    let a ← idx e.textWidth e.cursorIdx
    let b ← idx e.textWidth (e.cursorIdx - 1)
    let w := a - b
    let tw1 ← remLoop w ((e.textWidth.length : Int) - e.cursorIdx).toNat e.cursorIdx e.textWidth
    let tw2 ← copyWithin tw1 e.cursorIdx (e.cursorIdx + 1)
    let tw3 ← sliceTo tw2 ((tw2.length : Int) - 1)
    let text1 ← copyWithin e.text (e.cursorIdx - 1) e.cursorIdx
    let text2 ← sliceTo text1 ((text1.length : Int) - 1)
    some (true, Left { e with text := text2, textWidth := tw3 })

/-- The rune Go's conversion `string([]rune)` encodes for `r`: `r` itself when
it is a valid code point, U+FFFD when it is negative, above U+10FFFF or a
surrogate. -/
def stringRune (r : Rune) : Rune :=
  if 0 ≤ r ∧ r ≤ 0x10FFFF ∧ ¬ (0xD800 ≤ r ∧ r ≤ 0xDFFF) then r else 0xFFFD

/-- Go `string(rs)` for a rune slice `rs`, as the code points of the string. -/
def goString (rs : List Rune) : List Rune := rs.map stringRune

/-- Go `(*editor).Flush`: the returned string `string(e.text)`, as its code
points, and the editor afterwards. -/
def Flush (e : editor) : Option (List Rune × editor) := do
  let content := goString e.text
  let text1 ← sliceTo e.text 0
  let tw1 ← sliceTo e.textWidth 1
  some (content, { e with text := text1, textWidth := tw1, cursorIdx := 0, offsetIdx := 0 })

/-- One call on the editor, as the event loop issues them. -/
inductive Op where
  | putRune (r : Rune)
  | remRune
  | left
  | right
  | resize (width : Int)
  | flush
  deriving DecidableEq, Repr

/-- The editor after one call; `none` when the call panics. -/
def step (rw : Rune → Int) (e : editor) : Op → Option editor
  | .putRune r => PutRune rw e r
  | .remRune => (RemRune e).map Prod.snd
  | .left => some (Left e)
  | .right => Right e
  | .resize width => some (Resize e width)
  | .flush => (Flush e).map Prod.snd

/-- The editor after a sequence of calls, oldest first. -/
def run (rw : Rune → Int) (e : editor) : List Op → Option editor
  | [] => some e
  | op :: ops => (step rw e op).bind (fun e1 => run rw e1 ops)

/-- A state that some sequence of calls on `newEditor w` ends in. -/
def Reachable (rw : Rune → Int) (w : Int) (e : editor) : Prop :=
  ∃ ops : List Op, run rw (newEditor w) ops = some e

/-- A sample width function: 2 columns from U+1100 on, 1 column below. It
agrees with `runewidth.RuneWidth` on the runes used in the examples. -/
def sampleWidth (r : Rune) : Int := if 0x1100 ≤ r then 2 else 1

/-- Well-formed editor states: the cursor is within `[0, len(text)]`, the
width array has one entry more than the text, and the view offset is within
`[0, len(text)-1]` (0 when the text is empty). -/
def WellFormed (e : editor) : Prop :=
  0 ≤ e.cursorIdx ∧ e.cursorIdx ≤ (e.text.length : Int)
    ∧ (e.textWidth.length : Int) = (e.text.length : Int) + 1
    ∧ 0 ≤ e.offsetIdx ∧ (e.offsetIdx = 0 ∨ e.offsetIdx < (e.text.length : Int))

instance (e : editor) : Decidable (WellFormed e) := by
  unfold WellFormed; infer_instance

/-- The invariant of the reachable editor states: well-formed, and
`textWidth[0] = 0`. -/
def Inv (e : editor) : Prop := WellFormed e ∧ e.textWidth.take 1 = [0]

/-- The doc comment of `editor.textWidth`, entry by entry: `textWidth[i]` is
`textWidth[i-1]` plus the display width of `text[i-1]`, for `1 ≤ i ≤ len(text)`. -/
def PrefixSum (rw : Rune → Int) (e : editor) : Prop :=
  ∀ i : Nat, 1 ≤ i → i ≤ e.text.length →
    ∃ a b r, e.textWidth[i]? = some a ∧ e.textWidth[i - 1]? = some b
      ∧ e.text[i - 1]? = some r ∧ a = b + rw r

/-- The code points of a string literal, as Go runes. -/
def runes (s : String) : List Rune := s.toList.map (fun ch => (ch.toNat : Int))

/-! ## The scrollback renderer (`UI.drawBuffer` in `ui/ui.go`) -/

/-- The `tcell.Color` values the renderer uses, by the name of the tcell
constant; `ofCode code` is the conversion `tcell.Color(code)`. -/
inductive Color where
  | ColorDefault | ColorWhite | ColorBlack | ColorBlue | ColorGreen | ColorRed
  | ColorBrown | ColorPurple | ColorOrange | ColorYellow | ColorLightGreen
  | ColorTeal | ColorFuchsia | ColorLightBlue | ColorPink | ColorGrey
  | ColorLightGrey
  | ofCode (code : Int)
  deriving DecidableEq, Repr

/-- Go `colorFromCode`. -/
def colorFromCode (code : Int) : Color :=
  if code = 0 then .ColorWhite
  else if code = 1 then .ColorBlack
  else if code = 2 then .ColorBlue
  else if code = 3 then .ColorGreen
  else if code = 4 then .ColorRed
  else if code = 5 then .ColorBrown
  else if code = 6 then .ColorPurple
  else if code = 7 then .ColorOrange
  else if code = 8 then .ColorYellow
  else if code = 9 then .ColorLightGreen
  else if code = 10 then .ColorTeal
  else if code = 11 then .ColorFuchsia
  else if code = 12 then .ColorLightBlue
  else if code = 13 then .ColorPink
  else if code = 14 then .ColorGrey
  else if code = 15 then .ColorLightGrey
  else if code = 99 then .ColorDefault
  else .ofCode code

/-- The part of a `tcell.Style` the renderer sets: the two colours and the
bold and underline attributes. -/
structure Style where
  fg : Color
  bg : Color
  bold : Bool
  underline : Bool
  deriving DecidableEq, Repr

/-- Go `tcell.StyleDefault`. -/
def StyleDefault : Style :=
  { fg := .ColorDefault, bg := .ColorDefault, bold := false, underline := false }

/-- Go `Style.Foreground`. -/
def Style.Foreground (st : Style) (c : Color) : Style := { st with fg := c }

/-- Go `Style.Background`. -/
def Style.Background (st : Style) (c : Color) : Style := { st with bg := c }

/-- Go `Style.Bold`. -/
def Style.Bold (st : Style) (b : Bool) : Style := { st with bold := b }

/-- Go `Style.Underline`. -/
def Style.Underline (st : Style) (b : Bool) : Style := { st with underline := b }

/-- One call `screen.SetContent(x, y, r, nil, st)`. -/
structure Cell where
  x : Int
  y : Int
  r : Rune
  st : Style
  deriving DecidableEq, Repr

/-- A split point of a line (`Point` in the buffer store). -/
structure Point where
  X : Int
  I : Int
  Split : Bool
  deriving DecidableEq, Repr

/-- The fields of a stored `Line` the renderer reads; `Content` is given as
the runes of `[]rune(line.Content)`. -/
structure Line where
  Content : List Rune
  SplitPoints : List Point
  deriving DecidableEq, Repr

/-- The variables of `drawBuffer` that live across lines: the style and the
state of the formatting machine. -/
structure Fmt where
  st : Style
  bold : Bool
  italic : Bool
  underline : Bool
  colorState : Int
  fgColor : Int
  bgColor : Int
  deriving DecidableEq, Repr

/-- The variables of one line's render pass. -/
structure Pos where
  x : Int
  y : Int
  lastSP : Point
  spIdx : Int
  deriving DecidableEq, Repr

/-- The values of the formatting variables on entry to `drawBuffer`. -/
def Fmt.init : Fmt :=
  { st := StyleDefault, bold := false, italic := false, underline := false,
    colorState := 0, fgColor := 0, bgColor := 0 }

/-- Go `'0' <= r && r <= '9'`. -/
def isDigit (r : Rune) : Bool := decide (48 ≤ r) && decide (r ≤ 57)

/-- The `colorState` chain of the rune loop (`if colorState == 1 ... else if
colorState == 5 ...`), on a rune arriving with the cursor at `(x, y)`. The
result is the variables afterwards, the cells written, and whether the chain
ended the iteration with `continue`. -/
def colorStep (w : Int) (f : Fmt) (x y : Int) (r : Rune) : Fmt × Int × Int × List Cell × Bool :=
  if f.colorState = 1 then
    let f1 := { f with fgColor := 0, bgColor := 0 }
    if isDigit r then
      ({ f1 with fgColor := f1.fgColor * 10 + (r - 48), colorState := 2 }, x, y, [], true)
    else
      ({ f1 with
          st := (f1.st.Foreground .ColorDefault).Background .ColorDefault,
          colorState := 0 }, x, y, [], false)
  else if f.colorState = 2 then
    if isDigit r then
      ({ f with fgColor := f.fgColor * 10 + (r - 48), colorState := 3 }, x, y, [], true)
    else if r = 44 then
      ({ f with colorState := 4 }, x, y, [], true)
    else
      ({ f with st := f.st.Foreground (colorFromCode f.fgColor), colorState := 0 }, x, y, [], false)
  else if f.colorState = 3 then
    if r = 44 then
      ({ f with colorState := 4 }, x, y, [], true)
    else
      ({ f with st := f.st.Foreground (colorFromCode f.fgColor), colorState := 0 }, x, y, [], false)
  else if f.colorState = 4 then
    if isDigit r then
      ({ f with bgColor := f.bgColor * 10 + (r - 48), colorState := 5 }, x, y, [], true)
    else
      let st1 := f.st.Foreground (colorFromCode f.fgColor)
      let x1 := x + 1
      ({ f with st := st1, colorState := 0 },
        (if w ≤ x1 then 0 else x1), (if w ≤ x1 then y + 1 else y),
        [{ x := x, y := y, r := 44, st := st1 }], false)
  else if f.colorState = 5 then
    let st1 := f.st.Foreground (colorFromCode f.fgColor)
    if isDigit r then
      let bg := f.bgColor * 10 + (r - 48)
      ({ f with colorState := 0, bgColor := bg, st := st1.Background (colorFromCode bg) },
        x, y, [], true)
    else
      ({ f with colorState := 0, st := st1.Background (colorFromCode f.bgColor) },
        x, y, [], false)
  else (f, x, y, [], false)

/-- The formatting step of the rune loop: the `colorState` chain, the control
runes, and the write of a literal glyph. The result is the variables
afterwards and the cells written. -/
def formatRune (w : Int) (rw : Rune → Int) (f : Fmt) (x y : Int) (r : Rune) :
    Fmt × Int × Int × List Cell :=
  match colorStep w f x y r with
  | (f1, x1, y1, out, true) => (f1, x1, y1, out)
  | (f1, x1, y1, out, false) =>
    if r = 0x00 ∨ r = 0x0F then
      ({ f1 with bold := false, italic := false, underline := false, colorState := 0,
                 st := StyleDefault }, x1, y1, out)
    else if r = 0x02 then
      ({ f1 with bold := !f1.bold, st := f1.st.Bold (!f1.bold) }, x1, y1, out)
    else if r = 0x03 then
      ({ f1 with colorState := 1 }, x1, y1, out)
    else if r = 0x1D then
      ({ f1 with italic := !f1.italic }, x1, y1, out)
    else if r = 0x1F then
      ({ f1 with underline := !f1.underline, st := f1.st.Underline (!f1.underline) }, x1, y1, out)
    else
      (f1, x1 + rw r, y1,
        out ++ (if 0 ≤ y1 then [{ x := x1, y := y1, r := r, st := f1.st }] else []))

/-- The consumption of a split point at the head of the rune loop's body
(`if i == line.SplitPoints[spIdx].I { ... }`). -/
def splitStep (w : Int) (line : Line) (p : Pos) (i : Int) : Option Pos := do
  let sp ← idx line.SplitPoints p.spIdx
  if i = sp.I then
    let spIdx := p.spIdx + 1
    let sp1 ← idx line.SplitPoints spIdx
    let l := sp1.X - sp.X
    if w < l then
      some { p with lastSP := sp, spIdx := spIdx }
    else if w = l then
      if p.x = 0 then some { p with lastSP := sp, spIdx := spIdx, y := p.y + 1 }
      else some { p with lastSP := sp, spIdx := spIdx }
    else if w < p.x + l then
      some { p with lastSP := sp, spIdx := spIdx, y := p.y + 1, x := 0 }
    else some { p with lastSP := sp, spIdx := spIdx }
  else some p

/-- One iteration of the rune loop, for the rune `r` at index `i`. -/
def drawRune (w : Int) (rw : Rune → Int) (line : Line) (f : Fmt) (p : Pos) (i : Int)
    (r : Rune) : Option (Fmt × Pos × List Cell) := do
  let p1 ← splitStep w line p i
  let sp ← idx line.SplitPoints p1.spIdx
  if !sp.Split && decide (p1.x = 0) then
    some (f, p1, [])
  else
    let p2 := if w ≤ p1.x then { p1 with y := p1.y + 1, x := 0 } else p1
    match formatRune w rw f p2.x p2.y r with
    | (f1, x1, y1, out) => some (f1, { p2 with x := x1, y := y1 }, out)

/-- The rune loop `for i, r := range rs`, from index `i` on. -/
def drawRunes (w : Int) (rw : Rune → Int) (line : Line) :
    List Rune → Int → Fmt → Pos → Option (Fmt × Pos × List Cell)
  | [], _, f, p => some (f, p, [])
  | r :: rs, i, f, p => do
    let (f1, p1, out1) ← drawRune w rw line f p i r
    let (f2, p2, out2) ← drawRunes w rw line rs (i + 1) f1 p1
    some (f2, p2, out1 ++ out2)

/-- The render pass of one line, entered with its top row `y0`: the rune loop
from `x = 0`, `y = y0`, `spIdx = 0`, then the reset of the style variables. -/
def drawLine (w : Int) (rw : Rune → Int) (line : Line) (f : Fmt) (y0 : Int) :
    Option (Fmt × List Cell) := do
  let p : Pos := { x := 0, y := y0, lastSP := { X := 0, I := 0, Split := false }, spIdx := 0 }
  let (f1, _, out) ← drawRunes w rw line line.Content 0 f p
  some ({ f1 with st := StyleDefault, bold := false, italic := false, underline := false,
                  colorState := 0 }, out)

/-- The walk over the stored lines, newest first. `k` numbers the line at the
head of the list (1 for the newest). The result is the formatting variables
and `y0` when the loop is left, the cells written, and the render passes that
were entered, each as the number of its line and the row it starts at. -/
def drawLines (w yEnd : Int) (rw : Rune → Int) (rh : Line → Int → Int) :
    List Line → Nat → Fmt → Int → Option (Fmt × Int × List Cell × List (Nat × Int))
  | [], _, f, y0 => some (f, y0, [], [])
  | line :: older, k, f, y0 =>
    if y0 < 0 then some (f, y0, [], [])
    else
      let y1 := wrapInt (y0 - rh line w)
      if yEnd ≤ y1 then drawLines w yEnd rw rh older (k + 1) f y1
      else do
        let (f1, out1) ← drawLine w rw line f y1
        let (f2, y2, out2, passes) ← drawLines w yEnd rw rh older (k + 1) f1 y1
        some (f2, y2, out1 ++ out2, (k, y1) :: passes)

/-- What a call of `drawBuffer` leaves: the cells written in order, the field
`scrollAtTop`, and the render passes entered (line number counted from the
newest, start row). -/
structure DrawResult where
  cells : List Cell
  scrollAtTop : Bool
  passes : List (Nat × Int)
  deriving DecidableEq, Repr

/-- The cells of the clearing loops at the head of `drawBuffer`. -/
def clearCells (w h : Int) : List Cell :=
  (List.range w.toNat).flatMap fun x =>
    (List.range (h - 3).toNat).map fun y =>
      { x := (x : Int), y := (y : Int), r := 32, st := StyleDefault }

/-- Go `(*UI).drawBuffer`, on a screen of size `(w, h)`, with the fields
`scrollAmt` and `scrollAtTop` and the lines `content` of the current buffer
(oldest first, as stored); `rw` is `runewidth.RuneWidth` and `rh line w` is
`line.RenderedHeight(w)`. -/
def drawBuffer (w h : Int) (rw : Rune → Int) (rh : Line → Int → Int) (scrollAmt : Int)
    (scrollAtTop : Bool) (content : List Line) : Option DrawResult :=
  if h < 3 then some { cells := [], scrollAtTop := scrollAtTop, passes := [] }
  else if content.length = 0 then
    some { cells := clearCells w h, scrollAtTop := true, passes := [] }
  else do
    let yEnd := h - 3
    let y0 := wrapInt (scrollAmt + h - 3)
    let (_, y1, out, passes) ← drawLines w yEnd rw rh content.reverse 1 Fmt.init y0
    some { cells := clearCells w h ++ out, scrollAtTop := decide (0 ≤ y1), passes := passes }

/-- A line whose split points end with a point at or after the end of its
runes. -/
def LineOK (line : Line) : Prop :=
  match line.SplitPoints.getLast? with
  | none => False
  | some p => (line.Content.length : Int) ≤ p.I

instance (line : Line) : Decidable (LineOK line) := by
  unfold LineOK; split <;> infer_instance

/-- The row below the `k` newest lines of `content`, in the row space of the
walk: the value the program computes for `scrollAmt + h - 3`, minus their
rendered heights. -/
def rowBelow (w h : Int) (rh : Line → Int → Int) (scrollAmt : Int) (content : List Line)
    (k : Nat) : Int :=
  wrapInt (scrollAmt + h - 3) - ((content.reverse.take k).map (fun line => rh line w)).sum

/-- The value of `y0` after the walk has subtracted the heights of the first
`m` lines of `ls` (newest first) from `y0`, each `y0 -= lineHeight` wrapped as
the program's is. -/
def walkRow (w : Int) (rh : Line → Int → Int) : List Line → Int → Nat → Int
  | _, y0, 0 => y0
  | [], y0, _ + 1 => y0
  | line :: older, y0, m + 1 => walkRow w rh older (wrapInt (y0 - rh line w)) m

/-- The cells the rune loop writes for `line` when it is entered with the
cursor at column 0 of row `row`, at the first split point, on the initial
formatting variables; no cells when the loop panics. -/
def lineCells (w : Int) (rw : Rune → Int) (line : Line) (row : Int) : List Cell :=
  match drawRunes w rw line line.Content 0 Fmt.init
      { x := 0, y := row, lastSP := { X := 0, I := 0, Split := false }, spIdx := 0 } with
  | some (_, _, out) => out
  | none => []

/-- The runes the formatting step consumes as control runes: `0x00`, `0x0F`,
`0x02`, `0x03`, `0x1D`, `0x1F`. -/
def isControl (r : Rune) : Bool :=
  decide (r = 0x00) || decide (r = 0x0F) || decide (r = 0x02) || decide (r = 0x03)
    || decide (r = 0x1D) || decide (r = 0x1F)

/-- The rune of a decimal digit `d`. -/
def digitRune (d : Nat) : Rune := 48 + (d : Int)

/-- The number written by a sequence of decimal digits. -/
def codeNum (ds : List Nat) : Int := ds.foldl (fun a d => a * 10 + (d : Int)) 0

/-- The runes of a colour code after its `0x03`: the foreground digits, then
`,` and the background digits when there is a background. -/
def codeRunes (fd : List Nat) (bd : Option (List Nat)) : List Rune :=
  fd.map digitRune ++ (match bd with
    | none => []
    | some b => 44 :: b.map digitRune)

/-- The formatting step on runes that reach it one after the other, each
given with the cursor position `(x, y)` it arrives with: the formatting
variables afterwards and the cells written. -/
def formatRunes (w : Int) (rw : Rune → Int) : Fmt → List (Int × Int × Rune) → Fmt × List Cell
  | f, [] => (f, [])
  | f, (x, y, r) :: rest =>
    match formatRune w rw f x y r with
    | (f1, _, _, out) =>
      match formatRunes w rw f1 rest with
      | (f2, out2) => (f2, out ++ out2)

/-- Runes reaching the formatting step, the `j`-th of them with the cursor at
`pos j`. -/
def arriving (pos : Nat → Int × Int) (rs : List Rune) : List (Int × Int × Rune) :=
  rs.enum.map fun jr => ((pos jr.1).1, (pos jr.1).2, jr.2)

/-- A sample line: the three runes of `abc`, with a split point at their start
and a closing one after their end. -/
def sampleLine : Line :=
  { Content := runes "abc",
    SplitPoints := [{ X := 0, I := 0, Split := true }, { X := 3, I := 3, Split := true }] }

/-- A sample `RenderedHeight`: every line is 3 rows high. -/
def sampleHeight (_ : Line) (_ : Int) : Int := 3

/-! ## Definitions for the later properties -/

/-- A list of integers in which every entry is at most the next one. -/
def NonDecreasing (tw : List Int) : Prop :=
  ∀ (i : Nat) (a b : Int), tw[i]? = some a → tw[i + 1]? = some b → a ≤ b

/-- A sample line: the single rune `a`. -/
def letterLine : Line :=
  { Content := runes "a",
    SplitPoints := [{ X := 0, I := 0, Split := true }, { X := 1, I := 1, Split := true }] }

/-- A sample line: a foreground code with a trailing comma, then `x`. -/
def commaLine : Line :=
  { Content := runes "\x034,x",
    SplitPoints := [{ X := 0, I := 0, Split := true }, { X := 2, I := 4, Split := true }] }

/-- A sample line: a foreground code with a trailing comma at the end of the
line. -/
def commaEndLine : Line :=
  { Content := runes "\x034,",
    SplitPoints := [{ X := 0, I := 0, Split := true }, { X := 1, I := 3, Split := true }] }

/-- A sample `RenderedHeight` for a screen two columns wide and lines of
one-column runes without control runes: one row up to two runes, two rows up
to four. -/
def heightAtWidth2 (line : Line) (_ : Int) : Int :=
  if line.Content.length ≤ 2 then 1 else 2

/-- A sample `RenderedHeight`: every line is one row high. -/
def unitHeight (_ : Line) (_ : Int) : Int := 1

/-- A sample editor state: twenty one-column runes in an editor two columns
wide, the cursor after the tenth rune, the view not scrolled. -/
def longSample : editor :=
  { text := List.replicate 20 97, textWidth := (List.range 21).map Int.ofNat,
    cursorIdx := 10, offsetIdx := 0, width := 2 }

/-- The first loop of `Draw`,
`for i < len(e.text) && x < e.width { r := e.text[i]; ...; x += RuneWidth(r); i++ }`:
the column it ends at and the cells it writes. The first argument bounds the
iterations and is `len(e.text) - i` at the call, which the loop cannot exceed. -/
def drawTextLoop (rw : Rune → Int) (text : List Rune) (width y : Int) :
    Nat → Int → Int → Option (Int × List Cell)
  | 0, _, x => some (x, [])
  | n + 1, i, x =>
    if i < (text.length : Int) ∧ x < width then do
      let r ← idx text i
      let (x1, out) ← drawTextLoop rw text width y n (i + 1) (x + rw r)
      some (x1, { x := x, y := y, r := r, st := StyleDefault } :: out)
    else some (x, [])

/-- What a call of `Draw` does on the screen: the cells written and the
calls of `ShowCursor`, in order. -/
structure DrawnEditor where
  cells : List Cell
  cursor : List (Int × Int)
  deriving DecidableEq, Repr

/-- Go `(*editor).Draw` on row `y`, with `rw` for `runewidth.RuneWidth`. -/
def Draw (rw : Rune → Int) (e : editor) (y : Int) : Option DrawnEditor := do
  let (x, out) ← drawTextLoop rw e.text e.width y ((e.text.length : Int) - e.offsetIdx).toNat
    e.offsetIdx 0
  let pad : List Cell := (List.range (e.width - x).toNat).map fun k =>
    { x := x + (k : Int), y := y, r := 32, st := StyleDefault }
  let a ← idx e.textWidth e.cursorIdx
  let b ← idx e.textWidth e.offsetIdx
  let curStart := a - b
  let curEnd ←
    if e.cursorIdx + 1 < (e.textWidth.length : Int) then do
      let a1 ← idx e.textWidth (e.cursorIdx + 1)
      let b1 ← idx e.textWidth e.offsetIdx
      some (a1 - b1)
    else some (curStart + 1)
  some { cells := out ++ pad,
         cursor := (List.range (curEnd - curStart).toNat).map fun k => (curStart + (k : Int), y) }

/-- Go `(*editor).IsCommand` with its index expression checked: `e.text[0]`
is read only when `len(e.text) != 0`. -/
def IsCommandRead (e : editor) : Option Bool :=
  if e.text.length ≠ 0 then (idx e.text 0).map (fun r => decide (r = 47)) else some false

/-- One call on the editor, the reading ones included. -/
inductive Call where
  | op (o : Op)
  | isCommand
  | draw (y : Int)
  deriving DecidableEq, Repr

/-- The editor after one call; `none` when the call panics. -/
def stepCall (rw : Rune → Int) (e : editor) : Call → Option editor
  | .op o => step rw e o
  | .isCommand => (IsCommandRead e).map (fun _ => e)
  | .draw y => (Draw rw e y).map (fun _ => e)

/-- The editor after a sequence of calls, oldest first. -/
def runCalls (rw : Rune → Int) (e : editor) : List Call → Option editor
  | [] => some e
  | c :: cs => (stepCall rw e c).bind (fun e1 => runCalls rw e1 cs)

/-- Split points as the specification describes them, with the bound on the
last point left open: the sequence is non-empty, its `I` values are
non-negative and strictly increasing, and its last point has `I ≥ bound`. -/
def SplitPointsEndAt (line : Line) (bound : Int) : Prop :=
  line.SplitPoints ≠ []
    ∧ (∀ p ∈ line.SplitPoints, 0 ≤ p.I)
    ∧ line.SplitPoints.Chain' (fun p q => p.I < q.I)
    ∧ (∀ p, line.SplitPoints.getLast? = some p → bound ≤ p.I)

/-- A line of one rune whose only split point is at that rune. -/
def oneRuneLine : Line :=
  { Content := [97], SplitPoints := [{ X := 0, I := 0, Split := true }] }

/-- Formatting variables as they are at the start of a line: default style,
no attribute, parse state 0. The accumulators `fgColor` and `bgColor` are
not constrained. -/
def Fresh (f : Fmt) : Prop :=
  f.st = StyleDefault ∧ f.bold = false ∧ f.italic = false ∧ f.underline = false
    ∧ f.colorState = 0

/-- Formatting variables that agree except, in parse states 0 and 1, for the
accumulators `fgColor` and `bgColor`. -/
def SameFormat (f g : Fmt) : Prop :=
  f.st = g.st ∧ f.bold = g.bold ∧ f.italic = g.italic ∧ f.underline = g.underline
    ∧ f.colorState = g.colorState
    ∧ (f.colorState ≠ 0 → f.colorState ≠ 1 → f.fgColor = g.fgColor ∧ f.bgColor = g.bgColor)

/-- Two outcomes of the rune loop that agree: both panic, or both return with
the same cursor variables, the same cells and agreeing formatting variables. -/
def SameResult : Option (Fmt × Pos × List Cell) → Option (Fmt × Pos × List Cell) → Prop
  | none, none => True
  | some (f1, p1, out1), some (f2, p2, out2) => SameFormat f1 f2 ∧ p1 = p2 ∧ out1 = out2
  | _, _ => False

/-- The cells the render pass `p` (line number counted from the newest, start
row) writes when its line is rendered on its own from the initial formatting
variables. -/
def passCells (w : Int) (rw : Rune → Int) (newestFirst : List Line) (k : Nat) (p : Nat × Int) :
    List Cell :=
  match newestFirst[p.1 - k]? with
  | some line =>
    match drawLine w rw line Fmt.init p.2 with
    | some res => res.2
    | none => []
  | none => []

/-- The formatting variables each render pass of the walk is entered with,
in the order of the passes: the recursion of `drawLines`, keeping the
variables at the head of every pass instead of the cells. -/
def passStarts (w yEnd : Int) (rw : Rune → Int) (rh : Line → Int → Int) :
    List Line → Fmt → Int → Option (List Fmt)
  | [], _, _ => some []
  | line :: older, f, y0 =>
    if y0 < 0 then some []
    else
      let y1 := wrapInt (y0 - rh line w)
      if yEnd ≤ y1 then passStarts w yEnd rw rh older f y1
      else do
        let (f1, _) ← drawLine w rw line f y1
        let fs ← passStarts w yEnd rw rh older f1 y1
        some (f :: fs)

/-- A sample line that ends inside a colour code, with bold and underline
switched on and not switched off. -/
def unclosedLine : Line :=
  { Content := runes "\x02\x1fab\x035,1",
    SplitPoints := [{ X := 0, I := 0, Split := true }, { X := 2, I := 8, Split := true }] }

/-- Sample formatting variables: the style black on blue that `\x031,2` leaves,
with a bare `0x03` pending (parse state 1). -/
def pendingBlue : Fmt :=
  { st := { fg := .ColorBlack, bg := .ColorBlue, bold := false, underline := false },
    bold := false, italic := false, underline := false, colorState := 1,
    fgColor := 1, bgColor := 2 }

/-! # Theorems -/

/-! ## Slice primitives at in-range indices -/

theorem idx_natCast {α : Type} (l : List α) (n : Nat) : idx l (n : Int) = l[n]? := by
  simp [idx]

theorem setIdx_natCast {α : Type} (l : List α) (n : Nat) (v : α) (h : n < l.length) :
    setIdx l (n : Int) v = some (l.set n v) := by
  simp [setIdx, h]

theorem sliceTo_natCast {α : Type} (l : List α) (n : Nat) (h : n ≤ l.length) :
    sliceTo l (n : Int) = some (l.take n) := by
  simp [sliceTo, h]

theorem copyWithin_natCast {α : Type} (l : List α) (d s : Nat) (hd : d ≤ l.length)
    (hs : s ≤ l.length) :
    copyWithin l (d : Int) (s : Int) =
      some (l.take d ++ (l.drop s).take (min (l.length - d) (l.length - s))
        ++ l.drop (d + min (l.length - d) (l.length - s))) := by
  simp [copyWithin, hd, hs]

/-- The two text statements of `PutRune` insert `r` between the runes before
the cursor and those after it. -/
theorem insert_shift {α : Type} (A B : List α) (x r : α) :
    (copyWithin (A ++ B ++ [x]) ((A.length + 1 : Nat) : Int) (A.length : Int)).bind
      (fun t => setIdx t (A.length : Int) r) = some (A ++ r :: B) := by
  rw [copyWithin_natCast _ _ _ (by simp) (by simp)]
  simp only [Option.some_bind]
  have h1 : (A ++ B ++ [x]).length - (A.length + 1) = B.length := by simp; omega
  have h2 : (A ++ B ++ [x]).length - A.length = B.length + 1 := by simp
  rw [h1, h2, Nat.min_eq_left (Nat.le_succ _)]
  have h3 : List.drop (A.length + 1 + B.length) (A ++ B ++ [x]) = [] := by
    apply List.drop_eq_nil_of_le; simp; omega
  have h4 : List.take B.length (List.drop A.length (A ++ B ++ [x])) = B := by
    rw [List.append_assoc, List.drop_left, List.take_left]
  have h5 : ∃ y, List.take (A.length + 1) (A ++ B ++ [x]) = A ++ [y] := by
    rw [List.append_assoc, List.take_append]
    cases B with
    | nil => exact ⟨x, by simp⟩
    | cons b B => exact ⟨b, by simp⟩
  obtain ⟨y, h5⟩ := h5
  rw [h3, h4, h5, setIdx_natCast _ _ _ (by simp)]
  simp

/-- The two text statements of `RemRune` remove the rune before the cursor. -/
theorem remove_shift {α : Type} (A B : List α) (x : α) :
    (copyWithin (A ++ x :: B) (A.length : Int) ((A.length + 1 : Nat) : Int)).bind
      (fun t => sliceTo t ((t.length : Int) - 1)) = some (A ++ B) := by
  rw [copyWithin_natCast _ _ _ (by simp) (by simp)]
  simp only [Option.some_bind]
  have h1 : (A ++ x :: B).length - (A.length + 1) = B.length := by simp; omega
  have h2 : (A ++ x :: B).length - A.length = B.length + 1 := by simp
  rw [h1, h2, Nat.min_eq_right (Nat.le_succ _)]
  have h3 : List.drop (A.length + B.length) (A ++ x :: B) = List.drop B.length (x :: B) := by
    rw [List.drop_append]
  have h4 : List.take B.length (List.drop (A.length + 1) (A ++ x :: B)) = B := by
    rw [List.drop_append]; simp
  have h5 : List.take A.length (A ++ x :: B) = A := List.take_left _ _
  rw [h3, h4, h5]
  have h6 : ∃ z, List.drop B.length (x :: B) = [z] := by
    have : (List.drop B.length (x :: B)).length = 1 := by simp
    match hd : List.drop B.length (x :: B), this with
    | [z], _ => exact ⟨z, rfl⟩
  obtain ⟨z, h6⟩ := h6
  rw [h6]
  have h7 : ((A ++ B ++ [z]).length : Int) - 1 = ((A ++ B).length : Nat) := by
    simp; omega
  rw [h7, sliceTo_natCast _ _ (by simp)]
  rw [List.take_left]
/-! ## The two loops over `textWidth` -/

theorem take_set_self {α : Type} (l : List α) (i : Nat) (v : α) :
    (l.set i v).take i = l.take i := by
  induction l generalizing i with
  | nil => simp
  | cons a l ih =>
    cases i with
    | zero => simp
    | succ i => simp [ih]

/-- The loop of `PutRune`, started at an index `k + 1 ≥ 1`, never panics,
keeps the length, and leaves the entries before its start untouched. -/
theorem putLoop_spec (w : Int) (n : Nat) :
    ∀ (k : Nat) (tw : List Int), ∃ tw1, putLoop w n ((k + 1 : Nat) : Int) tw = some tw1
      ∧ tw1.length = tw.length ∧ tw1.take (k + 1) = tw.take (k + 1) := by
  induction n with
  | zero => intro k tw; exact ⟨tw, rfl, rfl, rfl⟩
  | succ n ih =>
    intro k tw
    unfold putLoop
    by_cases h : ((k + 1 : Nat) : Int) < (tw.length : Int)
    · have hk : k + 1 < tw.length := by exact_mod_cast h
      have hk0 : k < tw.length := by omega
      have e1 : ((k + 1 : Nat) : Int) - 1 = (k : Int) := by push_cast; ring
      have e2 : ((k + 1 : Nat) : Int) + 1 = ((k + 1 + 1 : Nat) : Int) := by push_cast; ring
      rw [if_pos h, e1, idx_natCast, List.getElem?_eq_getElem hk0]
      simp only [Option.bind_eq_bind, Option.some_bind]
      rw [setIdx_natCast _ _ _ hk, Option.some_bind, e2]
      obtain ⟨tw1, h1, h2, h3⟩ := ih (k + 1) (tw.set (k + 1) (w + tw[k]))
      refine ⟨tw1, h1, by simpa using h2, ?_⟩
      have h4 := congrArg (List.take (k + 1)) h3
      rw [List.take_take, List.take_take, Nat.min_eq_left (Nat.le_succ _), take_set_self] at h4
      exact h4
    · rw [if_neg h]; exact ⟨tw, rfl, rfl, rfl⟩

/-- The loop of `RemRune`, started at an index `i ≥ 0`, never panics, keeps
the length, and leaves the entries before its start untouched. -/
theorem remLoop_spec (w : Int) (n : Nat) :
    ∀ (i : Nat) (tw : List Int), ∃ tw1, remLoop w n (i : Int) tw = some tw1
      ∧ tw1.length = tw.length ∧ tw1.take i = tw.take i := by
  induction n with
  | zero => intro i tw; exact ⟨tw, rfl, rfl, rfl⟩
  | succ n ih =>
    intro i tw
    unfold remLoop
    by_cases h : (i : Int) < (tw.length : Int)
    · have hi : i < tw.length := by exact_mod_cast h
      have e2 : (i : Int) + 1 = ((i + 1 : Nat) : Int) := by push_cast; ring
      rw [if_pos h, idx_natCast, List.getElem?_eq_getElem hi]
      simp only [Option.bind_eq_bind, Option.some_bind]
      rw [setIdx_natCast _ _ _ hi, Option.some_bind, e2]
      obtain ⟨tw1, h1, h2, h3⟩ := ih (i + 1) (tw.set i (tw[i] - w))
      refine ⟨tw1, h1, by simpa using h2, ?_⟩
      have h4 := congrArg (List.take i) h3
      rw [List.take_take, List.take_take, Nat.min_eq_left (Nat.le_succ _), take_set_self] at h4
      exact h4
    · rw [if_neg h]; exact ⟨tw, rfl, rfl, rfl⟩
/-! ## The editor calls on states with in-range indices -/

/-- `Right` away from the end of the text: the two reads of `textWidth`
succeed, the cursor advances, and the view offset either stays or jumps by
the batch of 16, clamped to `len(text) - 1`. -/
theorem Right_spec (e : editor) (c o : Nat) (hc : e.cursorIdx = (c : Int))
    (hlt : c < e.text.length) (hlen : e.textWidth.length = e.text.length + 1)
    (ho : e.offsetIdx = (o : Int)) (hle : o ≤ e.text.length) :
    ∃ a b, idx e.textWidth (e.cursorIdx + 1) = some a ∧ idx e.textWidth e.offsetIdx = some b
      ∧ Right e = some { e with
          cursorIdx := e.cursorIdx + 1,
          offsetIdx := if e.width < a - b then min (e.offsetIdx + 16) ((e.text.length : Int) - 1)
            else e.offsetIdx } := by
  have e1 : (c : Int) + 1 = ((c + 1 : Nat) : Int) := by push_cast; rfl
  have h1 : c + 1 < e.textWidth.length := by omega
  have h2 : o < e.textWidth.length := by omega
  have hne : ¬ (c : Int) = (e.text.length : Int) := by
    intro h; have : c = e.text.length := by exact_mod_cast h
    omega
  refine ⟨e.textWidth[c + 1], e.textWidth[o], ?_, ?_, ?_⟩
  · rw [hc, e1, idx_natCast, List.getElem?_eq_getElem h1]
  · rw [ho, idx_natCast, List.getElem?_eq_getElem h2]
  · unfold Right
    rw [hc, if_neg hne]
    dsimp only
    rw [e1, idx_natCast, List.getElem?_eq_getElem h1, ho, idx_natCast,
      List.getElem?_eq_getElem h2]
    simp only [Option.bind_eq_bind, Option.some_bind]
    by_cases hw : e.width < e.textWidth[c + 1] - e.textWidth[o]
    · rw [if_pos hw, if_pos hw]
      congr 2
      by_cases hm : (e.text.length : Int) - 1 < (o : Int) + 16
      · rw [if_pos hm, min_eq_right (le_of_lt hm)]
      · rw [if_neg hm, min_eq_left (not_lt.mp hm)]
    · rw [if_neg hw, if_neg hw]

/-- `PutRune` on a state whose cursor is within the text, whose width array
has one entry more than the text, and whose view offset indexes the width
array after the insertion: it does not panic, inserts `r` at the cursor,
advances the cursor, and leaves the width entries up to the cursor alone. -/
theorem PutRune_spec (rw : Rune → Int) (e : editor) (r : Rune)
    (hc0 : 0 ≤ e.cursorIdx) (hc1 : e.cursorIdx ≤ (e.text.length : Int))
    (hlen : (e.textWidth.length : Int) = (e.text.length : Int) + 1)
    (ho0 : 0 ≤ e.offsetIdx) (ho1 : e.offsetIdx ≤ (e.text.length : Int) + 1) :
    ∃ tw o, PutRune rw e r = some
        { text := e.text.take e.cursorIdx.toNat ++ r :: e.text.drop e.cursorIdx.toNat,
          textWidth := tw, cursorIdx := e.cursorIdx + 1, offsetIdx := o, width := e.width }
      ∧ tw.length = e.text.length + 2
      ∧ tw.take (e.cursorIdx.toNat + 1) = e.textWidth.take (e.cursorIdx.toNat + 1)
      ∧ (o = e.offsetIdx ∨ o = min (e.offsetIdx + 16) (e.text.length : Int)) := by
  rcases e with ⟨text, tw, ci, oi, wd⟩
  simp only at hc0 hc1 hlen ho0 ho1 ⊢
  obtain ⟨c, rfl⟩ := Int.eq_ofNat_of_zero_le hc0
  obtain ⟨o, rfl⟩ := Int.eq_ofNat_of_zero_le ho0
  have hcl : c ≤ text.length := by exact_mod_cast hc1
  have hlen1 : tw.length = text.length + 1 := by exact_mod_cast hlen
  have hol : o ≤ text.length + 1 := by exact_mod_cast ho1
  obtain ⟨A, B, rfl, rfl⟩ : ∃ A B, text = A ++ B ∧ c = A.length :=
    ⟨text.take c, text.drop c, by simp, by simp [hcl]⟩
  have e1 : (A.length : Int) + 1 = ((A.length + 1 : Nat) : Int) := by push_cast; rfl
  have hs := insert_shift A B 32 r
  rw [Option.bind_eq_some] at hs
  obtain ⟨t2, ht2, ht3⟩ := hs
  have e2 : (tw.length : Int) - 1 = (((A ++ B).length : Nat) : Int) := by
    rw [hlen1]; push_cast; ring
  have hlast : (A ++ B).length < tw.length := by omega
  obtain ⟨tw2, hp1, hp2, hp3⟩ := putLoop_spec (rw r)
    (((tw ++ [tw[(A ++ B).length] + rw r]).length : Int) - ((A.length + 1 : Nat) : Int)).toNat
    A.length (tw ++ [tw[(A ++ B).length] + rw r])
  have hr := Right_spec
    { text := A ++ r :: B, textWidth := tw2, cursorIdx := (A.length : Int),
      offsetIdx := (o : Int), width := wd } A.length o rfl (by simp)
    (by simp [hp2, hlen1]; omega) rfl (by simp at hol ⊢; omega)
  obtain ⟨a, b, -, -, hr⟩ := hr
  dsimp only at hr
  refine ⟨tw2, (if wd < a - b then min ((o : Int) + 16) (((A ++ r :: B).length : Int) - 1)
    else (o : Int)), ?_, ?_, ?_, ?_⟩
  · unfold PutRune
    dsimp only
    rw [e1, ht2]
    simp only [Option.bind_eq_bind, Option.some_bind]
    rw [ht3, e2, idx_natCast, List.getElem?_eq_getElem hlast]
    simp only [Option.some_bind]
    rw [hp1]
    simp only [Option.some_bind]
    rw [hr]
    simp
  · simp [hp2, hlen1]
  · simp only [Int.toNat_ofNat]
    rw [hp3, List.take_append_of_le_length (by omega)]
  · dsimp only
    by_cases hw : wd < a - b
    · right; rw [if_pos hw]; congr 1; simp; ring
    · left; rw [if_neg hw]

theorem split_at_index {α : Type} (l : List α) (i : Nat) (h : i < l.length) :
    ∃ A x B, l = A ++ x :: B ∧ A.length = i :=
  ⟨l.take i, l[i], l.drop (i + 1), by simp, by simp; omega⟩

/-- `RemRune` with the cursor after at least one rune, on a state whose cursor
is within the text and whose width array has one entry more than the text: it
does not panic, removes the rune before the cursor, shortens the width array
by one entry leaving the entries before the cursor alone, and ends with
`Left`. -/
theorem RemRune_spec (e : editor) (hc0 : 0 < e.cursorIdx)
    (hc1 : e.cursorIdx ≤ (e.text.length : Int))
    (hlen : (e.textWidth.length : Int) = (e.text.length : Int) + 1) :
    ∃ tw, RemRune e = some (true, Left { e with
          text := e.text.eraseIdx (e.cursorIdx - 1).toNat, textWidth := tw })
      ∧ tw.length = e.text.length
      ∧ tw.take e.cursorIdx.toNat = e.textWidth.take e.cursorIdx.toNat := by
  rcases e with ⟨text, tw, ci, oi, wd⟩
  simp only at hc0 hc1 hlen ⊢
  obtain ⟨c, rfl⟩ := Int.eq_ofNat_of_zero_le (le_of_lt hc0)
  have hc0n : 0 < c := by exact_mod_cast hc0
  have hcl : c ≤ text.length := by exact_mod_cast hc1
  have hlen1 : tw.length = text.length + 1 := by exact_mod_cast hlen
  obtain ⟨k, rfl⟩ : ∃ k, c = k + 1 := ⟨c - 1, by omega⟩
  obtain ⟨A, x, B, rfl, rfl⟩ := split_at_index text k (by omega)
  have e0 : ((A.length + 1 : Nat) : Int) - 1 = (A.length : Int) := by push_cast; ring
  have e1 : ((A.length + 1 : Nat) : Int) + 1 = ((A.length + 1 + 1 : Nat) : Int) := by
    push_cast; ring
  have hi1 : A.length + 1 < tw.length := by simp at hlen1; omega
  have hi0 : A.length < tw.length := by omega
  obtain ⟨tw1, hl1, hl2, hl3⟩ := remLoop_spec (tw[A.length + 1] - tw[A.length])
    ((tw.length : Int) - ((A.length + 1 : Nat) : Int)).toNat (A.length + 1) tw
  obtain ⟨C, y, D, rfl, hC⟩ := split_at_index tw1 (A.length + 1) (by omega)
  have hs := remove_shift C D y
  rw [hC, Option.bind_eq_some] at hs
  obtain ⟨tw2, ht2, ht3⟩ := hs
  have ht := remove_shift A B x
  rw [Option.bind_eq_some] at ht
  obtain ⟨t1, ht1, ht4⟩ := ht
  refine ⟨C ++ D, ?_, ?_, ?_⟩
  · unfold RemRune
    dsimp only
    rw [if_neg (by simp), e0, e1, idx_natCast, List.getElem?_eq_getElem hi1,
      idx_natCast, List.getElem?_eq_getElem hi0]
    simp only [Option.bind_eq_bind, Option.some_bind]
    rw [hl1]
    simp only [Option.some_bind]
    rw [ht2]
    simp only [Option.some_bind]
    rw [ht3]
    simp only [Option.some_bind]
    rw [ht1]
    simp only [Option.some_bind]
    rw [ht4, Int.toNat_ofNat, List.eraseIdx_append_of_length_le (le_refl _)]
    simp
  · simp at hl2 hlen1 ⊢; omega
  · simp only [Int.toNat_ofNat]
    rw [← hl3, ← hC]
    simp

/-! ## The invariant of the reachable states -/

/-- `Left` without its local names. -/
theorem Left_eq (e : editor) :
    Left e = if e.cursorIdx = 0 then e else
      { e with
        cursorIdx := e.cursorIdx - 1,
        offsetIdx := if e.cursorIdx - 1 ≤ e.offsetIdx then
            (if e.offsetIdx - 16 < 0 then 0 else e.offsetIdx - 16)
          else e.offsetIdx } := by
  unfold Left
  dsimp only
  split_ifs <;> rfl

theorem Left_text (e : editor) : (Left e).text = e.text := by
  rw [Left_eq]; split_ifs <;> rfl

theorem Left_textWidth (e : editor) : (Left e).textWidth = e.textWidth := by
  rw [Left_eq]; split_ifs <;> rfl

theorem Left_width (e : editor) : (Left e).width = e.width := by
  rw [Left_eq]; split_ifs <;> rfl

theorem Left_cursorIdx (e : editor) (h : e.cursorIdx ≠ 0) :
    (Left e).cursorIdx = e.cursorIdx - 1 := by
  rw [Left_eq, if_neg h]

theorem Left_inv (e : editor) (h : Inv e) : Inv (Left e) := by
  obtain ⟨⟨h1, h2, h3, h4, h5⟩, h6⟩ := h
  refine ⟨?_, by rw [Left_textWidth]; exact h6⟩
  rw [Left_eq]
  unfold WellFormed
  split_ifs <;> (try dsimp only) <;> omega

theorem Resize_inv (e : editor) (width : Int) (h : Inv e) : Inv (Resize e width) := by
  obtain ⟨⟨h1, h2, h3, h4, h5⟩, h6⟩ := h
  unfold Resize Inv WellFormed
  split_ifs <;> dsimp only <;> refine ⟨?_, h6⟩ <;> omega

theorem newEditor_inv (w : Int) : Inv (newEditor w) := by
  unfold newEditor Inv WellFormed; simp

theorem Right_inv (e : editor) (h : Inv e) : ∃ e1, Right e = some e1 ∧ Inv e1 := by
  obtain ⟨⟨h1, h2, h3, h4, h5⟩, h6⟩ := h
  by_cases hend : e.cursorIdx = (e.text.length : Int)
  · exact ⟨e, by unfold Right; rw [if_pos hend], ⟨h1, h2, h3, h4, h5⟩, h6⟩
  · obtain ⟨c, hc⟩ := Int.eq_ofNat_of_zero_le h1
    obtain ⟨o, ho⟩ := Int.eq_ofNat_of_zero_le h4
    obtain ⟨a, b, -, -, hr⟩ := Right_spec e c o hc (by omega) (by omega) ho (by omega)
    refine ⟨_, hr, ?_, h6⟩
    unfold WellFormed
    dsimp only
    split_ifs <;> omega

theorem PutRune_inv (rw : Rune → Int) (e : editor) (r : Rune) (h : Inv e) :
    ∃ e1, PutRune rw e r = some e1 ∧ Inv e1
      ∧ e1.text = e.text.take e.cursorIdx.toNat ++ r :: e.text.drop e.cursorIdx.toNat
      ∧ e1.cursorIdx = e.cursorIdx + 1 ∧ e1.width = e.width := by
  obtain ⟨⟨h1, h2, h3, h4, h5⟩, h6⟩ := h
  obtain ⟨tw, o, hp, hl, ht, ho⟩ := PutRune_spec rw e r h1 h2 h3 h4 (by omega)
  refine ⟨_, hp, ⟨?_, ?_⟩, rfl, rfl, rfl⟩
  · have hlen : (e.text.take e.cursorIdx.toNat ++ r :: e.text.drop e.cursorIdx.toNat).length
        = e.text.length + 1 := by
      simp; omega
    unfold WellFormed
    dsimp only
    rw [hlen, hl]
    push_cast
    omega
  · have := congrArg (List.take 1) ht
    rw [List.take_take, List.take_take] at this
    simpa [h6] using this

theorem RemRune_inv (e : editor) (h : Inv e) :
    ∃ ok e1, RemRune e = some (ok, e1) ∧ Inv e1 := by
  obtain ⟨⟨h1, h2, h3, h4, h5⟩, h6⟩ := h
  by_cases hc : 0 < e.cursorIdx
  · obtain ⟨tw, hr, hl, ht⟩ := RemRune_spec e hc h2 h3
    have hlen : (e.text.eraseIdx (e.cursorIdx - 1).toNat).length + 1 = e.text.length := by
      rw [List.length_eraseIdx, if_pos (by omega)]; omega
    refine ⟨true, _, hr, ?_, ?_⟩
    · rw [Left_eq]
      unfold WellFormed
      dsimp only
      split_ifs <;> dsimp only <;> omega
    · rw [Left_textWidth]
      dsimp only
      have := congrArg (List.take 1) ht
      rw [List.take_take, List.take_take] at this
      have hmin : min 1 e.cursorIdx.toNat = 1 := by omega
      rw [hmin] at this
      rw [this, h6]
  · exact ⟨false, e, by unfold RemRune; rw [if_pos hc], ⟨h1, h2, h3, h4, h5⟩, h6⟩

theorem Flush_inv (e : editor) (h : Inv e) :
    Flush e = some (goString e.text,
      { text := [], textWidth := [0], cursorIdx := 0, offsetIdx := 0, width := e.width }) := by
  obtain ⟨⟨h1, h2, h3, h4, h5⟩, h6⟩ := h
  unfold Flush
  have e0 : (0 : Int) = ((0 : Nat) : Int) := rfl
  have e1 : (1 : Int) = ((1 : Nat) : Int) := rfl
  rw [e0, sliceTo_natCast _ _ (Nat.zero_le _), e1, sliceTo_natCast _ _ (by omega), h6]
  simp

/-- No call panics on a state that satisfies the invariant, and the state it
leaves satisfies the invariant. -/
theorem step_inv (rw : Rune → Int) (e : editor) (op : Op) (h : Inv e) :
    ∃ e1, step rw e op = some e1 ∧ Inv e1 := by
  cases op with
  | putRune r =>
    obtain ⟨e1, h1, h2, -⟩ := PutRune_inv rw e r h
    exact ⟨e1, h1, h2⟩
  | remRune =>
    obtain ⟨ok, e1, h1, h2⟩ := RemRune_inv e h
    exact ⟨e1, by simp [step, h1], h2⟩
  | left => exact ⟨_, rfl, Left_inv e h⟩
  | right => exact Right_inv e h
  | resize width => exact ⟨_, rfl, Resize_inv e width h⟩
  | flush =>
    refine ⟨{ text := [], textWidth := [0], cursorIdx := 0, offsetIdx := 0, width := e.width },
      by simp [step, Flush_inv e h], ?_⟩
    unfold Inv WellFormed; simp

theorem run_inv (rw : Rune → Int) (ops : List Op) :
    ∀ e, Inv e → ∃ e1, run rw e ops = some e1 ∧ Inv e1 := by
  induction ops with
  | nil => intro e h; exact ⟨e, rfl, h⟩
  | cons op ops ih =>
    intro e h
    obtain ⟨e1, h1, h2⟩ := step_inv rw e op h
    obtain ⟨e2, h3, h4⟩ := ih e1 h2
    exact ⟨e2, by simp [run, h1, h3], h4⟩

theorem Reachable.inv {rw : Rune → Int} {w : Int} {e : editor} (h : Reachable rw w e) :
    Inv e := by
  obtain ⟨ops, hops⟩ := h
  obtain ⟨e1, h1, h2⟩ := run_inv rw ops (newEditor w) (newEditor_inv w)
  rw [hops] at h1
  cases h1
  exact h2

/-! ## Typing at the end of the text -/

/-- One `PutRune` with the cursor at the end of the text appends the rune and
leaves the cursor at the end. -/
theorem PutRune_at_end (rw : Rune → Int) (e : editor) (r : Rune) (h : Inv e)
    (hend : e.cursorIdx = (e.text.length : Int)) :
    ∃ e1, PutRune rw e r = some e1 ∧ Inv e1 ∧ e1.text = e.text ++ [r]
      ∧ e1.cursorIdx = (e1.text.length : Int) := by
  obtain ⟨e1, h1, h2, h3, h4, -⟩ := PutRune_inv rw e r h
  rw [hend, Int.toNat_ofNat, List.take_length, List.drop_length] at h3
  refine ⟨e1, h1, h2, h3, ?_⟩
  rw [h4, h3, hend]
  simp

/-- Typing the runes of `s` with the cursor at the end of the text appends `s`. -/
theorem typing_appends (rw : Rune → Int) (s : List Rune) :
    ∀ e, Inv e → e.cursorIdx = (e.text.length : Int) →
      ∃ e1, run rw e (s.map Op.putRune) = some e1 ∧ e1.text = e.text ++ s
        ∧ e1.cursorIdx = (e1.text.length : Int) := by
  induction s with
  | nil => intro e _ hend; exact ⟨e, rfl, by simp, hend⟩
  | cons r s ih =>
    intro e h hend
    obtain ⟨e1, h1, h2, h3, h4⟩ := PutRune_at_end rw e r h hend
    obtain ⟨e2, h5, h6, h7⟩ := ih e1 h2 h4
    refine ⟨e2, ?_, ?_, h7⟩
    · simp only [List.map_cons, run, step, h1, Option.some_bind]
      exact h5
    · rw [h6, h3]; simp

/-! ## The formatting step, rune by rune -/

theorem isDigit_digitRune (d : Nat) (h : d ≤ 9) : isDigit (digitRune d) = true := by
  have h1 : (48 : Int) ≤ 48 + (d : Int) := by omega
  have h2 : (48 : Int) + (d : Int) ≤ 57 := by omega
  simp [isDigit, digitRune, h1, h2]

theorem digitRune_sub (d : Nat) : digitRune d - 48 = (d : Int) := by
  unfold digitRune; ring

theorem isDigit_comma : isDigit 44 = false := by decide

theorem not_control {c : Rune} (h : isControl c = false) :
    ¬ (c = 0x00 ∨ c = 0x0F) ∧ c ≠ 0x02 ∧ c ≠ 0x03 ∧ c ≠ 0x1D ∧ c ≠ 0x1F := by
  unfold isControl at h
  simp only [Bool.or_eq_false_iff, decide_eq_false_iff_not] at h
  tauto

/-- A digit in state 1 (after `0x03`) starts the foreground number. -/
theorem formatRune_digit_1 (w : Int) (rw : Rune → Int) (f : Fmt) (x y : Int) (d : Nat)
    (hd : d ≤ 9) (hs : f.colorState = 1) :
    formatRune w rw f x y (digitRune d)
      = ({ f with fgColor := (d : Int), bgColor := 0, colorState := 2 }, x, y, []) := by
  simp [formatRune, colorStep, hs, isDigit_digitRune d hd, digitRune_sub]

/-- A digit in state 2 is the second digit of the foreground number. -/
theorem formatRune_digit_2 (w : Int) (rw : Rune → Int) (f : Fmt) (x y : Int) (d : Nat)
    (hd : d ≤ 9) (hs : f.colorState = 2) :
    formatRune w rw f x y (digitRune d)
      = ({ f with fgColor := f.fgColor * 10 + (d : Int), colorState := 3 }, x, y, []) := by
  simp [formatRune, colorStep, hs, isDigit_digitRune d hd, digitRune_sub]

/-- A comma in state 2 or 3 opens the background number. -/
theorem formatRune_comma (w : Int) (rw : Rune → Int) (f : Fmt) (x y : Int)
    (hs : f.colorState = 2 ∨ f.colorState = 3) :
    formatRune w rw f x y 44 = ({ f with colorState := 4 }, x, y, []) := by
  rcases hs with hs | hs <;> simp [formatRune, colorStep, hs, isDigit_comma]

/-- A digit in state 4 starts the background number. -/
theorem formatRune_digit_4 (w : Int) (rw : Rune → Int) (f : Fmt) (x y : Int) (d : Nat)
    (hd : d ≤ 9) (hs : f.colorState = 4) :
    formatRune w rw f x y (digitRune d)
      = ({ f with bgColor := f.bgColor * 10 + (d : Int), colorState := 5 }, x, y, []) := by
  simp [formatRune, colorStep, hs, isDigit_digitRune d hd, digitRune_sub]

/-- A digit in state 5 is the second digit of the background number: both
colours are applied. -/
theorem formatRune_digit_5 (w : Int) (rw : Rune → Int) (f : Fmt) (x y : Int) (d : Nat)
    (hd : d ≤ 9) (hs : f.colorState = 5) :
    formatRune w rw f x y (digitRune d)
      = ({ f with
            colorState := 0, bgColor := f.bgColor * 10 + (d : Int),
            st := (f.st.Foreground (colorFromCode f.fgColor)).Background
              (colorFromCode (f.bgColor * 10 + (d : Int))) }, x, y, []) := by
  simp [formatRune, colorStep, hs, isDigit_digitRune d hd, digitRune_sub]

/-- A literal rune in state 0 is written in the current style. -/
theorem formatRune_literal_0 (w : Int) (rw : Rune → Int) (f : Fmt) (x y : Int) (c : Rune)
    (hc : isControl c = false) (hs : f.colorState = 0) :
    formatRune w rw f x y c
      = (f, x + rw c, y, if 0 ≤ y then [{ x := x, y := y, r := c, st := f.st }] else []) := by
  obtain ⟨h1, h2, h3, h4, h5⟩ := not_control hc
  simp [formatRune, colorStep, hs, h1, h2, h3, h4, h5]

/-- A literal rune in state 2 or 3 ends a foreground-only code: the
foreground is applied and the rune is written. -/
theorem formatRune_literal_23 (w : Int) (rw : Rune → Int) (f : Fmt) (x y : Int) (c : Rune)
    (hc : isControl c = false) (hdig : isDigit c = false) (hcomma : c ≠ 44)
    (hs : f.colorState = 2 ∨ f.colorState = 3) :
    formatRune w rw f x y c
      = ({ f with st := f.st.Foreground (colorFromCode f.fgColor), colorState := 0 },
          x + rw c, y,
          if 0 ≤ y then
            [{ x := x, y := y, r := c, st := f.st.Foreground (colorFromCode f.fgColor) }]
          else []) := by
  obtain ⟨h1, h2, h3, h4, h5⟩ := not_control hc
  rcases hs with hs | hs <;>
    simp [formatRune, colorStep, hs, hdig, hcomma, h1, h2, h3, h4, h5]

/-- A literal rune in state 5 ends a code with a one-digit background: both
colours are applied and the rune is written. -/
theorem formatRune_literal_5 (w : Int) (rw : Rune → Int) (f : Fmt) (x y : Int) (c : Rune)
    (hc : isControl c = false) (hdig : isDigit c = false) (hs : f.colorState = 5) :
    formatRune w rw f x y c
      = ({ f with
            colorState := 0,
            st := (f.st.Foreground (colorFromCode f.fgColor)).Background
              (colorFromCode f.bgColor) },
          x + rw c, y,
          if 0 ≤ y then
            [{ x := x, y := y, r := c,
               st := (f.st.Foreground (colorFromCode f.fgColor)).Background
                 (colorFromCode f.bgColor) }]
          else []) := by
  obtain ⟨h1, h2, h3, h4, h5⟩ := not_control hc
  simp [formatRune, colorStep, hs, hdig, h1, h2, h3, h4, h5]

/-- The rune `0x03` from any state: the parse state becomes 1, the only cell
that can be written is the `,` of a pending code in state 4, the attributes
are untouched, and the background is untouched unless the state was 1 or 5. -/
theorem formatRune_etx (w : Int) (rw : Rune → Int) (f : Fmt) (x y : Int) :
    (formatRune w rw f x y 0x03).1.colorState = 1
      ∧ (∀ cell ∈ (formatRune w rw f x y 0x03).2.2.2, cell.r = 44 ∧ f.colorState = 4)
      ∧ (f.colorState ≠ 1 → f.colorState ≠ 5 →
          (formatRune w rw f x y 0x03).1.st.bg = f.st.bg)
      ∧ (f.colorState = 0 → (formatRune w rw f x y 0x03).1.st = f.st
          ∧ (formatRune w rw f x y 0x03).2.2.2 = []) := by
  have hd : isDigit 3 = false := by decide
  by_cases h1 : f.colorState = 1
  · simp [formatRune, colorStep, h1, hd]
  by_cases h2 : f.colorState = 2
  · simp [formatRune, colorStep, h2, hd, Style.Foreground]
  by_cases h3 : f.colorState = 3
  · simp [formatRune, colorStep, h3, hd, Style.Foreground]
  by_cases h4 : f.colorState = 4
  · simp [formatRune, colorStep, h4, hd, Style.Foreground]
  by_cases h5 : f.colorState = 5
  · simp [formatRune, colorStep, h5, hd]
  · simp [formatRune, colorStep, h1, h2, h3, h4, h5]

/-- A literal rune (not a control rune, not a digit, not `,`) from any parse
state: the only cell that can be written before it is the `,` of a pending
code in state 4, the rune itself is written at the cursor when its row is not
negative, in the style the variables are left with, and that style is the one
the rune `0x03` would have left. -/
theorem formatRune_literal_etx (w : Int) (rw : Rune → Int) (f : Fmt) (x y x0 y0 : Int)
    (c : Rune) (hc : isControl c = false) (hdig : isDigit c = false) (hcomma : c ≠ 44) :
    ∃ g xa ya pre,
      formatRune w rw f x y c
          = (g, xa + rw c, ya,
              pre ++ if 0 ≤ ya then [{ x := xa, y := ya, r := c, st := g.st }] else [])
        ∧ (∀ cell ∈ pre, cell.r = 44 ∧ f.colorState = 4)
        ∧ (formatRune w rw f x0 y0 0x03).1.st = g.st := by
  obtain ⟨c1, c2, c3, c4, c5⟩ := not_control hc
  have hd : isDigit 3 = false := by decide
  by_cases h1 : f.colorState = 1
  · refine ⟨(formatRune w rw f x y c).1, x, y, [], ?_, by simp, ?_⟩ <;>
      simp [formatRune, colorStep, h1, hdig, hd, c1, c2, c3, c4, c5]
  by_cases h2 : f.colorState = 2
  · refine ⟨(formatRune w rw f x y c).1, x, y, [], ?_, by simp, ?_⟩ <;>
      simp [formatRune, colorStep, h2, hdig, hcomma, hd, c1, c2, c3, c4, c5]
  by_cases h3 : f.colorState = 3
  · refine ⟨(formatRune w rw f x y c).1, x, y, [], ?_, by simp, ?_⟩ <;>
      simp [formatRune, colorStep, h3, hdig, hcomma, hd, c1, c2, c3, c4, c5]
  by_cases h4 : f.colorState = 4
  · refine ⟨(formatRune w rw f x y c).1, (if w ≤ x + 1 then 0 else x + 1),
      (if w ≤ x + 1 then y + 1 else y),
      [{ x := x, y := y, r := 44, st := f.st.Foreground (colorFromCode f.fgColor) }],
      ?_, by simp [h4], ?_⟩ <;>
      simp [formatRune, colorStep, h4, hdig, hcomma, hd, c1, c2, c3, c4, c5]
  by_cases h5 : f.colorState = 5
  · refine ⟨(formatRune w rw f x y c).1, x, y, [], ?_, by simp, ?_⟩ <;>
      simp [formatRune, colorStep, h5, hdig, hcomma, hd, c1, c2, c3, c4, c5]
  · refine ⟨(formatRune w rw f x y c).1, x, y, [], ?_, by simp, ?_⟩ <;>
      simp [formatRune, colorStep, h1, h2, h3, h4, h5, c1, c2, c3, c4, c5]

/-- A colour code after its `0x03` (parse state 1), followed by a literal
rune: only the literal rune is written, with the colours of the code. -/
theorem colour_code_from_state_1 (w : Int) (rw : Rune → Int) (f1 : Fmt)
    (pos : Nat → Int × Int) (fd : List Nat) (bd : Option (List Nat)) (c : Rune)
    (hs : f1.colorState = 1)
    (hfd : fd.length = 1 ∨ fd.length = 2) (hfd9 : ∀ d ∈ fd, d ≤ 9)
    (hbd : ∀ b, bd = some b → (b.length = 1 ∨ b.length = 2) ∧ ∀ d ∈ b, d ≤ 9)
    (hc : isControl c = false) (hdig : isDigit c = false) (hcomma : c ≠ 44) :
    ∃ f2, formatRunes w rw f1 (arriving pos (codeRunes fd bd ++ [c]))
        = (f2, if 0 ≤ (pos (codeRunes fd bd).length).2 then
            [{ x := (pos (codeRunes fd bd).length).1, y := (pos (codeRunes fd bd).length).2,
               r := c, st := f2.st }]
          else [])
      ∧ f2.st.fg = colorFromCode (codeNum fd)
      ∧ (∀ b, bd = some b → f2.st.bg = colorFromCode (codeNum b))
      ∧ (bd = none → f2.st.bg = f1.st.bg)
      ∧ f2.st.bold = f1.st.bold ∧ f2.st.underline = f1.st.underline
      ∧ f2.colorState = 0 := by
  rcases fd with _ | ⟨d1, _ | ⟨d2, _ | ⟨d3, fd⟩⟩⟩
  · simp at hfd
  · have hd1 : d1 ≤ 9 := hfd9 d1 (by simp)
    rcases bd with _ | b
    · simp [arriving, codeRunes, formatRunes, List.enum, List.enumFrom,
        formatRune_digit_1 _ _ _ _ _ _ hd1 hs,
        formatRune_literal_23 _ _ _ _ _ _ hc hdig hcomma, codeNum, Style.Foreground]
      exact ⟨_, ⟨rfl, rfl⟩, by simp⟩
    · obtain ⟨hbl, hb9⟩ := hbd b rfl
      rcases b with _ | ⟨b1, _ | ⟨b2, _ | ⟨b3, b⟩⟩⟩
      · simp at hbl
      · have hb1 : b1 ≤ 9 := hb9 b1 (by simp)
        simp [arriving, codeRunes, formatRunes, List.enum, List.enumFrom,
          formatRune_digit_1 _ _ _ _ _ _ hd1 hs, formatRune_comma,
          formatRune_digit_4 _ _ _ _ _ _ hb1,
          formatRune_literal_5 _ _ _ _ _ _ hc hdig, codeNum, Style.Foreground,
          Style.Background]
        exact ⟨_, ⟨rfl, rfl⟩, by simp⟩
      · have hb1 : b1 ≤ 9 := hb9 b1 (by simp)
        have hb2 : b2 ≤ 9 := hb9 b2 (by simp)
        simp [arriving, codeRunes, formatRunes, List.enum, List.enumFrom,
          formatRune_digit_1 _ _ _ _ _ _ hd1 hs, formatRune_comma,
          formatRune_digit_4 _ _ _ _ _ _ hb1, formatRune_digit_5 _ _ _ _ _ _ hb2,
          formatRune_literal_0 _ _ _ _ _ _ hc, codeNum, Style.Foreground,
          Style.Background]
        exact ⟨_, ⟨rfl, rfl⟩, by simp⟩
      · simp at hbl
  · have hd1 : d1 ≤ 9 := hfd9 d1 (by simp)
    have hd2 : d2 ≤ 9 := hfd9 d2 (by simp)
    rcases bd with _ | b
    · simp [arriving, codeRunes, formatRunes, List.enum, List.enumFrom,
        formatRune_digit_1 _ _ _ _ _ _ hd1 hs, formatRune_digit_2 _ _ _ _ _ _ hd2,
        formatRune_literal_23 _ _ _ _ _ _ hc hdig hcomma, codeNum, Style.Foreground]
      exact ⟨_, ⟨rfl, rfl⟩, by simp⟩
    · obtain ⟨hbl, hb9⟩ := hbd b rfl
      rcases b with _ | ⟨b1, _ | ⟨b2, _ | ⟨b3, b⟩⟩⟩
      · simp at hbl
      · have hb1 : b1 ≤ 9 := hb9 b1 (by simp)
        simp [arriving, codeRunes, formatRunes, List.enum, List.enumFrom,
          formatRune_digit_1 _ _ _ _ _ _ hd1 hs, formatRune_digit_2 _ _ _ _ _ _ hd2,
          formatRune_comma, formatRune_digit_4 _ _ _ _ _ _ hb1,
          formatRune_literal_5 _ _ _ _ _ _ hc hdig, codeNum, Style.Foreground,
          Style.Background]
        exact ⟨_, ⟨rfl, rfl⟩, by simp⟩
      · have hb1 : b1 ≤ 9 := hb9 b1 (by simp)
        have hb2 : b2 ≤ 9 := hb9 b2 (by simp)
        simp [arriving, codeRunes, formatRunes, List.enum, List.enumFrom,
          formatRune_digit_1 _ _ _ _ _ _ hd1 hs, formatRune_digit_2 _ _ _ _ _ _ hd2,
          formatRune_comma, formatRune_digit_4 _ _ _ _ _ _ hb1,
          formatRune_digit_5 _ _ _ _ _ _ hb2,
          formatRune_literal_0 _ _ _ _ _ _ hc, codeNum, Style.Foreground,
          Style.Background]
        exact ⟨_, ⟨rfl, rfl⟩, by simp⟩
      · simp at hbl
  · simp at hfd

/-! ## The render pass of a line does not panic on sound split points -/

/-- The split-point step at rune index `i`, with `spIdx` in range and the last
split point strictly after `i`: it does not panic and `spIdx` stays in range. -/
theorem splitStep_ok (w : Int) (line : Line) (p : Pos) (i : Int) (k : Nat) (pl : Point)
    (hk : p.spIdx = (k : Int)) (hlt : k < line.SplitPoints.length)
    (hlast : line.SplitPoints.getLast? = some pl) (hi : i < pl.I) :
    ∃ p1 k1, splitStep w line p i = some p1 ∧ p1.spIdx = ((k1 : Nat) : Int)
      ∧ k1 < line.SplitPoints.length := by
  unfold splitStep
  rw [hk, idx_natCast, List.getElem?_eq_getElem hlt]
  simp only [Option.bind_eq_bind, Option.some_bind]
  by_cases hm : i = line.SplitPoints[k].I
  · have hk1 : k + 1 < line.SplitPoints.length := by
      by_contra hcon
      have hkl : k = line.SplitPoints.length - 1 := by omega
      rw [List.getLast?_eq_getElem?, ← hkl, List.getElem?_eq_getElem hlt] at hlast
      cases hlast
      omega
    have e1 : (k : Int) + 1 = ((k + 1 : Nat) : Int) := by push_cast; rfl
    rw [if_pos hm, e1, idx_natCast, List.getElem?_eq_getElem hk1]
    simp only [Option.some_bind]
    split_ifs <;> exact ⟨_, k + 1, rfl, rfl, hk1⟩
  · rw [if_neg hm]
    exact ⟨p, k, rfl, hk, hlt⟩

/-- One iteration of the rune loop under the same conditions. -/
theorem drawRune_ok (w : Int) (rw : Rune → Int) (line : Line) (f : Fmt) (p : Pos) (i : Int)
    (r : Rune) (k : Nat) (pl : Point)
    (hk : p.spIdx = (k : Int)) (hlt : k < line.SplitPoints.length)
    (hlast : line.SplitPoints.getLast? = some pl) (hi : i < pl.I) :
    ∃ f1 p1 out k1, drawRune w rw line f p i r = some (f1, p1, out)
      ∧ p1.spIdx = ((k1 : Nat) : Int) ∧ k1 < line.SplitPoints.length := by
  obtain ⟨p1, k1, h1, h2, h3⟩ := splitStep_ok w line p i k pl hk hlt hlast hi
  unfold drawRune
  rw [h1]
  simp only [Option.bind_eq_bind, Option.some_bind]
  rw [h2, idx_natCast, List.getElem?_eq_getElem h3]
  simp only [Option.some_bind]
  split_ifs <;>
    first
    | exact ⟨_, _, _, k1, rfl, h2, h3⟩
    | exact ⟨_, _, _, k1, rfl, rfl, h3⟩

/-- The rune loop from index `i` on, when the last split point is at or after
the end of the runes. -/
theorem drawRunes_ok (w : Int) (rw : Rune → Int) (line : Line) (pl : Point)
    (hlast : line.SplitPoints.getLast? = some pl) (rs : List Rune) :
    ∀ (i : Int) (f : Fmt) (p : Pos) (k : Nat), p.spIdx = (k : Int) →
      k < line.SplitPoints.length → i + (rs.length : Int) ≤ pl.I →
      ∃ res, drawRunes w rw line rs i f p = some res := by
  induction rs with
  | nil => intro i f p k _ _ _; exact ⟨_, rfl⟩
  | cons r rs ih =>
    intro i f p k hk hlt hi
    have hi1 : i < pl.I := by simp at hi; omega
    obtain ⟨f1, p1, out, k1, h1, h2, h3⟩ := drawRune_ok w rw line f p i r k pl hk hlt hlast hi1
    obtain ⟨res, h4⟩ := ih (i + 1) f1 p1 k1 h2 h3 (by simp at hi; omega)
    unfold drawRunes
    rw [h1]
    simp only [Option.bind_eq_bind, Option.some_bind]
    rw [h4]
    exact ⟨_, rfl⟩

/-- The render pass of a line with sound split points does not panic. -/
theorem drawLine_ok (w : Int) (rw : Rune → Int) (line : Line) (h : LineOK line) (f : Fmt)
    (y0 : Int) : ∃ res, drawLine w rw line f y0 = some res := by
  unfold LineOK at h
  cases hl : line.SplitPoints.getLast? with
  | none => rw [hl] at h; exact absurd h (by simp)
  | some pl =>
    rw [hl] at h
    have hne : 0 < line.SplitPoints.length := by
      cases hs : line.SplitPoints with
      | nil => rw [hs] at hl; simp at hl
      | cons a l => simp
    obtain ⟨res, hr⟩ := drawRunes_ok w rw line pl hl line.Content 0 f
      { x := 0, y := y0, lastSP := { X := 0, I := 0, Split := false }, spIdx := 0 } 0 rfl hne
      (by simpa using h)
    unfold drawLine
    simp only [Option.bind_eq_bind]
    rw [hr]
    exact ⟨_, rfl⟩

/-! ## The walk over the stored lines -/

/-- A value within the 64-bit range is not changed by wrapping. -/
theorem wrapInt_eq (v : Int) (h1 : -9223372036854775808 ≤ v) (h2 : v < 9223372036854775808) :
    wrapInt v = v := by
  unfold wrapInt
  omega

/-- A wrapped value is within the 64-bit range. -/
theorem wrapInt_range (v : Int) :
    -9223372036854775808 ≤ wrapInt v ∧ wrapInt v < 9223372036854775808 := by
  unfold wrapInt
  omega

/-- The walk does not panic when every line has sound split points. -/
theorem drawLines_ok (w yEnd : Int) (rw : Rune → Int) (rh : Line → Int → Int)
    (ls : List Line) (hok : ∀ l ∈ ls, LineOK l) :
    ∀ (k : Nat) (f : Fmt) (y0 : Int), ∃ res, drawLines w yEnd rw rh ls k f y0 = some res := by
  induction ls with
  | nil => intro k f y0; exact ⟨_, rfl⟩
  | cons l older ih =>
    intro k f y0
    have ih1 := ih (fun a ha => hok a (List.mem_cons_of_mem _ ha))
    unfold drawLines
    by_cases h0 : y0 < 0
    · rw [if_pos h0]; exact ⟨_, rfl⟩
    · rw [if_neg h0]
      dsimp only
      by_cases h1 : yEnd ≤ wrapInt (y0 - rh l w)
      · rw [if_pos h1]; exact ih1 _ _ _
      · rw [if_neg h1]
        obtain ⟨⟨f1, out1⟩, hl⟩ := drawLine_ok w rw l (hok l (List.mem_cons_self _ _)) f
          (wrapInt (y0 - rh l w))
        obtain ⟨⟨f2, y2, out2, passes⟩, hr⟩ := ih1 (k + 1) f1 (wrapInt (y0 - rh l w))
        rw [hl]
        simp only [Option.bind_eq_bind, Option.some_bind]
        rw [hr]
        exact ⟨_, rfl⟩

theorem walkRow_zero (w : Int) (rh : Line → Int → Int) (ls : List Line) (y0 : Int) :
    walkRow w rh ls y0 0 = y0 := by
  cases ls <;> rfl

/-- The row `y0` the walk ends with is non-negative exactly when it was
non-negative before every line and after the last one. -/
theorem drawLines_y (w yEnd : Int) (rw : Rune → Int) (rh : Line → Int → Int)
    (ls : List Line) :
    ∀ (k : Nat) (f : Fmt) (y0 : Int) (f1 : Fmt) (y1 : Int) (out : List Cell)
      (passes : List (Nat × Int)),
      drawLines w yEnd rw rh ls k f y0 = some (f1, y1, out, passes) →
      (0 ≤ y1 ↔ ∀ m, m ≤ ls.length → 0 ≤ walkRow w rh ls y0 m) := by
  induction ls with
  | nil =>
    intro k f y0 f1 y1 out passes h
    simp only [drawLines, Option.some.injEq, Prod.mk.injEq] at h
    obtain ⟨-, rfl, -, -⟩ := h
    constructor
    · intro h0 m _
      cases m with
      | zero => exact h0
      | succ m => exact h0
    · intro hall; exact hall 0 (Nat.le_refl _)
  | cons l older ih =>
    intro k f y0 f1 y1 out passes h
    have key : ∀ y2 : Int, (0 ≤ y2 ↔ ∀ m, m ≤ older.length →
        0 ≤ walkRow w rh older (wrapInt (y0 - rh l w)) m) →
        ¬ y0 < 0 →
        (0 ≤ y2 ↔ ∀ m, m ≤ (l :: older).length → 0 ≤ walkRow w rh (l :: older) y0 m) := by
      intro y2 hy hn
      rw [hy]
      constructor
      · intro hall m hm
        cases m with
        | zero => rw [walkRow_zero]; omega
        | succ m => exact hall m (by simpa using hm)
      · intro hall m hm
        exact hall (m + 1) (by simpa using hm)
    unfold drawLines at h
    by_cases h0 : y0 < 0
    · rw [if_pos h0] at h
      simp only [Option.some.injEq, Prod.mk.injEq] at h
      obtain ⟨-, rfl, -, -⟩ := h
      constructor
      · intro hy; omega
      · intro hall
        have := hall 0 (Nat.zero_le _)
        rw [walkRow_zero] at this
        omega
    · rw [if_neg h0] at h
      dsimp only at h
      by_cases h1 : yEnd ≤ wrapInt (y0 - rh l w)
      · rw [if_pos h1] at h
        exact key y1 (ih _ _ _ _ _ _ _ h) h0
      · rw [if_neg h1] at h
        cases hl : drawLine w rw l f (wrapInt (y0 - rh l w)) with
        | none => rw [hl] at h; simp at h
        | some r1 =>
          obtain ⟨f2, out1⟩ := r1
          rw [hl] at h
          simp only [Option.bind_eq_bind, Option.some_bind] at h
          cases hr : drawLines w yEnd rw rh older (k + 1) f2 (wrapInt (y0 - rh l w)) with
          | none => rw [hr] at h; simp at h
          | some r2 =>
            obtain ⟨f3, y3, out2, passes2⟩ := r2
            rw [hr] at h
            simp only [Option.some_bind, Option.some.injEq, Prod.mk.injEq] at h
            obtain ⟨-, rfl, -, -⟩ := h
            exact key y3 (ih _ _ _ _ _ _ _ hr) h0

/-- For lines whose heights are non-negative Go integers, the rows of the walk
stay non-negative exactly when the heights sum to at most the first row. -/
theorem walkRow_nonneg_iff (w : Int) (rh : Line → Int → Int) (ls : List Line)
    (hnn : ∀ l ∈ ls, 0 ≤ rh l w ∧ rh l w < 9223372036854775808) :
    ∀ (y0 : Int), y0 < 9223372036854775808 →
      ((∀ m, m ≤ ls.length → 0 ≤ walkRow w rh ls y0 m)
        ↔ (ls.map (fun l => rh l w)).sum ≤ y0) := by
  induction ls with
  | nil =>
    intro y0 _
    constructor
    · intro hall; simpa [walkRow_zero] using hall 0 (Nat.le_refl _)
    · intro h0 m _
      cases m with
      | zero => simpa using h0
      | succ m => simpa [walkRow] using h0
  | cons l older ih =>
    intro y0 hy0
    have ih1 := ih (fun a ha => hnn a (List.mem_cons_of_mem _ ha))
    obtain ⟨hl0, hl1⟩ := hnn l (List.mem_cons_self _ _)
    have hsum : 0 ≤ (older.map (fun l => rh l w)).sum := by
      apply List.sum_nonneg
      intro x hx
      obtain ⟨a, ha, rfl⟩ := List.mem_map.mp hx
      exact (hnn a (List.mem_cons_of_mem _ ha)).1
    simp only [List.map_cons, List.sum_cons]
    by_cases h0 : y0 < 0
    · constructor
      · intro hall
        have := hall 0 (Nat.zero_le _)
        rw [walkRow_zero] at this
        omega
      · intro hle; omega
    · have hw : wrapInt (y0 - rh l w) = y0 - rh l w := wrapInt_eq _ (by omega) (by omega)
      have ih2 := ih1 (y0 - rh l w) (by omega)
      constructor
      · intro hall
        have : (older.map (fun l => rh l w)).sum ≤ y0 - rh l w := by
          apply ih2.mp
          intro m hm
          have := hall (m + 1) (by simpa using hm)
          simpa only [walkRow, hw] using this
        omega
      · intro hle m hm
        cases m with
        | zero => rw [walkRow_zero]; omega
        | succ m =>
          have := ih2.mpr (by omega) m (by simpa using hm)
          simpa only [walkRow, hw] using this

/-- The render passes of the walk, for lines whose heights are non-negative
Go integers and a first row that is a Go integer: the line
`m` places after the head is rendered exactly when the row below it is not
negative and its own top row is above `yEnd`, and its pass starts at that top
row. -/
theorem drawLines_passes (w yEnd : Int) (rw : Rune → Int) (rh : Line → Int → Int)
    (ls : List Line) (hnn : ∀ l ∈ ls, 0 ≤ rh l w ∧ rh l w < 9223372036854775808) :
    ∀ (k : Nat) (f : Fmt) (y0 : Int) (f1 : Fmt) (y1 : Int) (out : List Cell)
      (passes : List (Nat × Int)), y0 < 9223372036854775808 →
      drawLines w yEnd rw rh ls k f y0 = some (f1, y1, out, passes) →
      ∀ (j : Nat) (row : Int), (j, row) ∈ passes ↔
        ∃ m, m < ls.length ∧ j = k + m
          ∧ 0 ≤ y0 - ((ls.take m).map (fun l => rh l w)).sum
          ∧ row = y0 - ((ls.take (m + 1)).map (fun l => rh l w)).sum
          ∧ row < yEnd := by
  induction ls with
  | nil =>
    intro k f y0 f1 y1 out passes _ h j row
    simp only [drawLines, Option.some.injEq, Prod.mk.injEq] at h
    obtain ⟨-, -, -, rfl⟩ := h
    simp
  | cons l older ih =>
    intro k f y0 f1 y1 out passes hy0 h j row
    have ih1 := ih (fun a ha => hnn a (List.mem_cons_of_mem _ ha))
    obtain ⟨hl0, hl1⟩ := hnn l (List.mem_cons_self _ _)
    have hsum : ∀ m, 0 ≤ (((l :: older).take m).map (fun l => rh l w)).sum := by
      intro m
      apply List.sum_nonneg
      intro x hx
      obtain ⟨a, ha, rfl⟩ := List.mem_map.mp hx
      exact (hnn a (List.mem_of_mem_take ha)).1
    -- the passes of the older lines, seen from the head of the list
    have shift : ∀ (ps : List (Nat × Int)),
        (∀ (j : Nat) (row : Int), (j, row) ∈ ps ↔
          ∃ m, m < older.length ∧ j = k + 1 + m
            ∧ 0 ≤ y0 - rh l w - ((older.take m).map (fun l => rh l w)).sum
            ∧ row = y0 - rh l w - ((older.take (m + 1)).map (fun l => rh l w)).sum
            ∧ row < yEnd) →
        ∀ (j : Nat) (row : Int), (j, row) ∈ ps ↔
          ∃ m, m < (l :: older).length ∧ 1 ≤ m ∧ j = k + m
            ∧ 0 ≤ y0 - (((l :: older).take m).map (fun l => rh l w)).sum
            ∧ row = y0 - (((l :: older).take (m + 1)).map (fun l => rh l w)).sum
            ∧ row < yEnd := by
      intro ps hps j row
      rw [hps]
      constructor
      · rintro ⟨m, h1, h2, h3, h4, h5⟩
        refine ⟨m + 1, by simpa using h1, by omega, by omega, ?_, ?_, h5⟩
        · simp only [List.take_succ_cons, List.map_cons, List.sum_cons]; omega
        · simp only [List.take_succ_cons, List.map_cons, List.sum_cons]; omega
      · rintro ⟨m, h1, h2, h3, h4, h5, h6⟩
        obtain ⟨m, rfl⟩ : ∃ n, m = n + 1 := ⟨m - 1, by omega⟩
        simp only [List.take_succ_cons, List.map_cons, List.sum_cons] at h4 h5
        exact ⟨m, by simpa using h1, by omega, by omega, by omega, h6⟩
    unfold drawLines at h
    by_cases h0 : y0 < 0
    · rw [if_pos h0] at h
      simp only [Option.some.injEq, Prod.mk.injEq] at h
      obtain ⟨-, -, -, rfl⟩ := h
      constructor
      · intro hin; simp at hin
      · rintro ⟨m, -, -, h3, -⟩
        have := hsum m
        omega
    · rw [if_neg h0] at h
      dsimp only at h
      rw [wrapInt_eq (y0 - rh l w) (by omega) (by omega)] at h
      have hy1 : y0 - rh l w < 9223372036854775808 := by omega
      by_cases h1 : yEnd ≤ y0 - rh l w
      · rw [if_pos h1] at h
        rw [shift passes (ih1 _ _ _ _ _ _ _ hy1 h) j row]
        constructor
        · rintro ⟨m, h2, -, h3⟩; exact ⟨m, h2, h3⟩
        · rintro ⟨m, h2, h3, h4, h5, h6⟩
          refine ⟨m, h2, ?_, h3, h4, h5, h6⟩
          by_contra hm
          have hm0 : m = 0 := by omega
          subst hm0
          simp at h5
          omega
      · rw [if_neg h1] at h
        cases hl : drawLine w rw l f (y0 - rh l w) with
        | none => rw [hl] at h; simp at h
        | some r1 =>
          obtain ⟨f2, out1⟩ := r1
          rw [hl] at h
          simp only [Option.bind_eq_bind, Option.some_bind] at h
          cases hr : drawLines w yEnd rw rh older (k + 1) f2 (y0 - rh l w) with
          | none => rw [hr] at h; simp at h
          | some r2 =>
            obtain ⟨f3, y3, out2, passes2⟩ := r2
            rw [hr] at h
            simp only [Option.some_bind, Option.some.injEq, Prod.mk.injEq] at h
            obtain ⟨-, -, -, rfl⟩ := h
            rw [List.mem_cons, shift passes2 (ih1 _ _ _ _ _ _ _ hy1 hr) j row]
            constructor
            · rintro (heq | ⟨m, h2, -, h3⟩)
              · simp only [Prod.mk.injEq] at heq
                obtain ⟨rfl, rfl⟩ := heq
                refine ⟨0, by simp, by simp, by simp; omega, by simp, by omega⟩
              · exact ⟨m, h2, h3⟩
            · rintro ⟨m, h2, h3, h4, h5, h6⟩
              by_cases hm : m = 0
              · subst hm
                left
                simp at h5
                simp only [Prod.mk.injEq]
                exact ⟨by omega, h5⟩
              · right
                exact ⟨m, h2, by omega, h3, h4, h5, h6⟩

/-- The prefix sums of a list of non-negative numbers do not exceed its sum. -/
theorem sum_take_le_sum (l : List Int) (hnn : ∀ x ∈ l, 0 ≤ x) (m : Nat) :
    (l.take m).sum ≤ l.sum := by
  have h := List.sum_take_add_sum_drop l m
  have hd : 0 ≤ (l.drop m).sum :=
    List.sum_nonneg (fun x hx => hnn x (List.mem_of_mem_drop hx))
  omega

/-- What `drawBuffer` returns on a screen of height at least 3 with a
non-empty buffer, in terms of the walk. -/
theorem drawBuffer_eq (w h : Int) (rw : Rune → Int) (rh : Line → Int → Int) (s : Int)
    (atTop : Bool) (content : List Line) (hh : 3 ≤ h) (hne : content ≠ []) (res : DrawResult)
    (hres : drawBuffer w h rw rh s atTop content = some res) :
    ∃ f1 y1 out, drawLines w (h - 3) rw rh content.reverse 1 Fmt.init (wrapInt (s + h - 3))
        = some (f1, y1, out, res.passes)
      ∧ res.scrollAtTop = decide (0 ≤ y1) := by
  unfold drawBuffer at hres
  have hlen : ¬ content.length = 0 := by
    intro h0; exact hne (List.length_eq_zero.mp h0)
  rw [if_neg (by omega), if_neg hlen] at hres
  dsimp only at hres
  cases hd : drawLines w (h - 3) rw rh content.reverse 1 Fmt.init (wrapInt (s + h - 3)) with
  | none => rw [hd] at hres; simp at hres
  | some r =>
    obtain ⟨f1, y1, out, passes⟩ := r
    rw [hd] at hres
    simp only [Option.bind_eq_bind, Option.some_bind, Option.some.injEq] at hres
    subst hres
    exact ⟨f1, y1, out, rfl, rfl⟩

/-- `drawBuffer` does not panic when every line has sound split points. -/
theorem drawBuffer_ok (w h : Int) (rw : Rune → Int) (rh : Line → Int → Int) (s : Int)
    (atTop : Bool) (content : List Line) (hok : ∀ l ∈ content, LineOK l) :
    ∃ res, drawBuffer w h rw rh s atTop content = some res := by
  unfold drawBuffer
  split_ifs
  · exact ⟨_, rfl⟩
  · exact ⟨_, rfl⟩
  · dsimp only
    obtain ⟨⟨f1, y1, out, passes⟩, hd⟩ := drawLines_ok w (h - 3) rw rh content.reverse
      (fun l hl => hok l (List.mem_reverse.mp hl)) 1 Fmt.init (wrapInt (s + h - 3))
    rw [hd]
    exact ⟨_, rfl⟩

/-! ## The width array stays non-decreasing -/

/-- Non-decreasing among the first `m` entries. -/
theorem nonDecreasing_of_upTo (tw : List Int) (m : Nat) (hm : tw.length ≤ m)
    (h : ∀ (i : Nat) (a b : Int), i + 1 < m → tw[i]? = some a → tw[i + 1]? = some b → a ≤ b) :
    NonDecreasing tw := by
  intro i a b ha hb
  have hlt : i + 1 < tw.length := by
    by_contra hcon
    rw [List.getElem?_eq_none (by omega)] at hb
    cases hb
  exact h i a b (by omega) ha hb

/-- The loop of `PutRune` with a non-negative width, started at `k + 1` on an
array that is non-decreasing among its first `k + 1` entries, leaves a
non-decreasing array. -/
theorem putLoop_nonDecreasing (w : Int) (hw : 0 ≤ w) (n : Nat) :
    ∀ (k : Nat) (tw tw1 : List Int), putLoop w n ((k + 1 : Nat) : Int) tw = some tw1 →
      tw.length ≤ k + 1 + n →
      (∀ (i : Nat) (a b : Int), i + 1 < k + 1 → tw[i]? = some a → tw[i + 1]? = some b → a ≤ b) →
      NonDecreasing tw1 := by
  induction n with
  | zero =>
    intro k tw tw1 h hlen hm
    simp only [putLoop, Option.some.injEq] at h
    subst h
    exact nonDecreasing_of_upTo tw (k + 1) (by omega) hm
  | succ n ih =>
    intro k tw tw1 h hlen hm
    unfold putLoop at h
    by_cases hlt : ((k + 1 : Nat) : Int) < (tw.length : Int)
    · have hk : k + 1 < tw.length := by exact_mod_cast hlt
      have hk0 : k < tw.length := by omega
      have e1 : ((k + 1 : Nat) : Int) - 1 = (k : Int) := by push_cast; ring
      have e2 : ((k + 1 : Nat) : Int) + 1 = ((k + 1 + 1 : Nat) : Int) := by push_cast; ring
      rw [if_pos hlt, e1, idx_natCast, List.getElem?_eq_getElem hk0] at h
      simp only [Option.bind_eq_bind, Option.some_bind] at h
      rw [setIdx_natCast _ _ _ hk, Option.some_bind, e2] at h
      refine ih (k + 1) _ tw1 h (by simp; omega) ?_
      intro i a b hi ha hb
      rw [List.getElem?_set] at ha hb
      by_cases hik : i = k
      · subst hik
        rw [if_neg (by omega)] at ha
        rw [if_pos rfl, if_pos hk] at hb
        rw [List.getElem?_eq_getElem hk0] at ha
        cases ha; cases hb
        omega
      · rw [if_neg (by omega)] at ha hb
        exact hm i a b (by omega) ha hb
    · rw [if_neg hlt] at h
      cases h
      have : ¬ (k + 1 < tw.length) := by intro hc; exact hlt (by exact_mod_cast hc)
      exact nonDecreasing_of_upTo tw (k + 1) (by omega) hm

/-- The entries the loop of `RemRune` leaves: those before its start are
untouched, the others are lowered by `w`. -/
theorem remLoop_get (w : Int) (n : Nat) :
    ∀ (i : Nat) (tw tw1 : List Int), remLoop w n (i : Int) tw = some tw1 →
      tw.length ≤ i + n →
      ∀ j : Nat, tw1[j]? = if j < i then tw[j]? else (tw[j]?).map (fun v => v - w) := by
  induction n with
  | zero =>
    intro i tw tw1 h hlen j
    simp only [remLoop, Option.some.injEq] at h
    subst h
    split_ifs with hj
    · rfl
    · rw [List.getElem?_eq_none (by omega)]; rfl
  | succ n ih =>
    intro i tw tw1 h hlen j
    unfold remLoop at h
    by_cases hlt : (i : Int) < (tw.length : Int)
    · have hi : i < tw.length := by exact_mod_cast hlt
      have e2 : (i : Int) + 1 = ((i + 1 : Nat) : Int) := by push_cast; ring
      rw [if_pos hlt, idx_natCast, List.getElem?_eq_getElem hi] at h
      simp only [Option.bind_eq_bind, Option.some_bind] at h
      rw [setIdx_natCast _ _ _ hi, Option.some_bind, e2] at h
      rw [ih (i + 1) _ tw1 h (by simp; omega) j]
      rcases Nat.lt_trichotomy j i with hj | hj | hj
      · rw [if_pos (by omega), if_pos hj, List.getElem?_set_ne (by omega)]
      · subst hj
        rw [if_pos (by omega), if_neg (by omega), List.getElem?_set_self hi,
          List.getElem?_eq_getElem hi]
        rfl
      · rw [if_neg (by omega), if_neg (by omega), List.getElem?_set_ne (by omega)]
    · rw [if_neg hlt] at h
      cases h
      have : ¬ (i < tw.length) := by intro hc; exact hlt (by exact_mod_cast hc)
      split_ifs with hj
      · rfl
      · rw [List.getElem?_eq_none (by omega)]; rfl

theorem Right_fields (e e1 : editor) (h : Right e = some e1) :
    e1.text = e.text ∧ e1.textWidth = e.textWidth ∧ e1.width = e.width := by
  unfold Right at h
  split_ifs at h with h0
  · cases h; exact ⟨rfl, rfl, rfl⟩
  · simp only [Option.bind_eq_bind, Option.bind_eq_some] at h
    obtain ⟨a, -, b, -, h⟩ := h
    split_ifs at h <;> cases h <;> exact ⟨rfl, rfl, rfl⟩

/-- `PutRune` of a rune of non-negative width keeps the width array
non-decreasing. -/
theorem PutRune_nonDecreasing (rw : Rune → Int) (e e1 : editor) (r : Rune)
    (h : PutRune rw e r = some e1) (hinv : Inv e) (hw : 0 ≤ rw r)
    (hm : NonDecreasing e.textWidth) : NonDecreasing e1.textWidth := by
  obtain ⟨⟨h1, h2, h3, -, -⟩, -⟩ := hinv
  obtain ⟨c, hc⟩ := Int.eq_ofNat_of_zero_le h1
  have hcl : c ≤ e.text.length := by rw [hc] at h2; exact_mod_cast h2
  have hlen : e.textWidth.length = e.text.length + 1 := by exact_mod_cast h3
  unfold PutRune at h
  simp only [Option.bind_eq_bind, Option.bind_eq_some] at h
  obtain ⟨text2, -, text3, -, twv, -, tw2, hp, hr⟩ := h
  obtain ⟨-, htw, -⟩ := Right_fields _ _ hr
  rw [htw]
  dsimp only
  have e1 : e.cursorIdx + 1 = ((c + 1 : Nat) : Int) := by rw [hc]; push_cast; rfl
  rw [e1] at hp
  refine putLoop_nonDecreasing (rw r) hw _ c _ tw2 hp ?_ ?_
  · simp only [List.length_append, List.length_singleton, Nat.cast_add, Nat.cast_one]
    omega
  · intro i a b hi ha hb
    rw [List.getElem?_append_left (by omega)] at ha hb
    exact hm i a b ha hb

/-- `RemRune` keeps the width array non-decreasing. -/
theorem RemRune_nonDecreasing (e e1 : editor) (ok : Bool)
    (h : RemRune e = some (ok, e1)) (hinv : Inv e)
    (hm : NonDecreasing e.textWidth) : NonDecreasing e1.textWidth := by
  obtain ⟨⟨h1, h2, h3, -, -⟩, -⟩ := hinv
  unfold RemRune at h
  by_cases hc0 : 0 < e.cursorIdx
  · rw [if_neg (not_not.mpr hc0)] at h
    obtain ⟨c, hc⟩ := Int.eq_ofNat_of_zero_le h1
    have hcl : c ≤ e.text.length := by rw [hc] at h2; exact_mod_cast h2
    have hcpos : 0 < c := by rw [hc] at hc0; exact_mod_cast hc0
    have hlen : e.textWidth.length = e.text.length + 1 := by exact_mod_cast h3
    obtain ⟨k, rfl⟩ : ∃ k, c = k + 1 := ⟨c - 1, by omega⟩
    have hi1 : k + 1 < e.textWidth.length := by omega
    have hi0 : k < e.textWidth.length := by omega
    have e0 : ((k + 1 : Nat) : Int) - 1 = (k : Int) := by push_cast; ring
    have e1 : ((k + 1 : Nat) : Int) + 1 = ((k + 1 + 1 : Nat) : Int) := by push_cast; ring
    rw [hc, e0, e1, idx_natCast, List.getElem?_eq_getElem hi1, idx_natCast,
      List.getElem?_eq_getElem hi0] at h
    simp only [Option.bind_eq_bind, Option.some_bind, Option.bind_eq_some] at h
    obtain ⟨tw1, hl, tw2, hcw, tw3, hsl, text1, -, text2, -, hres⟩ := h
    simp only [Option.some.injEq, Prod.mk.injEq] at hres
    obtain ⟨-, rfl⟩ := hres
    rw [Left_textWidth]
    dsimp only
    have hget := remLoop_get _ _ (k + 1) e.textWidth tw1 hl (by omega)
    have hlen1 : tw1.length = e.textWidth.length := by
      obtain ⟨x, hx, hx2, -⟩ := remLoop_spec (e.textWidth[k + 1] - e.textWidth[k])
        ((e.textWidth.length : Int) - ((k + 1 : Nat) : Int)).toNat (k + 1) e.textWidth
      rw [hl] at hx; cases hx; exact hx2
    obtain ⟨C, y, D, rfl, hC⟩ := split_at_index tw1 (k + 1) (by omega)
    have hs := remove_shift C D y
    rw [hC, hcw, Option.some_bind, hsl] at hs
    cases hs
    -- the entries of the array after the call, from those before it
    have hnew : ∀ j : Nat, (C ++ D)[j]? = if j < k + 1 then e.textWidth[j]?
        else (e.textWidth[j + 1]?).map
          (fun v => v - (e.textWidth[k + 1] - e.textWidth[k])) := by
      intro j
      by_cases hj : j < k + 1
      · rw [if_pos hj, List.getElem?_append_left (by omega)]
        have := hget j
        rw [if_pos hj, List.getElem?_append_left (by omega)] at this
        exact this
      · rw [if_neg hj, List.getElem?_append_right (by omega)]
        have := hget (j + 1)
        rw [if_neg (by omega), List.getElem?_append_right (by omega)] at this
        rw [← this, hC]
        have e3 : j + 1 - (k + 1) = (j - (k + 1)) + 1 := by omega
        rw [e3, List.getElem?_cons_succ]
    intro i a b ha hb
    rw [hnew] at ha hb
    by_cases hik : i + 1 < k + 1
    · rw [if_pos (by omega)] at ha
      rw [if_pos hik] at hb
      exact hm i a b ha hb
    · by_cases hik2 : i < k + 1
      · have hik3 : i = k := by omega
        subst hik3
        rw [if_pos hik2, List.getElem?_eq_getElem hi0] at ha
        rw [if_neg (by omega)] at hb
        cases ha
        obtain ⟨v, hv, rfl⟩ := Option.map_eq_some'.mp hb
        have := hm (i + 1) _ v (List.getElem?_eq_getElem hi1) hv
        omega
      · rw [if_neg hik2] at ha
        rw [if_neg (by omega)] at hb
        obtain ⟨u, hu, rfl⟩ := Option.map_eq_some'.mp ha
        obtain ⟨v, hv, rfl⟩ := Option.map_eq_some'.mp hb
        have := hm (i + 1) u v hu hv
        omega
  · rw [if_pos hc0] at h
    simp only [Option.some.injEq, Prod.mk.injEq] at h
    obtain ⟨-, rfl⟩ := h
    exact hm

theorem Resize_textWidth (e : editor) (width : Int) :
    (Resize e width).textWidth = e.textWidth := by
  unfold Resize; split_ifs <;> rfl

/-- One call keeps the width array non-decreasing when `RuneWidth` is
non-negative. -/
theorem step_nonDecreasing (rw : Rune → Int) (hrw : ∀ r, 0 ≤ rw r) (e e1 : editor) (op : Op)
    (h : step rw e op = some e1) (hinv : Inv e) (hm : NonDecreasing e.textWidth) :
    NonDecreasing e1.textWidth := by
  cases op with
  | putRune r => exact PutRune_nonDecreasing rw e e1 r h hinv (hrw r) hm
  | remRune =>
    simp only [step, Option.map_eq_some'] at h
    obtain ⟨⟨ok, e2⟩, h1, rfl⟩ := h
    exact RemRune_nonDecreasing e e2 ok h1 hinv hm
  | left =>
    simp only [step, Option.some.injEq] at h
    subst h
    rw [Left_textWidth]; exact hm
  | right =>
    obtain ⟨-, h2, -⟩ := Right_fields e e1 h
    rw [h2]; exact hm
  | resize width =>
    simp only [step, Option.some.injEq] at h
    subst h
    rw [Resize_textWidth]; exact hm
  | flush =>
    simp only [step, Flush_inv e hinv, Option.map_some', Option.some.injEq] at h
    subst h
    intro i a b ha hb
    simp at hb

theorem run_nonDecreasing (rw : Rune → Int) (hrw : ∀ r, 0 ≤ rw r) (ops : List Op) :
    ∀ e e1, run rw e ops = some e1 → Inv e → NonDecreasing e.textWidth →
      NonDecreasing e1.textWidth := by
  induction ops with
  | nil =>
    intro e e1 h _ hm
    simp only [run, Option.some.injEq] at h
    subst h; exact hm
  | cons op ops ih =>
    intro e e1 h hinv hm
    obtain ⟨e2, h1, h2⟩ := step_inv rw e op hinv
    simp only [run, h1, Option.some_bind] at h
    exact ih e2 e1 h h2 (step_nonDecreasing rw hrw e e2 op h1 hinv hm)


/-! ## Digits and commas after a complete colour number -/

theorem isControl_digitRune (d : Nat) (h : d ≤ 9) : isControl (digitRune d) = false := by
  have hne : ∀ v : Int, v < 48 → (48 : Int) + (d : Int) ≠ v := by
    intro v hv; omega
  simp [isControl, digitRune, hne 0 (by decide), hne 0x0F (by decide), hne 0x02 (by decide),
    hne 0x03 (by decide), hne 0x1D (by decide), hne 0x1F (by decide)]

theorem digitRune_ne_comma (d : Nat) : digitRune d ≠ 44 := by
  have hne : (48 : Int) + (d : Int) ≠ 44 := by omega
  exact hne

/-- A rune that is neither `,` nor a control rune, in state 3 (after two
foreground digits), ends the code: the foreground is applied and the rune is
written, also when it is a digit. -/
theorem formatRune_literal_3 (w : Int) (rw : Rune → Int) (f : Fmt) (x y : Int) (c : Rune)
    (hc : isControl c = false) (hcomma : c ≠ 44) (hs : f.colorState = 3) :
    formatRune w rw f x y c
      = ({ f with st := f.st.Foreground (colorFromCode f.fgColor), colorState := 0 },
          x + rw c, y,
          if 0 ≤ y then
            [{ x := x, y := y, r := c, st := f.st.Foreground (colorFromCode f.fgColor) }]
          else []) := by
  obtain ⟨h1, h2, h3, h4, h5⟩ := not_control hc
  simp [formatRune, colorStep, hs, hcomma, h1, h2, h3, h4, h5]


/-- The state `PutRune` hands to `Right`: the text with the rune inserted and
the width array extended, cursor and view offset not moved yet. -/
theorem PutRune_eq_Right (rw : Rune → Int) (e : editor) (r : Rune) (h : WellFormed e) :
    ∃ e0, PutRune rw e r = Right e0 ∧ WellFormed e0
      ∧ e0.text = e.text.take e.cursorIdx.toNat ++ r :: e.text.drop e.cursorIdx.toNat
      ∧ e0.cursorIdx = e.cursorIdx ∧ e0.offsetIdx = e.offsetIdx ∧ e0.width = e.width := by
  obtain ⟨h1, h2, h3, h4, h5⟩ := h
  rcases e with ⟨text, tw, ci, oi, wd⟩
  simp only at h1 h2 h3 h4 h5 ⊢
  obtain ⟨c, rfl⟩ := Int.eq_ofNat_of_zero_le h1
  have hcl : c ≤ text.length := by exact_mod_cast h2
  have hlen1 : tw.length = text.length + 1 := by exact_mod_cast h3
  obtain ⟨A, B, rfl, rfl⟩ : ∃ A B, text = A ++ B ∧ c = A.length :=
    ⟨text.take c, text.drop c, by simp, by simp [hcl]⟩
  have e1 : (A.length : Int) + 1 = ((A.length + 1 : Nat) : Int) := by push_cast; rfl
  have hs := insert_shift A B 32 r
  rw [Option.bind_eq_some] at hs
  obtain ⟨t2, ht2, ht3⟩ := hs
  have e2 : (tw.length : Int) - 1 = (((A ++ B).length : Nat) : Int) := by
    rw [hlen1]; push_cast; ring
  have hlast : (A ++ B).length < tw.length := by omega
  obtain ⟨tw2, hp1, hp2, -⟩ := putLoop_spec (rw r)
    (((tw ++ [tw[(A ++ B).length] + rw r]).length : Int) - ((A.length + 1 : Nat) : Int)).toNat
    A.length (tw ++ [tw[(A ++ B).length] + rw r])
  refine ⟨{ text := A ++ r :: B, textWidth := tw2, cursorIdx := (A.length : Int),
            offsetIdx := oi, width := wd }, ?_, ?_, ?_, rfl, rfl, rfl⟩
  · unfold PutRune
    dsimp only
    rw [e1, ht2]
    simp only [Option.bind_eq_bind, Option.some_bind]
    rw [ht3, e2, idx_natCast, List.getElem?_eq_getElem hlast]
    simp only [Option.some_bind]
    rw [hp1]
    simp only [Option.some_bind]
  · have hl2 : tw2.length = A.length + B.length + 2 := by
      simp at hp2 hlen1; omega
    have h5a : oi = 0 ∨ oi < (A.length : Int) + (B.length : Int) := by
      simpa using h5
    unfold WellFormed
    dsimp only
    rw [hl2]
    simp only [List.length_append, List.length_cons]
    push_cast
    omega
  · simp

/-! ## The reading calls on the editor -/

/-- The first loop of `Draw`, started at an index that is not negative, reads
the text within bounds. -/
theorem drawTextLoop_ok (rw : Rune → Int) (text : List Rune) (width y : Int) (n : Nat) :
    ∀ (i : Nat) (x : Int), ∃ res, drawTextLoop rw text width y n (i : Int) x = some res := by
  induction n with
  | zero => intro i x; exact ⟨_, rfl⟩
  | succ n ih =>
    intro i x
    unfold drawTextLoop
    by_cases hc : (i : Int) < (text.length : Int) ∧ x < width
    · have hi : i < text.length := by exact_mod_cast hc.1
      have e1 : (i : Int) + 1 = ((i + 1 : Nat) : Int) := by push_cast; rfl
      rw [if_pos hc, idx_natCast, List.getElem?_eq_getElem hi]
      simp only [Option.bind_eq_bind, Option.some_bind]
      obtain ⟨⟨x1, out⟩, hr⟩ := ih (i + 1) (x + rw text[i])
      rw [e1, hr]
      exact ⟨_, rfl⟩
    · rw [if_neg hc]; exact ⟨_, rfl⟩

/-- `Draw` reads `text` and `textWidth` within bounds on every state that
satisfies the invariant. -/
theorem Draw_ok (rw : Rune → Int) (e : editor) (y : Int) (h : Inv e) :
    ∃ res, Draw rw e y = some res := by
  obtain ⟨⟨h1, h2, h3, h4, h5⟩, -⟩ := h
  obtain ⟨c, hc⟩ := Int.eq_ofNat_of_zero_le h1
  obtain ⟨o, ho⟩ := Int.eq_ofNat_of_zero_le h4
  have hcl : c < e.textWidth.length := by
    have : (c : Int) < (e.textWidth.length : Int) := by omega
    exact_mod_cast this
  have hol : o < e.textWidth.length := by
    have : (o : Int) < (e.textWidth.length : Int) := by omega
    exact_mod_cast this
  obtain ⟨⟨x, out⟩, hl⟩ := drawTextLoop_ok rw e.text e.width y
    ((e.text.length : Int) - (o : Int)).toNat o 0
  unfold Draw
  rw [ho, hl, hc, idx_natCast, List.getElem?_eq_getElem hcl, idx_natCast,
    List.getElem?_eq_getElem hol]
  simp only [Option.bind_eq_bind, Option.some_bind]
  by_cases hnext : (c : Int) + 1 < (e.textWidth.length : Int)
  · have hcl1 : c + 1 < e.textWidth.length := by exact_mod_cast hnext
    have e1 : (c : Int) + 1 = ((c + 1 : Nat) : Int) := by push_cast; rfl
    rw [if_pos hnext, e1, idx_natCast, List.getElem?_eq_getElem hcl1]
    simp only [Option.some_bind]
    exact ⟨_, rfl⟩
  · rw [if_neg hnext]
    exact ⟨_, rfl⟩

/-- The checked `IsCommand` never panics and returns what `IsCommand` returns. -/
theorem IsCommandRead_eq (e : editor) : IsCommandRead e = some (IsCommand e) := by
  unfold IsCommandRead IsCommand
  cases h : e.text with
  | nil => simp
  | cons a t =>
    have e0 : (0 : Int) = ((0 : Nat) : Int) := rfl
    rw [if_pos (by simp), e0, idx_natCast]
    simp only [List.getElem?_cons_zero, Option.map_some', List.length_cons, bne_iff_ne, ne_eq,
      Nat.add_one_ne_zero, not_false_eq_true, decide_True, Bool.true_and, Option.some.injEq]
    rfl

/-- No call, the reading ones included, panics on a state that satisfies the
invariant, and the state it leaves satisfies the invariant. -/
theorem stepCall_inv (rw : Rune → Int) (e : editor) (c : Call) (h : Inv e) :
    ∃ e1, stepCall rw e c = some e1 ∧ Inv e1 := by
  cases c with
  | op o => exact step_inv rw e o h
  | isCommand => exact ⟨e, by simp [stepCall, IsCommandRead_eq], h⟩
  | draw y =>
    obtain ⟨res, hr⟩ := Draw_ok rw e y h
    exact ⟨e, by simp [stepCall, hr], h⟩

theorem runCalls_inv (rw : Rune → Int) (cs : List Call) :
    ∀ e, Inv e → ∃ e1, runCalls rw e cs = some e1 ∧ Inv e1 := by
  induction cs with
  | nil => intro e h; exact ⟨e, rfl, h⟩
  | cons c cs ih =>
    intro e h
    obtain ⟨e1, h1, h2⟩ := stepCall_inv rw e c h
    obtain ⟨e2, h3, h4⟩ := ih e1 h2
    exact ⟨e2, by simp [runCalls, h1, h3], h4⟩

/-! ## The formatting variables between lines -/

theorem SameFormat.refl (f : Fmt) : SameFormat f f :=
  ⟨rfl, rfl, rfl, rfl, rfl, fun _ _ => ⟨rfl, rfl⟩⟩

theorem SameFormat.of_fresh {f g : Fmt} (hf : Fresh f) (hg : Fresh g) : SameFormat f g := by
  obtain ⟨a1, a2, a3, a4, a5⟩ := hf
  obtain ⟨b1, b2, b3, b4, b5⟩ := hg
  exact ⟨by rw [a1, b1], by rw [a2, b2], by rw [a3, b3], by rw [a4, b4], by rw [a5, b5],
    fun h => absurd a5 h⟩

/-- The formatting step on agreeing variables: same cursor, same cells,
agreeing variables afterwards. -/
theorem formatRune_same (w : Int) (rw : Rune → Int) (f g : Fmt) (x y : Int) (r : Rune)
    (h : SameFormat f g) :
    SameFormat (formatRune w rw f x y r).1 (formatRune w rw g x y r).1
      ∧ (formatRune w rw f x y r).2 = (formatRune w rw g x y r).2 := by
  obtain ⟨h1, h2, h3, h4, h5, h6⟩ := h
  rcases f with ⟨st, b, i, u, cs, fg, bg⟩
  rcases g with ⟨st2, b2, i2, u2, cs2, fg2, bg2⟩
  simp only at h1 h2 h3 h4 h5 h6
  subst h1 h2 h3 h4 h5
  by_cases c1 : cs = 1
  · subst c1
    by_cases hd : isDigit r = true
    · simp [formatRune, colorStep, hd, SameFormat]
    · simp only [Bool.not_eq_true] at hd
      simp only [formatRune, colorStep, hd]
      simp only [if_true, Bool.false_eq_true, if_false]
      split_ifs <;> simp [SameFormat]
  · by_cases c0 : cs = 0
    · subst c0
      simp only [formatRune, colorStep]
      simp only [zero_ne_one, if_false, OfNat.zero_ne_ofNat]
      split_ifs <;> simp [SameFormat]
    · obtain ⟨rfl, rfl⟩ := h6 c0 c1
      exact ⟨SameFormat.refl _, rfl⟩

/-- One iteration of the rune loop on agreeing formatting variables. -/
theorem drawRune_same (w : Int) (rw : Rune → Int) (line : Line) (f g : Fmt) (p : Pos) (i : Int)
    (r : Rune) (h : SameFormat f g) :
    SameResult (drawRune w rw line f p i r) (drawRune w rw line g p i r) := by
  unfold drawRune
  cases hs : splitStep w line p i with
  | none => simp [SameResult]
  | some p1 =>
    simp only [Option.bind_eq_bind, Option.some_bind]
    cases hsp : idx line.SplitPoints p1.spIdx with
    | none => simp [SameResult]
    | some sp =>
      simp only [Option.some_bind]
      by_cases hsup : (!sp.Split && decide (p1.x = 0)) = true
      · rw [if_pos hsup, if_pos hsup]
        exact ⟨h, rfl, rfl⟩
      · rw [if_neg hsup, if_neg hsup]
        generalize (if w ≤ p1.x then { p1 with y := p1.y + 1, x := 0 } else p1) = p2
        obtain ⟨hf, hr⟩ := formatRune_same w rw f g p2.x p2.y r h
        refine ⟨hf, ?_, ?_⟩
        · exact congrArg (fun t : Int × Int × List Cell =>
            ({ x := t.1, y := t.2.1, lastSP := p2.lastSP, spIdx := p2.spIdx } : Pos)) hr
        · exact congrArg (fun t : Int × Int × List Cell => t.2.2) hr

/-- The rune loop on agreeing formatting variables. -/
theorem drawRunes_same (w : Int) (rw : Rune → Int) (line : Line) (rs : List Rune) :
    ∀ (i : Int) (f g : Fmt) (p : Pos), SameFormat f g →
      SameResult (drawRunes w rw line rs i f p) (drawRunes w rw line rs i g p) := by
  induction rs with
  | nil => intro i f g p h; exact ⟨h, rfl, rfl⟩
  | cons r rs ih =>
    intro i f g p h
    have h1 := drawRune_same w rw line f g p i r h
    unfold drawRunes
    cases hf : drawRune w rw line f p i r with
    | none =>
      cases hg : drawRune w rw line g p i r with
      | none => simp [SameResult]
      | some b => rw [hf, hg] at h1; exact absurd h1 (by simp [SameResult])
    | some a =>
      cases hg : drawRune w rw line g p i r with
      | none => rw [hf, hg] at h1; exact absurd h1 (by simp [SameResult])
      | some b =>
        obtain ⟨f1, p1, o1⟩ := a
        obtain ⟨g1, p2, o2⟩ := b
        rw [hf, hg] at h1
        obtain ⟨hsame, rfl, rfl⟩ := h1
        have h2 := ih (i + 1) f1 g1 p1 hsame
        simp only [Option.bind_eq_bind, Option.some_bind]
        cases hf2 : drawRunes w rw line rs (i + 1) f1 p1 with
        | none =>
          cases hg2 : drawRunes w rw line rs (i + 1) g1 p1 with
          | none => simp [SameResult]
          | some b => rw [hf2, hg2] at h2; exact absurd h2 (by simp [SameResult])
        | some a2 =>
          cases hg2 : drawRunes w rw line rs (i + 1) g1 p1 with
          | none => rw [hf2, hg2] at h2; exact absurd h2 (by simp [SameResult])
          | some b2 =>
            obtain ⟨f2, p3, o3⟩ := a2
            obtain ⟨g2, p4, o4⟩ := b2
            rw [hf2, hg2] at h2
            obtain ⟨hsame2, rfl, rfl⟩ := h2
            exact ⟨hsame2, rfl, rfl⟩

/-- The render pass of a line leaves fresh formatting variables. -/
theorem drawLine_fresh (w : Int) (rw : Rune → Int) (line : Line) (f : Fmt) (y0 : Int)
    (f1 : Fmt) (out : List Cell) (h : drawLine w rw line f y0 = some (f1, out)) : Fresh f1 := by
  unfold drawLine at h
  simp only [Option.bind_eq_bind, Option.bind_eq_some] at h
  obtain ⟨⟨f2, p2, o2⟩, -, h2⟩ := h
  simp only [Option.some.injEq, Prod.mk.injEq] at h2
  obtain ⟨rfl, -⟩ := h2
  exact ⟨rfl, rfl, rfl, rfl, rfl⟩

/-- The render pass of a line on agreeing formatting variables: both panic,
or both write the same cells. -/
theorem drawLine_same (w : Int) (rw : Rune → Int) (line : Line) (f g : Fmt) (y0 : Int)
    (h : SameFormat f g) :
    (drawLine w rw line f y0).map Prod.snd = (drawLine w rw line g y0).map Prod.snd := by
  have h1 := drawRunes_same w rw line line.Content 0 f g
    { x := 0, y := y0, lastSP := { X := 0, I := 0, Split := false }, spIdx := 0 } h
  unfold drawLine
  simp only [Option.bind_eq_bind]
  cases hf : drawRunes w rw line line.Content 0 f
      { x := 0, y := y0, lastSP := { X := 0, I := 0, Split := false }, spIdx := 0 } with
  | none =>
    cases hg : drawRunes w rw line line.Content 0 g
        { x := 0, y := y0, lastSP := { X := 0, I := 0, Split := false }, spIdx := 0 } with
    | none => rfl
    | some b => rw [hf, hg] at h1; exact absurd h1 (by simp [SameResult])
  | some a =>
    cases hg : drawRunes w rw line line.Content 0 g
        { x := 0, y := y0, lastSP := { X := 0, I := 0, Split := false }, spIdx := 0 } with
    | none => rw [hf, hg] at h1; exact absurd h1 (by simp [SameResult])
    | some b =>
      obtain ⟨f1, p1, o1⟩ := a
      obtain ⟨g1, p2, o2⟩ := b
      rw [hf, hg] at h1
      obtain ⟨-, -, rfl⟩ := h1
      rfl

theorem fresh_init : Fresh Fmt.init := ⟨rfl, rfl, rfl, rfl, rfl⟩

theorem flatMap_eq_of_forall {α β : Type} (l : List α) (f g : α → List β)
    (h : ∀ a ∈ l, f a = g a) : l.flatMap f = l.flatMap g := by
  induction l with
  | nil => rfl
  | cons a l ih =>
    rw [List.flatMap_cons, List.flatMap_cons, h a (List.mem_cons_self _ _),
      ih (fun b hb => h b (List.mem_cons_of_mem _ hb))]

/-- The cells of the walk, started on fresh formatting variables, are those
of its render passes, each line rendered on its own from the initial
formatting variables. -/
theorem drawLines_cells (w yEnd : Int) (rw : Rune → Int) (rh : Line → Int → Int)
    (ls : List Line) :
    ∀ (k : Nat) (f : Fmt) (y0 : Int) (f1 : Fmt) (y1 : Int) (out : List Cell)
      (passes : List (Nat × Int)), Fresh f →
      drawLines w yEnd rw rh ls k f y0 = some (f1, y1, out, passes) →
      Fresh f1 ∧ (∀ p ∈ passes, k ≤ p.1) ∧ out = passes.flatMap (passCells w rw ls k) := by
  induction ls with
  | nil =>
    intro k f y0 f1 y1 out passes hf h
    simp only [drawLines, Option.some.injEq, Prod.mk.injEq] at h
    obtain ⟨rfl, -, rfl, rfl⟩ := h
    exact ⟨hf, by simp, rfl⟩
  | cons l older ih =>
    intro k f y0 f1 y1 out passes hf h
    have shift : ∀ ps : List (Nat × Int), (∀ p ∈ ps, k + 1 ≤ p.1) →
        ps.flatMap (passCells w rw older (k + 1)) = ps.flatMap (passCells w rw (l :: older) k) := by
      intro ps hps
      apply flatMap_eq_of_forall
      intro p hp
      have hk := hps p hp
      unfold passCells
      have e1 : p.1 - k = (p.1 - (k + 1)) + 1 := by omega
      rw [e1, List.getElem?_cons_succ]
    unfold drawLines at h
    by_cases h0 : y0 < 0
    · rw [if_pos h0] at h
      simp only [Option.some.injEq, Prod.mk.injEq] at h
      obtain ⟨rfl, -, rfl, rfl⟩ := h
      exact ⟨hf, by simp, rfl⟩
    · rw [if_neg h0] at h
      dsimp only at h
      by_cases h1 : yEnd ≤ wrapInt (y0 - rh l w)
      · rw [if_pos h1] at h
        obtain ⟨a1, a2, a3⟩ := ih _ _ _ _ _ _ _ hf h
        exact ⟨a1, fun p hp => Nat.le_of_succ_le (a2 p hp), by rw [a3, shift passes a2]⟩
      · rw [if_neg h1] at h
        cases hl : drawLine w rw l f (wrapInt (y0 - rh l w)) with
        | none => rw [hl] at h; simp at h
        | some r1 =>
          obtain ⟨f2, out1⟩ := r1
          rw [hl] at h
          simp only [Option.bind_eq_bind, Option.some_bind] at h
          cases hr : drawLines w yEnd rw rh older (k + 1) f2 (wrapInt (y0 - rh l w)) with
          | none => rw [hr] at h; simp at h
          | some r2 =>
            obtain ⟨f3, y3, out2, passes2⟩ := r2
            rw [hr] at h
            simp only [Option.some_bind, Option.some.injEq, Prod.mk.injEq] at h
            obtain ⟨rfl, -, rfl, rfl⟩ := h
            obtain ⟨a1, a2, a3⟩ := ih _ _ _ _ _ _ _
              (drawLine_fresh w rw l f (wrapInt (y0 - rh l w)) f2 out1 hl) hr
            refine ⟨a1, ?_, ?_⟩
            · intro p hp
              rcases List.mem_cons.mp hp with rfl | hp
              · exact Nat.le_refl _
              · exact Nat.le_of_succ_le (a2 p hp)
            · have hsame := drawLine_same w rw l f Fmt.init (wrapInt (y0 - rh l w))
                (SameFormat.of_fresh hf fresh_init)
              rw [hl] at hsame
              have hhead : passCells w rw (l :: older) k (k, wrapInt (y0 - rh l w)) = out1 := by
                unfold passCells
                simp only [Nat.sub_self, List.getElem?_cons_zero]
                cases hi : drawLine w rw l Fmt.init (wrapInt (y0 - rh l w)) with
                | none => rw [hi] at hsame; simp at hsame
                | some ri =>
                  rw [hi] at hsame
                  simp only [Option.map_some', Option.some.injEq] at hsame
                  exact hsame.symm
              rw [List.flatMap_cons, hhead, a3, shift passes2 a2]

/-- The variables at the head of the render passes: there is one entry for
each pass of the walk, and all are fresh when the walk starts fresh. -/
theorem passStarts_fresh (w yEnd : Int) (rw : Rune → Int) (rh : Line → Int → Int)
    (ls : List Line) :
    ∀ (k : Nat) (f : Fmt) (y0 : Int) (f1 : Fmt) (y1 : Int) (out : List Cell)
      (passes : List (Nat × Int)),
      drawLines w yEnd rw rh ls k f y0 = some (f1, y1, out, passes) →
      ∃ fs, passStarts w yEnd rw rh ls f y0 = some fs ∧ fs.length = passes.length
        ∧ (Fresh f → ∀ g ∈ fs, Fresh g) := by
  induction ls with
  | nil =>
    intro k f y0 f1 y1 out passes h
    simp only [drawLines, Option.some.injEq, Prod.mk.injEq] at h
    obtain ⟨-, -, -, rfl⟩ := h
    exact ⟨[], rfl, rfl, by simp⟩
  | cons l older ih =>
    intro k f y0 f1 y1 out passes h
    unfold drawLines at h
    unfold passStarts
    by_cases h0 : y0 < 0
    · rw [if_pos h0] at h ⊢
      simp only [Option.some.injEq, Prod.mk.injEq] at h
      obtain ⟨-, -, -, rfl⟩ := h
      exact ⟨[], rfl, rfl, by simp⟩
    · rw [if_neg h0] at h ⊢
      dsimp only at h ⊢
      by_cases h1 : yEnd ≤ wrapInt (y0 - rh l w)
      · rw [if_pos h1] at h ⊢
        exact ih _ _ _ _ _ _ _ h
      · rw [if_neg h1] at h ⊢
        cases hl : drawLine w rw l f (wrapInt (y0 - rh l w)) with
        | none => rw [hl] at h; simp at h
        | some r1 =>
          obtain ⟨f2, out1⟩ := r1
          rw [hl] at h
          simp only [Option.bind_eq_bind, Option.some_bind] at h ⊢
          cases hr : drawLines w yEnd rw rh older (k + 1) f2 (wrapInt (y0 - rh l w)) with
          | none => rw [hr] at h; simp at h
          | some r2 =>
            obtain ⟨f3, y3, out2, passes2⟩ := r2
            rw [hr] at h
            simp only [Option.some_bind, Option.some.injEq, Prod.mk.injEq] at h
            obtain ⟨-, -, -, rfl⟩ := h
            obtain ⟨fs, a1, a2, a3⟩ := ih _ _ _ _ _ _ _ hr
            rw [a1]
            refine ⟨f :: fs, rfl, by simp [a2], ?_⟩
            intro hf g hg
            rcases List.mem_cons.mp hg with rfl | hg
            · exact hf
            · exact a3 (drawLine_fresh w rw l f (wrapInt (y0 - rh l w)) f2 out1 hl) g hg

/-! ## The cells of the walk, line by line -/

/-- The cells of a render pass entered on fresh formatting variables are those
of the rune loop entered at column 0 of the pass's row on the initial
variables. -/
theorem lineCells_eq (w : Int) (rw : Rune → Int) (line : Line) (f : Fmt) (y0 : Int)
    (f1 : Fmt) (out : List Cell) (hf : Fresh f)
    (h : drawLine w rw line f y0 = some (f1, out)) : lineCells w rw line y0 = out := by
  have hsame := drawLine_same w rw line f Fmt.init y0 (SameFormat.of_fresh hf fresh_init)
  rw [h] at hsame
  unfold drawLine at hsame
  dsimp only at hsame
  unfold lineCells
  cases hd : drawRunes w rw line line.Content 0 Fmt.init
      { x := 0, y := y0, lastSP := { X := 0, I := 0, Split := false }, spIdx := 0 } with
  | none => rw [hd] at hsame; simp at hsame
  | some r =>
    obtain ⟨a, b, c⟩ := r
    rw [hd] at hsame
    simp only [Option.bind_eq_bind, Option.some_bind, Option.map_some', Option.some.injEq]
      at hsame
    exact hsame.symm

/-- The cells of the walk, for lines whose heights are non-negative Go
integers and a first row that is a Go integer: line by line, newest first,
the cells of the line rendered from column 0 of its top row when the row below
it is not negative and its top row is above `yEnd`, and no cell otherwise. -/
theorem drawLines_rows (w yEnd : Int) (rw : Rune → Int) (rh : Line → Int → Int)
    (ls : List Line) (hnn : ∀ l ∈ ls, 0 ≤ rh l w ∧ rh l w < 9223372036854775808) :
    ∀ (k : Nat) (f : Fmt) (y0 : Int) (f1 : Fmt) (y1 : Int) (out : List Cell)
      (passes : List (Nat × Int)), y0 < 9223372036854775808 → Fresh f →
      drawLines w yEnd rw rh ls k f y0 = some (f1, y1, out, passes) →
      out = (List.range ls.length).flatMap (fun m =>
        match ls[m]? with
        | some line =>
          if 0 ≤ y0 - ((ls.take m).map (fun l => rh l w)).sum
              ∧ y0 - ((ls.take (m + 1)).map (fun l => rh l w)).sum < yEnd then
            lineCells w rw line (y0 - ((ls.take (m + 1)).map (fun l => rh l w)).sum)
          else []
        | none => []) := by
  induction ls with
  | nil =>
    intro k f y0 f1 y1 out passes _ _ h
    simp only [drawLines, Option.some.injEq, Prod.mk.injEq] at h
    obtain ⟨-, -, rfl, -⟩ := h
    rfl
  | cons l older ih =>
    intro k f y0 f1 y1 out passes hy0 hf h
    have ih1 := ih (fun a ha => hnn a (List.mem_cons_of_mem _ ha))
    obtain ⟨hl0, hl1⟩ := hnn l (List.mem_cons_self _ _)
    have hsum : ∀ m, 0 ≤ (((l :: older).take m).map (fun l => rh l w)).sum := by
      intro m
      apply List.sum_nonneg
      intro x hx
      obtain ⟨a, ha, rfl⟩ := List.mem_map.mp hx
      exact (hnn a (List.mem_of_mem_take ha)).1
    rw [List.length_cons, List.range_succ_eq_map, List.flatMap_cons, List.flatMap_map]
    simp only [List.getElem?_cons_zero, List.take_zero, List.map_nil, List.sum_nil,
      List.take_succ_cons, List.map_cons, List.sum_cons, Nat.succ_eq_add_one,
      List.getElem?_cons_succ, sub_zero, add_zero, List.take_nil, sub_add_eq_sub_sub]
    unfold drawLines at h
    by_cases h0 : y0 < 0
    · rw [if_pos h0] at h
      simp only [Option.some.injEq, Prod.mk.injEq] at h
      obtain ⟨-, -, rfl, -⟩ := h
      rw [if_neg (by omega), List.nil_append]
      symm
      rw [List.flatMap_eq_nil_iff]
      intro m _
      split
      · rw [if_neg]
        have := hsum (m + 1)
        simp only [List.take_succ_cons, List.map_cons, List.sum_cons] at this
        have h2 : 0 ≤ ((older.take m).map (fun l => rh l w)).sum := by
          apply List.sum_nonneg
          intro x hx
          obtain ⟨a, ha, rfl⟩ := List.mem_map.mp hx
          exact (hnn a (List.mem_cons_of_mem _ (List.mem_of_mem_take ha))).1
        omega
      · rfl
    · rw [if_neg h0] at h
      dsimp only at h
      rw [wrapInt_eq (y0 - rh l w) (by omega) (by omega)] at h
      have hy1 : y0 - rh l w < 9223372036854775808 := by omega
      by_cases h1 : yEnd ≤ y0 - rh l w
      · rw [if_pos h1] at h
        rw [if_neg (by omega), List.nil_append]
        exact ih1 _ _ _ _ _ _ _ hy1 hf h
      · rw [if_neg h1] at h
        cases hl : drawLine w rw l f (y0 - rh l w) with
        | none => rw [hl] at h; simp at h
        | some r1 =>
          obtain ⟨f2, out1⟩ := r1
          rw [hl] at h
          simp only [Option.bind_eq_bind, Option.some_bind] at h
          cases hr : drawLines w yEnd rw rh older (k + 1) f2 (y0 - rh l w) with
          | none => rw [hr] at h; simp at h
          | some r2 =>
            obtain ⟨f3, y3, out2, passes2⟩ := r2
            rw [hr] at h
            simp only [Option.some_bind, Option.some.injEq, Prod.mk.injEq] at h
            obtain ⟨-, -, rfl, -⟩ := h
            rw [if_pos ⟨by omega, by omega⟩, lineCells_eq w rw l f (y0 - rh l w) f2 out1 hf hl]
            congr 1
            exact ih1 _ _ _ _ _ _ _ hy1 (drawLine_fresh w rw l f (y0 - rh l w) f2 out1 hl) hr

/-! ## The editor: properties of the specification -/

/-- C1 (the code breaks it): typing `a`, moving left and typing the two-column
rune U+4E16 is a sequence of calls after which `textWidth` is `[0, 2, 4]` over
the text `[U+4E16, a]`, so `textWidth[2]` is not `textWidth[1]` plus the width
of `text[1]`: the prefix-sum property of the `textWidth` doc comment fails in
a reachable state. -/
theorem C1_prefix_sum_fails_after_insert_before_narrower_rune :
    run sampleWidth (newEditor 80) [.putRune 97, .left, .putRune 0x4E16]
        = some { text := [0x4E16, 97], textWidth := [0, 2, 4], cursorIdx := 1, offsetIdx := 0,
                 width := 80 }
      ∧ Reachable sampleWidth 80 { text := [0x4E16, 97], textWidth := [0, 2, 4], cursorIdx := 1,
                                   offsetIdx := 0, width := 80 }
      ∧ ¬ PrefixSum sampleWidth { text := [0x4E16, 97], textWidth := [0, 2, 4], cursorIdx := 1,
                                  offsetIdx := 0, width := 80 } := by
  refine ⟨by rfl, ⟨[.putRune 97, .left, .putRune 0x4E16], by rfl⟩, ?_⟩
  intro h
  obtain ⟨a, b, r, ha, hb, hr, hab⟩ := h 2 (by decide) (by decide)
  simp at ha hb hr
  subst ha hb hr
  simp [sampleWidth] at hab

/-- C2 (as stated, fails): a state with an empty text, `textWidth = [0]`,
`cursorIdx = 0` meets the two stated requirements, but with `offsetIdx = 5`
the call `PutRune('a')` panics, in `Right`, on the read `textWidth[offsetIdx]`. -/
theorem C2_putRune_panics_on_stray_offset :
    (0 : Int) ≤ (editor.mk [] [0] 0 5 80).cursorIdx
      ∧ (editor.mk [] [0] 0 5 80).cursorIdx ≤ ((editor.mk [] [0] 0 5 80).text.length : Int)
      ∧ ((editor.mk [] [0] 0 5 80).textWidth.length : Int)
          = ((editor.mk [] [0] 0 5 80).text.length : Int) + 1
      ∧ PutRune sampleWidth (editor.mk [] [0] 0 5 80) 97 = none := by
  refine ⟨by decide, by decide, by decide, by rfl⟩

/-- C2 (amended): for every editor state with `0 ≤ cursorIdx ≤ len(text)`,
`len(textWidth) = len(text) + 1` and a view offset that indexes the width
array after the insertion (`0 ≤ offsetIdx ≤ len(text) + 1`), and every rune
`r`, `PutRune(r)` does not panic, the text becomes
`text[:cursorIdx] ++ [r] ++ text[cursorIdx:]`, and the cursor advances by one. -/
theorem C2_putRune_inserts_at_cursor (rw : Rune → Int) (e : editor) (r : Rune)
    (hc0 : 0 ≤ e.cursorIdx) (hc1 : e.cursorIdx ≤ (e.text.length : Int))
    (hlen : (e.textWidth.length : Int) = (e.text.length : Int) + 1)
    (ho0 : 0 ≤ e.offsetIdx) (ho1 : e.offsetIdx ≤ (e.text.length : Int) + 1) :
    ∃ e1, PutRune rw e r = some e1
      ∧ e1.text = e.text.take e.cursorIdx.toNat ++ [r] ++ e.text.drop e.cursorIdx.toNat
      ∧ (∀ i : Nat, i < e.cursorIdx.toNat → e1.text[i]? = e.text[i]?)
      ∧ e1.text[e.cursorIdx.toNat]? = some r
      ∧ (∀ i : Nat, e.cursorIdx.toNat ≤ i → e1.text[i + 1]? = e.text[i]?)
      ∧ e1.cursorIdx = e.cursorIdx + 1 := by
  obtain ⟨tw, o, hp, -, -, -⟩ := PutRune_spec rw e r hc0 hc1 hlen ho0 ho1
  obtain ⟨c, hc⟩ := Int.eq_ofNat_of_zero_le hc0
  have hcl : c ≤ e.text.length := by rw [hc] at hc1; exact_mod_cast hc1
  have hA : (List.take c e.text).length = c := by simp [hcl]
  refine ⟨_, hp, by simp, ?_, ?_, ?_, rfl⟩
  · intro i hi
    rw [hc, Int.toNat_ofNat] at hi ⊢
    dsimp only
    rw [List.getElem?_append_left (by omega), List.getElem?_take_of_lt hi]
  · rw [hc, Int.toNat_ofNat]
    dsimp only
    rw [List.getElem?_append_right (by omega), hA]
    simp
  · intro i hi
    rw [hc, Int.toNat_ofNat] at hi ⊢
    dsimp only
    rw [List.getElem?_append_right (by omega), hA]
    obtain ⟨k, rfl⟩ : ∃ k, i = c + k := ⟨i - c, by omega⟩
    have : c + k + 1 - c = k + 1 := by omega
    rw [this]
    simp

/-- C2 (amended), at a state with the cursor inside the text. -/
theorem C2_putRune_inserts_at_cursor_witness :
    ∃ e1, PutRune sampleWidth (editor.mk [97, 98] [0, 1, 2] 1 0 80) 99 = some e1
      ∧ e1.text = List.take (1 : Int).toNat [97, 98] ++ [99] ++ List.drop (1 : Int).toNat [97, 98]
      ∧ (∀ i : Nat, i < (1 : Int).toNat → e1.text[i]? = ([97, 98] : List Rune)[i]?)
      ∧ e1.text[(1 : Int).toNat]? = some 99
      ∧ (∀ i : Nat, (1 : Int).toNat ≤ i → e1.text[i + 1]? = ([97, 98] : List Rune)[i]?)
      ∧ e1.cursorIdx = 1 + 1 :=
  C2_putRune_inserts_at_cursor sampleWidth (editor.mk [97, 98] [0, 1, 2] 1 0 80) 99
    (by decide) (by decide) (by decide) (by decide) (by decide)

/-- C3: on a well-formed state `RemRune` does not panic; it returns false
exactly when `cursorIdx = 0`, and then leaves the whole state unchanged;
otherwise it returns true, the text loses the element at index
`cursorIdx - 1`, and the cursor moves back by one. -/
theorem C3_remRune_contract (e : editor) (h : WellFormed e) :
    ∃ ok e1, RemRune e = some (ok, e1)
      ∧ (ok = false ↔ e.cursorIdx = 0)
      ∧ (e.cursorIdx = 0 → e1 = e)
      ∧ (e.cursorIdx ≠ 0 → ok = true
          ∧ e1.text = e.text.eraseIdx (e.cursorIdx - 1).toNat
          ∧ e1.cursorIdx = e.cursorIdx - 1) := by
  obtain ⟨h1, h2, h3, h4, h5⟩ := h
  by_cases hc : 0 < e.cursorIdx
  · obtain ⟨tw, hr, -, -⟩ := RemRune_spec e hc h2 h3
    have hne : e.cursorIdx ≠ 0 := by omega
    refine ⟨true, _, hr, by simp [hne], fun h0 => absurd h0 hne, fun _ => ⟨rfl, ?_, ?_⟩⟩
    · rw [Left_text]
    · exact Left_cursorIdx _ hne
  · have h0 : e.cursorIdx = 0 := by omega
    refine ⟨false, e, by unfold RemRune; rw [if_pos hc], by simp [h0], fun _ => rfl,
      fun hne => absurd h0 hne⟩

/-- C3, at a state with the cursor after the second of three runes. -/
theorem C3_remRune_contract_witness :
    WellFormed (editor.mk [97, 98, 99] [0, 1, 2, 3] 2 0 80)
      ∧ ∃ ok e1, RemRune (editor.mk [97, 98, 99] [0, 1, 2, 3] 2 0 80) = some (ok, e1)
        ∧ (ok = false ↔ (editor.mk [97, 98, 99] [0, 1, 2, 3] 2 0 80).cursorIdx = 0)
        ∧ ((editor.mk [97, 98, 99] [0, 1, 2, 3] 2 0 80).cursorIdx = 0
            → e1 = editor.mk [97, 98, 99] [0, 1, 2, 3] 2 0 80)
        ∧ ((editor.mk [97, 98, 99] [0, 1, 2, 3] 2 0 80).cursorIdx ≠ 0 → ok = true
            ∧ e1.text = (editor.mk [97, 98, 99] [0, 1, 2, 3] 2 0 80).text.eraseIdx
                ((editor.mk [97, 98, 99] [0, 1, 2, 3] 2 0 80).cursorIdx - 1).toNat
            ∧ e1.cursorIdx = (editor.mk [97, 98, 99] [0, 1, 2, 3] 2 0 80).cursorIdx - 1) :=
  ⟨by decide, C3_remRune_contract (editor.mk [97, 98, 99] [0, 1, 2, 3] 2 0 80) (by decide)⟩

/-- C7: on a well-formed state, `PutRune(r)` followed by `RemRune()` does not
panic, `RemRune` returns true, and the text and the cursor are those of the
state before the two calls. -/
theorem C7_putRune_then_remRune (rw : Rune → Int) (e : editor) (r : Rune) (h : WellFormed e) :
    ∃ e1 e2, PutRune rw e r = some e1 ∧ RemRune e1 = some (true, e2)
      ∧ e2.text = e.text ∧ e2.cursorIdx = e.cursorIdx := by
  obtain ⟨h1, h2, h3, h4, h5⟩ := h
  obtain ⟨tw, o, hp, hl, -, -⟩ := PutRune_spec rw e r h1 h2 h3 h4 (by omega)
  obtain ⟨c, hc⟩ := Int.eq_ofNat_of_zero_le h1
  have hcl : c ≤ e.text.length := by rw [hc] at h2; exact_mod_cast h2
  have hA : (List.take c e.text).length = c := by simp [hcl]
  have hlen : (e.text.take e.cursorIdx.toNat ++ r :: e.text.drop e.cursorIdx.toNat).length
      = e.text.length + 1 := by
    simp; omega
  obtain ⟨tw2, hr, -, -⟩ := RemRune_spec
    { text := e.text.take e.cursorIdx.toNat ++ r :: e.text.drop e.cursorIdx.toNat,
      textWidth := tw, cursorIdx := e.cursorIdx + 1, offsetIdx := o, width := e.width }
    (by dsimp only; omega) (by dsimp only; rw [hlen]; push_cast; omega)
    (by dsimp only; rw [hlen, hl]; push_cast; ring)
  refine ⟨_, _, hp, hr, ?_, ?_⟩
  · rw [Left_text]
    dsimp only
    have e1 : ((c : Int) + 1 - 1).toNat = c := by simp
    have key := List.eraseIdx_append_of_length_le (le_refl (List.take c e.text).length)
      (r :: List.drop c e.text)
    rw [hA] at key
    rw [hc, Int.toNat_ofNat, e1, key]
    simp
  · rw [Left_cursorIdx _ (by dsimp only; omega)]
    dsimp only
    ring

/-- C7, at a state with the cursor inside the text. -/
theorem C7_putRune_then_remRune_witness :
    WellFormed (editor.mk [97, 98] [0, 1, 2] 1 0 80)
      ∧ ∃ e1 e2, PutRune sampleWidth (editor.mk [97, 98] [0, 1, 2] 1 0 80) 0x4E16 = some e1
        ∧ RemRune e1 = some (true, e2)
        ∧ e2.text = (editor.mk [97, 98] [0, 1, 2] 1 0 80).text
        ∧ e2.cursorIdx = (editor.mk [97, 98] [0, 1, 2] 1 0 80).cursorIdx :=
  ⟨by decide, C7_putRune_then_remRune sampleWidth (editor.mk [97, 98] [0, 1, 2] 1 0 80) 0x4E16
    (by decide)⟩

/-- C8 (as stated, fails): after `PutRune(0xD800)` and `PutRune('a')` from
`newEditor(80)` the text is `[0xD800, 'a']`, and `Flush` returns the string
with the code points `[0xFFFD, 'a']`: the conversion `string(e.text)` replaces
the surrogate by U+FFFD, so the returned string is not made of the runes of
the text. -/
theorem C8_flush_replaces_invalid_rune :
    Reachable sampleWidth 80 (editor.mk [0xD800, 97] [0, 2, 3] 2 0 80)
      ∧ Flush (editor.mk [0xD800, 97] [0, 2, 3] 2 0 80)
          = some ([0xFFFD, 97], editor.mk [] [0] 0 0 80)
      ∧ ([0xFFFD, 97] : List Rune) ≠ (editor.mk [0xD800, 97] [0, 2, 3] 2 0 80).text :=
  ⟨⟨[.putRune 0xD800, .putRune 97], by rfl⟩, by rfl, by decide⟩

/-- C8 (amended): in every state reachable from `newEditor(w)`, `Flush` does
not panic and returns the string `string(text)`: it has one code point for
each rune of the text, in order, which is the rune itself when the rune is a
valid code point (within `[0, 0x10FFFF]` and not a surrogate, `[0xD800,
0xDFFF]`) and U+FFFD otherwise, so the string is made of exactly the runes of
the text when all of them are valid code points; afterwards the text is empty,
`textWidth = [0]`, cursor and view offset are 0 and the width is unchanged, so
`TextLen()` is 0 and `IsCommand()` is false. -/
theorem C8_flush (rw : Rune → Int) (w : Int) (e : editor) (h : Reachable rw w e) :
    ∃ content e1, Flush e = some (content, e1)
      ∧ content.length = e.text.length
      ∧ (∀ (i : Nat) (r : Rune), e.text[i]? = some r →
          content[i]? = some
            (if 0 ≤ r ∧ r ≤ 0x10FFFF ∧ ¬ (0xD800 ≤ r ∧ r ≤ 0xDFFF) then r else 0xFFFD))
      ∧ ((∀ r ∈ e.text, 0 ≤ r ∧ r ≤ 0x10FFFF ∧ ¬ (0xD800 ≤ r ∧ r ≤ 0xDFFF)) →
          content = e.text)
      ∧ e1 = { text := [], textWidth := [0], cursorIdx := 0, offsetIdx := 0, width := e.width }
      ∧ TextLen e1 = 0 ∧ IsCommand e1 = false := by
  refine ⟨_, _, Flush_inv e h.inv, by simp [goString], ?_, ?_, rfl, rfl, rfl⟩
  · intro i r hi
    simp [goString, List.getElem?_map, hi, stringRune]
  · intro hall
    unfold goString
    conv_rhs => rw [← List.map_id e.text]
    apply List.map_congr_left
    intro r hr
    simp only [stringRune, id, if_pos (hall r hr)]

/-- C8 (amended), at the state reached by typing `/` and the surrogate
`0xD800`: the string returned is `/` followed by U+FFFD. -/
theorem C8_flush_witness :
    Reachable sampleWidth 80 (editor.mk [47, 0xD800] [0, 1, 3] 2 0 80)
      ∧ (∃ content e1, Flush (editor.mk [47, 0xD800] [0, 1, 3] 2 0 80) = some (content, e1)
          ∧ content.length = (editor.mk [47, 0xD800] [0, 1, 3] 2 0 80).text.length
          ∧ (∀ (i : Nat) (r : Rune),
              (editor.mk [47, 0xD800] [0, 1, 3] 2 0 80).text[i]? = some r →
              content[i]? = some
                (if 0 ≤ r ∧ r ≤ 0x10FFFF ∧ ¬ (0xD800 ≤ r ∧ r ≤ 0xDFFF) then r else 0xFFFD))
          ∧ ((∀ r ∈ (editor.mk [47, 0xD800] [0, 1, 3] 2 0 80).text,
                0 ≤ r ∧ r ≤ 0x10FFFF ∧ ¬ (0xD800 ≤ r ∧ r ≤ 0xDFFF)) →
              content = (editor.mk [47, 0xD800] [0, 1, 3] 2 0 80).text)
          ∧ e1 = { text := [], textWidth := [0], cursorIdx := 0, offsetIdx := 0,
                   width := (editor.mk [47, 0xD800] [0, 1, 3] 2 0 80).width }
          ∧ TextLen e1 = 0 ∧ IsCommand e1 = false)
      ∧ Flush (editor.mk [47, 0xD800] [0, 1, 3] 2 0 80)
          = some ([47, 0xFFFD], editor.mk [] [0] 0 0 80) :=
  ⟨⟨[.putRune 47, .putRune 0xD800], by rfl⟩,
    C8_flush sampleWidth 80 (editor.mk [47, 0xD800] [0, 1, 3] 2 0 80)
      ⟨[.putRune 47, .putRune 0xD800], by rfl⟩,
    by rfl⟩

/-- C9: for every width `w` and rune sequence `s`, calling `PutRune` on each
rune of `s` in order from `newEditor(w)` does not panic and ends with
`text = s` and `cursorIdx = len(s)`, so `IsCommand()` is true exactly when `s`
is non-empty and starts with `/`; typing `/nick foo` gives true and typing
`nick foo` gives false. -/
theorem C9_typing (rw : Rune → Int) (w : Int) (s : List Rune) :
    (∃ e, run rw (newEditor w) (s.map Op.putRune) = some e ∧ e.text = s
        ∧ e.cursorIdx = (s.length : Int)
        ∧ (IsCommand e = true ↔ s ≠ [] ∧ s.head? = some 47))
      ∧ (∃ e, run rw (newEditor w) ((runes "/nick foo").map Op.putRune) = some e
          ∧ IsCommand e = true)
      ∧ (∃ e, run rw (newEditor w) ((runes "nick foo").map Op.putRune) = some e
          ∧ IsCommand e = false) := by
  have main : ∀ t : List Rune, ∃ e, run rw (newEditor w) (t.map Op.putRune) = some e
      ∧ e.text = t ∧ e.cursorIdx = (t.length : Int)
      ∧ (IsCommand e = true ↔ t ≠ [] ∧ t.head? = some 47) := by
    intro t
    obtain ⟨e, h1, h2, h3⟩ := typing_appends rw t (newEditor w) (newEditor_inv w) rfl
    have ht : e.text = t := by rw [h2]; rfl
    refine ⟨e, h1, ht, by rw [h3, ht], ?_⟩
    unfold IsCommand
    rw [ht]
    cases t with
    | nil => simp
    | cons a t => simp
  refine ⟨main s, ?_, ?_⟩
  · obtain ⟨e, h1, -, -, h4⟩ := main (runes "/nick foo")
    exact ⟨e, h1, h4.mpr (by decide)⟩
  · obtain ⟨e, h1, -, -, h4⟩ := main (runes "nick foo")
    refine ⟨e, h1, ?_⟩
    cases hc : IsCommand e with
    | false => rfl
    | true => exact absurd (h4.mp hc).2 (by decide)

/-- C10: in every state reachable from `newEditor(w)` the cursor is within
`[0, len(text)]`; `Right()` with the cursor at `len(text)` and `Left()` with
the cursor at 0 leave the whole state unchanged. -/
theorem C10_cursor_bounds (rw : Rune → Int) (w : Int) (e : editor) (h : Reachable rw w e) :
    0 ≤ e.cursorIdx ∧ e.cursorIdx ≤ (e.text.length : Int)
      ∧ (e.cursorIdx = (e.text.length : Int) → Right e = some e)
      ∧ (e.cursorIdx = 0 → Left e = e) := by
  obtain ⟨⟨h1, h2, -⟩, -⟩ := h.inv
  refine ⟨h1, h2, ?_, ?_⟩
  · intro hend; unfold Right; rw [if_pos hend]
  · intro h0; unfold Left; rw [if_pos h0]

/-- C10, at the state reached by typing `ab` and moving left twice, and
with it the no-op of `Left` at the start of the text. -/
theorem C10_cursor_bounds_witness :
    Reachable sampleWidth 80 (editor.mk [97, 98] [0, 1, 2] 0 0 80)
      ∧ (0 : Int) ≤ (editor.mk [97, 98] [0, 1, 2] 0 0 80).cursorIdx
      ∧ (editor.mk [97, 98] [0, 1, 2] 0 0 80).cursorIdx
          ≤ ((editor.mk [97, 98] [0, 1, 2] 0 0 80).text.length : Int)
      ∧ ((editor.mk [97, 98] [0, 1, 2] 0 0 80).cursorIdx
            = ((editor.mk [97, 98] [0, 1, 2] 0 0 80).text.length : Int)
          → Right (editor.mk [97, 98] [0, 1, 2] 0 0 80)
            = some (editor.mk [97, 98] [0, 1, 2] 0 0 80))
      ∧ ((editor.mk [97, 98] [0, 1, 2] 0 0 80).cursorIdx = 0
          → Left (editor.mk [97, 98] [0, 1, 2] 0 0 80) = editor.mk [97, 98] [0, 1, 2] 0 0 80) :=
  ⟨⟨[.putRune 97, .putRune 98, .left, .left], by rfl⟩,
    C10_cursor_bounds sampleWidth 80 (editor.mk [97, 98] [0, 1, 2] 0 0 80)
      ⟨[.putRune 97, .putRune 98, .left, .left], by rfl⟩⟩

/-- C4: for runes that reach the formatting step, whatever the formatting
variables `f` and the cursor positions they arrive with: after `0x03` the
parse state is 1 and the `0x03` is not written (the only write it can cause is
the `,` of a pending code in state 4); the digits of a foreground number `F`
of one or two digits and, when present, the `,` and the digits of a
background number `B` of one or two digits write nothing; the literal rune
`c` that follows (not a digit, not `,`, not a control rune) is the only cell
written, at its position when its row is not negative, in a style with
foreground `colorFromCode(F)` and, when `B` is present, background
`colorFromCode(B)`. With no comma the background of `c` is the background as
it was before the `0x03`: the one any literal rune `c2` arriving in place of
the `0x03` is written on (`c2` is written in the style `g.st` its formatting
step leaves), which in parse states other than 1 and 5 is the background of
the style variable itself. -/
theorem C4_colour_code (w : Int) (rw : Rune → Int) (f : Fmt) (x0 y0 : Int)
    (pos : Nat → Int × Int) (fd : List Nat) (bd : Option (List Nat)) (c : Rune)
    (hfd : fd.length = 1 ∨ fd.length = 2) (hfd9 : ∀ d ∈ fd, d ≤ 9)
    (hbd : ∀ b, bd = some b → (b.length = 1 ∨ b.length = 2) ∧ ∀ d ∈ b, d ≤ 9)
    (hc : isControl c = false) (hdig : isDigit c = false) (hcomma : c ≠ 44) :
    ∃ f1 x1 y1 out0 f2,
      formatRune w rw f x0 y0 0x03 = (f1, x1, y1, out0)
      ∧ f1.colorState = 1
      ∧ (∀ cell ∈ out0, cell.r = 44 ∧ f.colorState = 4)
      ∧ formatRunes w rw f1 (arriving pos (codeRunes fd bd ++ [c]))
          = (f2, if 0 ≤ (pos (codeRunes fd bd).length).2 then
              [{ x := (pos (codeRunes fd bd).length).1, y := (pos (codeRunes fd bd).length).2,
                 r := c, st := f2.st }]
            else [])
      ∧ f2.st.fg = colorFromCode (codeNum fd)
      ∧ (∀ b, bd = some b → f2.st.bg = colorFromCode (codeNum b))
      ∧ (∀ (c2 : Rune) (x2 y2 : Int), isControl c2 = false → isDigit c2 = false → c2 ≠ 44 →
          ∃ g xa ya pre,
            formatRune w rw f x2 y2 c2
                = (g, xa + rw c2, ya,
                    pre ++ if 0 ≤ ya then [{ x := xa, y := ya, r := c2, st := g.st }] else [])
              ∧ (∀ cell ∈ pre, cell.r = 44 ∧ f.colorState = 4)
              ∧ (bd = none → f2.st.bg = g.st.bg))
      ∧ (bd = none → f2.st.bg = f1.st.bg)
      ∧ (bd = none → f.colorState ≠ 1 → f.colorState ≠ 5 → f2.st.bg = f.st.bg)
      ∧ f2.colorState = 0 := by
  obtain ⟨h1, h2, h3, -⟩ := formatRune_etx w rw f x0 y0
  obtain ⟨f2, e2, hfg, hbg, hnone, -, -, hst⟩ :=
    colour_code_from_state_1 w rw (formatRune w rw f x0 y0 0x03).1 pos fd bd c h1 hfd hfd9 hbd
      hc hdig hcomma
  refine ⟨_, _, _, _, f2, rfl, h1, h2, e2, hfg, hbg, ?_, hnone, ?_, hst⟩
  · intro c2 x2 y2 k1 k2 k3
    obtain ⟨g, xa, ya, pre, a1, a2, a3⟩ := formatRune_literal_etx w rw f x2 y2 x0 y0 c2 k1 k2 k3
    exact ⟨g, xa, ya, pre, a1, a2, fun hb => by rw [hnone hb, a3]⟩
  · intro hb n1 n5
    rw [hnone hb, h3 n1 n5]

/-- C4, at the code `0x03 0 0 , 9 9` followed by `x` from the default
formatting variables, at the code `0x03 4` followed by `x` when a bare `0x03`
is pending on a blue background, and on whole lines: `\x034red` writes `r`,
`e`, `d` in red on the unchanged background, `\x0300,99x` writes `x` in white
on the terminal default, and after `\x031,2a\x03` both a literal `y` and the
`x` of the code `\x034x` are written on the default background. -/
theorem C4_colour_code_witness :
    (∃ f1 x1 y1 out0 f2,
      formatRune 80 sampleWidth Fmt.init 0 0 0x03 = (f1, x1, y1, out0)
      ∧ f1.colorState = 1
      ∧ (∀ cell ∈ out0, cell.r = 44 ∧ Fmt.init.colorState = 4)
      ∧ formatRunes 80 sampleWidth f1
            (arriving (fun _ => (0, 0)) (codeRunes [0, 0] (some [9, 9]) ++ [120]))
          = (f2, if 0 ≤ ((fun _ => ((0 : Int), (0 : Int)))
                (codeRunes [0, 0] (some [9, 9])).length).2 then
              [{ x := ((fun _ => ((0 : Int), (0 : Int))) (codeRunes [0, 0] (some [9, 9])).length).1,
                 y := ((fun _ => ((0 : Int), (0 : Int))) (codeRunes [0, 0] (some [9, 9])).length).2,
                 r := 120, st := f2.st }]
            else [])
      ∧ f2.st.fg = colorFromCode (codeNum [0, 0])
      ∧ (∀ b, some [9, 9] = some b → f2.st.bg = colorFromCode (codeNum b))
      ∧ (∀ (c2 : Rune) (x2 y2 : Int), isControl c2 = false → isDigit c2 = false → c2 ≠ 44 →
          ∃ g xa ya pre,
            formatRune 80 sampleWidth Fmt.init x2 y2 c2
                = (g, xa + sampleWidth c2, ya,
                    pre ++ if 0 ≤ ya then [{ x := xa, y := ya, r := c2, st := g.st }] else [])
              ∧ (∀ cell ∈ pre, cell.r = 44 ∧ Fmt.init.colorState = 4)
              ∧ ((some [9, 9] : Option (List Nat)) = none → f2.st.bg = g.st.bg))
      ∧ ((some [9, 9] : Option (List Nat)) = none → f2.st.bg = f1.st.bg)
      ∧ ((some [9, 9] : Option (List Nat)) = none → Fmt.init.colorState ≠ 1 →
          Fmt.init.colorState ≠ 5 → f2.st.bg = Fmt.init.st.bg)
      ∧ f2.colorState = 0)
    ∧ (∃ f1 x1 y1 out0 f2,
      formatRune 80 sampleWidth pendingBlue 1 0 0x03 = (f1, x1, y1, out0)
      ∧ f1.colorState = 1
      ∧ (∀ cell ∈ out0, cell.r = 44 ∧ pendingBlue.colorState = 4)
      ∧ formatRunes 80 sampleWidth f1
            (arriving (fun _ => (1, 0)) (codeRunes [4] none ++ [120]))
          = (f2, if 0 ≤ ((fun _ => ((1 : Int), (0 : Int))) (codeRunes [4] none).length).2 then
              [{ x := ((fun _ => ((1 : Int), (0 : Int))) (codeRunes [4] none).length).1,
                 y := ((fun _ => ((1 : Int), (0 : Int))) (codeRunes [4] none).length).2,
                 r := 120, st := f2.st }]
            else [])
      ∧ f2.st.fg = colorFromCode (codeNum [4])
      ∧ (∀ b, none = some b → f2.st.bg = colorFromCode (codeNum b))
      ∧ (∀ (c2 : Rune) (x2 y2 : Int), isControl c2 = false → isDigit c2 = false → c2 ≠ 44 →
          ∃ g xa ya pre,
            formatRune 80 sampleWidth pendingBlue x2 y2 c2
                = (g, xa + sampleWidth c2, ya,
                    pre ++ if 0 ≤ ya then [{ x := xa, y := ya, r := c2, st := g.st }] else [])
              ∧ (∀ cell ∈ pre, cell.r = 44 ∧ pendingBlue.colorState = 4)
              ∧ ((none : Option (List Nat)) = none → f2.st.bg = g.st.bg))
      ∧ ((none : Option (List Nat)) = none → f2.st.bg = f1.st.bg)
      ∧ ((none : Option (List Nat)) = none → pendingBlue.colorState ≠ 1 →
          pendingBlue.colorState ≠ 5 → f2.st.bg = pendingBlue.st.bg)
      ∧ f2.colorState = 0)
    ∧ drawLine 80 sampleWidth
          { Content := runes "\x034red",
            SplitPoints := [{ X := 0, I := 0, Split := true }, { X := 3, I := 5, Split := true }] }
          Fmt.init 0
        = some ({ st := StyleDefault, bold := false, italic := false, underline := false,
                  colorState := 0, fgColor := 4, bgColor := 0 },
            [{ x := 0, y := 0, r := 114, st := { StyleDefault with fg := .ColorRed } },
             { x := 1, y := 0, r := 101, st := { StyleDefault with fg := .ColorRed } },
             { x := 2, y := 0, r := 100, st := { StyleDefault with fg := .ColorRed } }])
    ∧ drawLine 80 sampleWidth
          { Content := runes "\x0300,99x",
            SplitPoints := [{ X := 0, I := 0, Split := true }, { X := 1, I := 7, Split := true }] }
          Fmt.init 0
        = some ({ st := StyleDefault, bold := false, italic := false, underline := false,
                  colorState := 0, fgColor := 0, bgColor := 99 },
            [{ x := 0, y := 0, r := 120,
               st := { StyleDefault with fg := .ColorWhite, bg := .ColorDefault } }])
    ∧ formatRunes 80 sampleWidth Fmt.init (arriving (fun _ => (0, 0)) (runes "\x031,2a\x03"))
        = (pendingBlue,
           [{ x := 0, y := 0, r := 97,
              st := { fg := .ColorBlack, bg := .ColorBlue, bold := false, underline := false } }])
    ∧ (formatRunes 80 sampleWidth pendingBlue (arriving (fun _ => (1, 0)) (runes "y"))).2
        = [{ x := 1, y := 0, r := 121, st := StyleDefault }]
    ∧ (formatRunes 80 sampleWidth pendingBlue (arriving (fun _ => (1, 0)) (runes "\x034x"))).2
        = [{ x := 1, y := 0, r := 120, st := { StyleDefault with fg := .ColorRed } }] :=
  ⟨C4_colour_code 80 sampleWidth Fmt.init 0 0 (fun _ => (0, 0)) [0, 0] (some [9, 9]) 120
      (by decide) (by decide) (by decide) (by decide) (by decide) (by decide),
    C4_colour_code 80 sampleWidth pendingBlue 1 0 (fun _ => (1, 0)) [4] none 120
      (by decide) (by decide) (by intro b hb; cases hb) (by decide) (by decide) (by decide),
    by rfl, by rfl, by rfl, by rfl, by rfl⟩

/-! ## The scrollback renderer: properties of the specification -/

/-- C5: on a screen of height `h ≥ 3`, with lines whose rendered heights are
non-negative Go integers, let `t k` be `rowBelow ... k`: the row
`scrollAmt + h - 3` as the program computes it, minus the heights of the `k`
newest lines, which is `scrollAmt + (h - 3)` minus those heights whenever
`scrollAmt + h - 3` is within the range of a Go `int`; the rows `t k` do not
increase with `k`. Whenever `drawBuffer` returns, the render pass of the
`k`-th newest line (`1 ≤ k ≤ len`) is entered exactly when `t (k-1) ≥ 0` and
`t k < h - 3`, and the cells written are those of the clearing loops followed,
line by line from the newest, by the cells the rune loop writes for the line
when it is entered with the cursor at column 0 of row `t k` if `t (k-1) ≥ 0`
and `t k < h - 3`, and by no cell for any other line; and `drawBuffer` does
return when every line has sound split points. -/
theorem C5_line_placement (w h : Int) (rw : Rune → Int) (rh : Line → Int → Int) (s : Int)
    (atTop : Bool) (content : List Line) (hh : 3 ≤ h)
    (hnn : ∀ l ∈ content, 0 ≤ rh l w ∧ rh l w < 9223372036854775808) :
    (∀ res, drawBuffer w h rw rh s atTop content = some res →
      (∀ (k : Nat) (row : Int), (k, row) ∈ res.passes ↔
        (1 ≤ k ∧ k ≤ content.length
          ∧ 0 ≤ rowBelow w h rh s content (k - 1)
          ∧ rowBelow w h rh s content k < h - 3
          ∧ row = rowBelow w h rh s content k))
      ∧ res.cells = clearCells w h ++ (List.range content.length).flatMap (fun m =>
          match content.reverse[m]? with
          | some line =>
            if 0 ≤ rowBelow w h rh s content m ∧ rowBelow w h rh s content (m + 1) < h - 3 then
              lineCells w rw line (rowBelow w h rh s content (m + 1))
            else []
          | none => []))
      ∧ (∀ j k : Nat, j ≤ k → rowBelow w h rh s content k ≤ rowBelow w h rh s content j)
      ∧ (-9223372036854775808 ≤ s + h - 3 → s + h - 3 < 9223372036854775808 →
          ∀ k : Nat, rowBelow w h rh s content k
            = s + (h - 3) - ((content.reverse.take k).map (fun line => rh line w)).sum)
      ∧ ((∀ l ∈ content, LineOK l) →
          ∃ res, drawBuffer w h rw rh s atTop content = some res) := by
  have hrev : ∀ l ∈ content.reverse, 0 ≤ rh l w ∧ rh l w < 9223372036854775808 :=
    fun l hl => hnn l (List.mem_reverse.mp hl)
  refine ⟨?_, ?_, ?_, drawBuffer_ok w h rw rh s atTop content⟩
  · intro res hres
    by_cases hne : content = []
    · subst hne
      have hr : res = { cells := clearCells w h, scrollAtTop := true, passes := [] } := by
        unfold drawBuffer at hres
        rw [if_neg (by omega)] at hres
        simp only [List.length_nil, if_true, Option.some.injEq] at hres
        exact hres.symm
      subst hr
      refine ⟨?_, by simp⟩
      intro k row
      simp
      omega
    · obtain ⟨f1, y1, out, hd, -⟩ := drawBuffer_eq w h rw rh s atTop content hh hne res hres
      have hy0 := (wrapInt_range (s + h - 3)).2
      constructor
      · intro k row
        have hp := drawLines_passes w (h - 3) rw rh content.reverse hrev 1 Fmt.init
          (wrapInt (s + h - 3)) f1 y1 out res.passes hy0 hd k row
        rw [hp]
        unfold rowBelow
        constructor
        · rintro ⟨m, h1, rfl, h3, h4, h5⟩
          have e1 : 1 + m - 1 = m := by omega
          have e2 : 1 + m = m + 1 := by omega
          rw [e1, e2]
          rw [List.length_reverse] at h1
          exact ⟨by omega, by omega, h3, by omega, h4⟩
        · rintro ⟨h1, h2, h3, h4, h5⟩
          obtain ⟨m, rfl⟩ : ∃ m, k = m + 1 := ⟨k - 1, by omega⟩
          have e1 : m + 1 - 1 = m := by omega
          rw [e1] at h3
          exact ⟨m, by rw [List.length_reverse]; omega, by omega, h3, h5, by omega⟩
      · have hc : res.cells = clearCells w h ++ out := by
          unfold drawBuffer at hres
          have hlen : ¬ content.length = 0 := fun h0 => hne (List.length_eq_zero.mp h0)
          rw [if_neg (by omega), if_neg hlen] at hres
          dsimp only at hres
          rw [hd] at hres
          simp only [Option.bind_eq_bind, Option.some_bind, Option.some.injEq] at hres
          rw [← hres]
        have hrows := drawLines_rows w (h - 3) rw rh content.reverse hrev 1 Fmt.init
          (wrapInt (s + h - 3)) f1 y1 out res.passes hy0 fresh_init hd
        rw [hc, hrows, List.length_reverse]
        rfl
  · intro j k hjk
    unfold rowBelow
    have h1 := sum_take_le_sum ((content.reverse.take k).map (fun l => rh l w))
      (by
        intro x hx
        obtain ⟨a, ha, rfl⟩ := List.mem_map.mp hx
        exact (hrev a (List.mem_of_mem_take ha)).1) j
    rw [← List.map_take, List.take_take, Nat.min_eq_left hjk] at h1
    omega
  · intro h1 h2 k
    unfold rowBelow
    rw [wrapInt_eq _ h1 h2]
    omega

/-- C5, on a screen one column wide with `h - 3 = 10` rows, no scroll, and
the line `abc` of rendered height 3: its pass starts at row 7 and its runes
are written in column 0 of the rows 7, 8 and 9; and on a screen two columns
wide, scrolled by one row, with three lines of one row each: the newest line
(top row 10) is skipped and the two older ones are written in the rows 9
and 8. -/
theorem C5_line_placement_witness :
    (3 : Int) ≤ 13
      ∧ (∀ l ∈ [sampleLine], 0 ≤ sampleHeight l 1 ∧ sampleHeight l 1 < 9223372036854775808)
      ∧ ((∀ res, drawBuffer 1 13 sampleWidth sampleHeight 0 false [sampleLine] = some res →
          (∀ (k : Nat) (row : Int), (k, row) ∈ res.passes ↔
            (1 ≤ k ∧ k ≤ [sampleLine].length
              ∧ 0 ≤ rowBelow 1 13 sampleHeight 0 [sampleLine] (k - 1)
              ∧ rowBelow 1 13 sampleHeight 0 [sampleLine] k < 13 - 3
              ∧ row = rowBelow 1 13 sampleHeight 0 [sampleLine] k))
          ∧ res.cells = clearCells 1 13 ++ (List.range [sampleLine].length).flatMap (fun m =>
              match [sampleLine].reverse[m]? with
              | some line =>
                if 0 ≤ rowBelow 1 13 sampleHeight 0 [sampleLine] m
                    ∧ rowBelow 1 13 sampleHeight 0 [sampleLine] (m + 1) < 13 - 3 then
                  lineCells 1 sampleWidth line (rowBelow 1 13 sampleHeight 0 [sampleLine] (m + 1))
                else []
              | none => []))
        ∧ (∀ j k : Nat, j ≤ k →
            rowBelow 1 13 sampleHeight 0 [sampleLine] k
              ≤ rowBelow 1 13 sampleHeight 0 [sampleLine] j)
        ∧ (-9223372036854775808 ≤ (0 : Int) + 13 - 3 → (0 : Int) + 13 - 3 < 9223372036854775808 →
            ∀ k : Nat, rowBelow 1 13 sampleHeight 0 [sampleLine] k
              = 0 + (13 - 3)
                - (([sampleLine].reverse.take k).map (fun line => sampleHeight line 1)).sum)
        ∧ ((∀ l ∈ [sampleLine], LineOK l) →
            ∃ res, drawBuffer 1 13 sampleWidth sampleHeight 0 false [sampleLine] = some res))
      ∧ drawBuffer 1 13 sampleWidth sampleHeight 0 false [sampleLine]
          = some { cells := clearCells 1 13
                     ++ [{ x := 0, y := 7, r := 97, st := StyleDefault },
                         { x := 0, y := 8, r := 98, st := StyleDefault },
                         { x := 0, y := 9, r := 99, st := StyleDefault }],
                   scrollAtTop := true, passes := [(1, 7)] }
      ∧ (drawBuffer 2 13 sampleWidth unitHeight 1 false [letterLine, letterLine, letterLine]).map
          (fun res => (res.passes, res.cells.filter (fun c => c.r != 32)))
        = some ([(2, 9), (3, 8)],
            [{ x := 0, y := 9, r := 97, st := StyleDefault },
             { x := 0, y := 8, r := 97, st := StyleDefault }])
      ∧ (∀ l ∈ [sampleLine], LineOK l) :=
  ⟨by decide,
    by intro l _
       exact ⟨(by decide : (0 : Int) ≤ 3), (by decide : (3 : Int) < 9223372036854775808)⟩,
    C5_line_placement 1 13 sampleWidth sampleHeight 0 false [sampleLine] (by decide)
      (by intro l _
          exact ⟨(by decide : (0 : Int) ≤ 3), (by decide : (3 : Int) < 9223372036854775808)⟩),
    by rfl, by rfl, by intro l hl; rw [List.mem_singleton.mp hl]; decide⟩

/-- C6: on a screen of height `h ≥ 3`, whenever `drawBuffer` returns: with an
empty buffer `scrollAtTop` is true; otherwise `scrollAtTop` is true exactly
when `y0` was non-negative before every line (no early stop) and after the
oldest one was subtracted, `walkRow ... k` being the value of `y0` after the
`k` newest lines; for lines whose rendered heights are non-negative Go
integers that is: the sum of all rendered heights is at most the row
`scrollAmt + h - 3` as the program computes it, which is
`scrollAmt + (h - 3)` whenever that row is within the range of a Go `int`;
and `drawBuffer` does return when every line has sound split points. -/
theorem C6_at_top (w h : Int) (rw : Rune → Int) (rh : Line → Int → Int) (s : Int)
    (atTop : Bool) (content : List Line) (hh : 3 ≤ h) :
    (∀ res, drawBuffer w h rw rh s atTop content = some res →
      (content = [] → res.scrollAtTop = true)
        ∧ (content ≠ [] → (res.scrollAtTop = true ↔
            ∀ k, k ≤ content.length →
              0 ≤ walkRow w rh content.reverse (wrapInt (s + h - 3)) k))
        ∧ (content ≠ [] → (∀ l ∈ content, 0 ≤ rh l w ∧ rh l w < 9223372036854775808) →
            (res.scrollAtTop = true ↔
              (content.map (fun l => rh l w)).sum ≤ wrapInt (s + h - 3))
            ∧ (-9223372036854775808 ≤ s + h - 3 → s + h - 3 < 9223372036854775808 →
                (res.scrollAtTop = true ↔
                  (content.map (fun l => rh l w)).sum ≤ s + (h - 3)))))
      ∧ ((∀ l ∈ content, LineOK l) →
          ∃ res, drawBuffer w h rw rh s atTop content = some res) := by
  refine ⟨?_, drawBuffer_ok w h rw rh s atTop content⟩
  intro res hres
  have main : content ≠ [] → (res.scrollAtTop = true ↔
      ∀ k, k ≤ content.length →
        0 ≤ walkRow w rh content.reverse (wrapInt (s + h - 3)) k) := by
    intro hne
    obtain ⟨f1, y1, out, hd, hat⟩ := drawBuffer_eq w h rw rh s atTop content hh hne res hres
    have hy := drawLines_y w (h - 3) rw rh content.reverse 1 Fmt.init (wrapInt (s + h - 3))
      f1 y1 out res.passes hd
    rw [hat, decide_eq_true_eq, hy, List.length_reverse]
  have sums : content ≠ [] → (∀ l ∈ content, 0 ≤ rh l w ∧ rh l w < 9223372036854775808) →
      (res.scrollAtTop = true ↔
        (content.map (fun l => rh l w)).sum ≤ wrapInt (s + h - 3)) := by
    intro hne hnn
    rw [main hne]
    have hw := walkRow_nonneg_iff w rh content.reverse
      (fun l hl => hnn l (List.mem_reverse.mp hl)) (wrapInt (s + h - 3))
      (wrapInt_range (s + h - 3)).2
    rw [List.length_reverse, List.map_reverse, List.sum_reverse] at hw
    exact hw
  refine ⟨?_, main, ?_⟩
  · intro hnil
    subst hnil
    unfold drawBuffer at hres
    rw [if_neg (by omega)] at hres
    simp only [List.length_nil, if_true, Option.some.injEq] at hres
    rw [← hres]
  · intro hne hnn
    refine ⟨sums hne hnn, ?_⟩
    intro h1 h2
    rw [sums hne hnn, wrapInt_eq _ h1 h2]
    constructor <;> intro hle <;> omega

/-- C6, on a screen with `h - 3 = 10` rows, no scroll, and one line of
rendered height 3: `scrollAtTop` is set to true; it is set to true on an empty
buffer; to false when three lines of one row are walked on a screen with
`h - 3 = 1`; and to false when `scrollAmt + h - 3` exceeds the range of a Go
`int` and wraps to a negative row. -/
theorem C6_at_top_witness :
    (3 : Int) ≤ 13
      ∧ ((∀ res, drawBuffer 1 13 sampleWidth sampleHeight 0 false [sampleLine] = some res →
          ([sampleLine] = [] → res.scrollAtTop = true)
            ∧ ([sampleLine] ≠ [] → (res.scrollAtTop = true ↔
                ∀ k, k ≤ [sampleLine].length →
                  0 ≤ walkRow 1 sampleHeight [sampleLine].reverse (wrapInt (0 + 13 - 3)) k))
            ∧ ([sampleLine] ≠ [] →
                (∀ l ∈ [sampleLine],
                  0 ≤ sampleHeight l 1 ∧ sampleHeight l 1 < 9223372036854775808) →
                (res.scrollAtTop = true ↔
                  ([sampleLine].map (fun l => sampleHeight l 1)).sum ≤ wrapInt (0 + 13 - 3))
                ∧ (-9223372036854775808 ≤ (0 : Int) + 13 - 3 →
                    (0 : Int) + 13 - 3 < 9223372036854775808 →
                    (res.scrollAtTop = true ↔
                      ([sampleLine].map (fun l => sampleHeight l 1)).sum ≤ 0 + (13 - 3)))))
        ∧ ((∀ l ∈ [sampleLine], LineOK l) →
            ∃ res, drawBuffer 1 13 sampleWidth sampleHeight 0 false [sampleLine] = some res))
      ∧ (drawBuffer 1 13 sampleWidth sampleHeight 0 false [sampleLine]).map
          (fun res => res.scrollAtTop) = some true
      ∧ (drawBuffer 1 13 sampleWidth sampleHeight 0 false []).map
          (fun res => res.scrollAtTop) = some true
      ∧ (drawBuffer 2 4 sampleWidth unitHeight 0 true [letterLine, letterLine, letterLine]).map
          (fun res => res.scrollAtTop) = some false
      ∧ (drawBuffer 2 13 sampleWidth unitHeight 9223372036854775807 true [letterLine]).map
          (fun res => (res.scrollAtTop, res.passes)) = some (false, []) :=
  ⟨by decide,
    C6_at_top 1 13 sampleWidth sampleHeight 0 false [sampleLine] (by decide),
    by rfl, by rfl, by rfl, by rfl⟩

/-! ## The editor and the renderer: further properties of the specification -/

/-- C11: in every state reachable from `newEditor(w)` the view offset is 0
when the text is empty, and within `[0, len(text) - 1]` otherwise. -/
theorem C11_offset_bounds (rw : Rune → Int) (w : Int) (e : editor) (h : Reachable rw w e) :
    (e.text = [] → e.offsetIdx = 0)
      ∧ (e.text ≠ [] → 0 ≤ e.offsetIdx ∧ e.offsetIdx ≤ (e.text.length : Int) - 1) := by
  obtain ⟨⟨-, -, -, h4, h5⟩, -⟩ := h.inv
  constructor
  · intro hnil
    rw [hnil] at h5
    simp at h5
    omega
  · intro hne
    have hpos : 0 < e.text.length := List.length_pos.mpr hne
    omega

/-- C11, at the state reached by typing three runes into an editor of width
0, which leaves the view scrolled to the last rune. -/
theorem C11_offset_bounds_witness :
    Reachable sampleWidth 0 (editor.mk [97, 97, 97] [0, 1, 2, 3] 3 2 0)
      ∧ ((editor.mk [97, 97, 97] [0, 1, 2, 3] 3 2 0).text = [] →
          (editor.mk [97, 97, 97] [0, 1, 2, 3] 3 2 0).offsetIdx = 0)
      ∧ ((editor.mk [97, 97, 97] [0, 1, 2, 3] 3 2 0).text ≠ [] →
          0 ≤ (editor.mk [97, 97, 97] [0, 1, 2, 3] 3 2 0).offsetIdx
            ∧ (editor.mk [97, 97, 97] [0, 1, 2, 3] 3 2 0).offsetIdx
              ≤ ((editor.mk [97, 97, 97] [0, 1, 2, 3] 3 2 0).text.length : Int) - 1) :=
  ⟨⟨[.putRune 97, .putRune 97, .putRune 97], by rfl⟩,
    C11_offset_bounds sampleWidth 0 (editor.mk [97, 97, 97] [0, 1, 2, 3] 3 2 0)
      ⟨[.putRune 97, .putRune 97, .putRune 97], by rfl⟩⟩

/-- C12: when `RuneWidth` is never negative, in every state reachable from
`newEditor(w)` the width array has one entry more than the text, starts with
0, and is non-decreasing. -/
theorem C12_width_array_shape (rw : Rune → Int) (w : Int) (e : editor)
    (hrw : ∀ r, 0 ≤ rw r) (h : Reachable rw w e) :
    (e.textWidth.length : Int) = (e.text.length : Int) + 1
      ∧ e.textWidth[0]? = some 0
      ∧ (∀ (i : Nat) (hi : i + 1 < e.textWidth.length),
          e.textWidth.get ⟨i, Nat.lt_of_succ_lt hi⟩ ≤ e.textWidth.get ⟨i + 1, hi⟩) := by
  obtain ⟨⟨-, -, h3, -, -⟩, h6⟩ := h.inv
  obtain ⟨ops, hops⟩ := h
  have hm : NonDecreasing e.textWidth := by
    refine run_nonDecreasing rw hrw ops (newEditor w) e hops (newEditor_inv w) ?_
    intro i a b _ hb
    simp [newEditor] at hb
  refine ⟨h3, ?_, ?_⟩
  · have := congrArg (fun l => l[0]?) h6
    simpa using this
  · intro i hi
    exact hm i _ _ (List.getElem?_eq_getElem (Nat.lt_of_succ_lt hi)) (List.getElem?_eq_getElem hi)

/-- C12, at the state reached by typing `a`, moving left and typing the
two-column rune U+4E16. -/
theorem C12_width_array_shape_witness :
    (∀ r, 0 ≤ sampleWidth r)
      ∧ Reachable sampleWidth 80 (editor.mk [0x4E16, 97] [0, 2, 4] 1 0 80)
      ∧ (((editor.mk [0x4E16, 97] [0, 2, 4] 1 0 80).textWidth.length : Int)
          = ((editor.mk [0x4E16, 97] [0, 2, 4] 1 0 80).text.length : Int) + 1
        ∧ (editor.mk [0x4E16, 97] [0, 2, 4] 1 0 80).textWidth[0]? = some 0
        ∧ (∀ (i : Nat) (hi : i + 1 < (editor.mk [0x4E16, 97] [0, 2, 4] 1 0 80).textWidth.length),
            (editor.mk [0x4E16, 97] [0, 2, 4] 1 0 80).textWidth.get ⟨i, Nat.lt_of_succ_lt hi⟩
              ≤ (editor.mk [0x4E16, 97] [0, 2, 4] 1 0 80).textWidth.get ⟨i + 1, hi⟩)) :=
  ⟨fun r => by unfold sampleWidth; split_ifs <;> decide,
    ⟨[.putRune 97, .left, .putRune 0x4E16], by rfl⟩,
    C12_width_array_shape sampleWidth 80 (editor.mk [0x4E16, 97] [0, 2, 4] 1 0 80)
      (fun r => by unfold sampleWidth; split_ifs <;> decide)
      ⟨[.putRune 97, .left, .putRune 0x4E16], by rfl⟩⟩

/-- C13: for runes that reach the formatting step, whatever the formatting
variables `f` and the cursor positions: after `0x03` and two digits `d1 d2` a
third digit `d3` is not accumulated; the foreground becomes
`colorFromCode(10*d1 + d2)`, the parse state is back to 0, and `d3` is the
one cell written (at its position, when its row is not negative) in that
style. Likewise after one or two foreground digits, `,` and two background
digits `b1 b2`, the parse state is 0 with background
`colorFromCode(10*b1 + b2)`, and a following digit `d` is written as a
literal glyph in that style. -/
theorem C13_digit_grouping (w : Int) (rw : Rune → Int) (f : Fmt) (x0 y0 : Int)
    (pos : Nat → Int × Int) (d1 d2 d3 : Nat) (fd : List Nat) (b1 b2 d : Nat)
    (h1 : d1 ≤ 9) (h2 : d2 ≤ 9) (h3 : d3 ≤ 9)
    (hfd : fd.length = 1 ∨ fd.length = 2) (hfd9 : ∀ a ∈ fd, a ≤ 9)
    (hb1 : b1 ≤ 9) (hb2 : b2 ≤ 9) (hd : d ≤ 9) :
    (∃ f2, formatRunes w rw (formatRune w rw f x0 y0 0x03).1
          (arriving pos [digitRune d1, digitRune d2, digitRune d3])
        = (f2, if 0 ≤ (pos 2).2 then
            [{ x := (pos 2).1, y := (pos 2).2, r := digitRune d3, st := f2.st }] else [])
      ∧ f2.st.fg = colorFromCode (10 * (d1 : Int) + (d2 : Int))
      ∧ f2.fgColor = 10 * (d1 : Int) + (d2 : Int)
      ∧ f2.colorState = 0)
    ∧ (∃ f3, formatRunes w rw (formatRune w rw f x0 y0 0x03).1
          (arriving pos (codeRunes fd (some [b1, b2]) ++ [digitRune d]))
        = (f3, if 0 ≤ (pos (fd.length + 3)).2 then
            [{ x := (pos (fd.length + 3)).1, y := (pos (fd.length + 3)).2, r := digitRune d,
               st := f3.st }] else [])
      ∧ f3.st.fg = colorFromCode (codeNum fd)
      ∧ f3.st.bg = colorFromCode (10 * (b1 : Int) + (b2 : Int))
      ∧ f3.bgColor = 10 * (b1 : Int) + (b2 : Int)
      ∧ f3.colorState = 0) := by
  obtain ⟨hs, -⟩ := formatRune_etx w rw f x0 y0
  generalize (formatRune w rw f x0 y0 0x03).1 = f1 at hs
  have hc3 := isControl_digitRune d3 h3
  have hcd := isControl_digitRune d hd
  constructor
  · simp [arriving, formatRunes, List.enum, List.enumFrom,
      formatRune_digit_1 _ _ _ _ _ _ h1 hs, formatRune_digit_2 _ _ _ _ _ _ h2,
      formatRune_literal_3 _ _ _ _ _ _ hc3 (digitRune_ne_comma d3), Style.Foreground]
    exact ⟨_, ⟨rfl, rfl⟩, by simp; ring_nf, by simp; ring, by simp⟩
  · rcases fd with _ | ⟨a1, _ | ⟨a2, _ | ⟨a3, fd⟩⟩⟩
    · simp at hfd
    · have ha1 : a1 ≤ 9 := hfd9 a1 (by simp)
      simp [arriving, codeRunes, formatRunes, List.enum, List.enumFrom,
        formatRune_digit_1 _ _ _ _ _ _ ha1 hs, formatRune_comma,
        formatRune_digit_4 _ _ _ _ _ _ hb1, formatRune_digit_5 _ _ _ _ _ _ hb2,
        formatRune_literal_0 _ _ _ _ _ _ hcd, codeNum, Style.Foreground, Style.Background]
      exact ⟨_, ⟨rfl, rfl⟩, by simp, by simp; ring_nf, by simp; ring⟩
    · have ha1 : a1 ≤ 9 := hfd9 a1 (by simp)
      have ha2 : a2 ≤ 9 := hfd9 a2 (by simp)
      simp [arriving, codeRunes, formatRunes, List.enum, List.enumFrom,
        formatRune_digit_1 _ _ _ _ _ _ ha1 hs, formatRune_digit_2 _ _ _ _ _ _ ha2,
        formatRune_comma, formatRune_digit_4 _ _ _ _ _ _ hb1,
        formatRune_digit_5 _ _ _ _ _ _ hb2,
        formatRune_literal_0 _ _ _ _ _ _ hcd, codeNum, Style.Foreground, Style.Background]
      exact ⟨_, ⟨rfl, rfl⟩, by simp, by simp; ring_nf, by simp; ring⟩
    · simp at hfd

/-- C13, at `0x03 1 2 3` and at `0x03 4 , 1 2 3` from the default
formatting variables: the third digit is written in colour 12 (light blue),
respectively on it. -/
theorem C13_digit_grouping_witness :
    (∃ f2, formatRunes 80 sampleWidth (formatRune 80 sampleWidth Fmt.init 0 0 0x03).1
          (arriving (fun n => ((n : Int), 0)) [digitRune 1, digitRune 2, digitRune 3])
        = (f2, if 0 ≤ ((fun n : Nat => ((n : Int), (0 : Int))) 2).2 then
            [{ x := ((fun n : Nat => ((n : Int), (0 : Int))) 2).1,
               y := ((fun n : Nat => ((n : Int), (0 : Int))) 2).2, r := digitRune 3,
               st := f2.st }] else [])
      ∧ f2.st.fg = colorFromCode (10 * ((1 : Nat) : Int) + ((2 : Nat) : Int))
      ∧ f2.fgColor = 10 * ((1 : Nat) : Int) + ((2 : Nat) : Int)
      ∧ f2.colorState = 0)
    ∧ (∃ f3, formatRunes 80 sampleWidth (formatRune 80 sampleWidth Fmt.init 0 0 0x03).1
          (arriving (fun n => ((n : Int), 0)) (codeRunes [4] (some [1, 2]) ++ [digitRune 3]))
        = (f3, if 0 ≤ ((fun n : Nat => ((n : Int), (0 : Int))) ([4].length + 3)).2 then
            [{ x := ((fun n : Nat => ((n : Int), (0 : Int))) ([4].length + 3)).1,
               y := ((fun n : Nat => ((n : Int), (0 : Int))) ([4].length + 3)).2,
               r := digitRune 3, st := f3.st }] else [])
      ∧ f3.st.fg = colorFromCode (codeNum [4])
      ∧ f3.st.bg = colorFromCode (10 * ((1 : Nat) : Int) + ((2 : Nat) : Int))
      ∧ f3.bgColor = 10 * ((1 : Nat) : Int) + ((2 : Nat) : Int)
      ∧ f3.colorState = 0) :=
  C13_digit_grouping 80 sampleWidth Fmt.init 0 0 (fun n => ((n : Int), 0)) 1 2 3 [4] 1 2 3
    (by decide) (by decide) (by decide) (by decide) (by decide) (by decide) (by decide)
    (by decide)

/-- C14 (the code breaks it): a foreground code with a trailing comma writes
the `,` when a non-digit rune follows (line `\x034,x`: the cells are `,` and
`x`, both in red on the unchanged background), but when the line ends right
after the comma (line `\x034,`) no cell at all is written and the pending
state is dropped by the end-of-line reset: the comma is lost. -/
theorem C14_trailing_comma_lost_at_end_of_line :
    drawLine 80 sampleWidth commaLine Fmt.init 0
        = some ({ st := StyleDefault, bold := false, italic := false, underline := false,
                  colorState := 0, fgColor := 4, bgColor := 0 },
            [{ x := 0, y := 0, r := 44, st := { StyleDefault with fg := .ColorRed } },
             { x := 1, y := 0, r := 120, st := { StyleDefault with fg := .ColorRed } }])
      ∧ drawLine 80 sampleWidth commaEndLine Fmt.init 0
        = some ({ st := StyleDefault, bold := false, italic := false, underline := false,
                  colorState := 0, fgColor := 4, bgColor := 0 }, []) := by
  refine ⟨by rfl, by rfl⟩

/-- C15 (the code breaks it): on a screen of height 5 (two content rows),
scroll amount 0, with the lines `\x034,x`, `a`, `a` of one row each, the
oldest line is rendered from row -1; its literal `x` is not written, but the
`,` of its colour code is written at row -1: the write in parse state 4 has
no `0 <= y` test. -/
theorem C15_comma_written_above_viewport :
    (drawBuffer 80 5 sampleWidth unitHeight 0 false [commaLine, letterLine, letterLine]).map
        (fun res => (res.passes, res.cells.filter (fun c => decide (c.y < 0))))
      = some ([(1, 1), (2, 0), (3, -1)],
          [{ x := 0, y := -1, r := 44, st := { StyleDefault with fg := .ColorRed } }]) := by
  rfl

/-- C16 (the code breaks it): on a screen two columns wide and of height 7
(content rows 0 to 3), scrolled up by 3 rows, with four lines `a`, the line
`abc` (two rows at this width) and two more lines `a`, the line `abc` is
rendered from row 3 and its rune `c` is written at row 4, the row `h - 3` of
the typing indicator: no write is tested against `h - 3`. -/
theorem C16_write_into_reserved_row :
    (drawBuffer 2 7 sampleWidth heightAtWidth2 3 false
        [letterLine, letterLine, letterLine, letterLine, sampleLine, letterLine, letterLine]).map
        (fun res => (res.passes, res.cells.filter (fun c => decide (7 - 3 ≤ c.y))))
      = some ([(3, 3), (4, 2), (5, 1), (6, 0), (7, -1)],
          [{ x := 0, y := 4, r := 99, st := StyleDefault }]) := by
  rfl

/-- C17: on a well-formed state, `Right()` with the cursor before the end of
the text reads `textWidth[cursorIdx+1]` and `textWidth[offsetIdx]` and sets
the view offset to `min(offsetIdx + 16, len(text) - 1)` when their difference
exceeds the width, and leaves it otherwise; `PutRune` ends with this `Right()`
on a well-formed state (the text with the rune inserted, cursor and offset
not moved yet); `Left()` with the cursor after the start sets the view offset
to `max(offsetIdx - 16, 0)` when `cursorIdx - 1 <= offsetIdx`, and leaves it
otherwise. -/
theorem C17_rescroll_batching (e : editor) (h : WellFormed e) :
    (e.cursorIdx < (e.text.length : Int) →
        ∃ a b e1, idx e.textWidth (e.cursorIdx + 1) = some a
          ∧ idx e.textWidth e.offsetIdx = some b
          ∧ Right e = some e1
          ∧ e1.cursorIdx = e.cursorIdx + 1
          ∧ e1.offsetIdx = (if e.width < a - b then
              min (e.offsetIdx + 16) ((e.text.length : Int) - 1) else e.offsetIdx))
      ∧ (∀ (rw : Rune → Int) (r : Rune), ∃ e0, PutRune rw e r = Right e0 ∧ WellFormed e0
          ∧ e0.cursorIdx < (e0.text.length : Int)
          ∧ e0.cursorIdx = e.cursorIdx ∧ e0.offsetIdx = e.offsetIdx ∧ e0.width = e.width
          ∧ (e0.text.length : Int) = (e.text.length : Int) + 1)
      ∧ (0 < e.cursorIdx →
          (Left e).cursorIdx = e.cursorIdx - 1
            ∧ (Left e).offsetIdx = (if e.cursorIdx - 1 ≤ e.offsetIdx then
                max (e.offsetIdx - 16) 0 else e.offsetIdx)) := by
  have hwf := h
  obtain ⟨h1, h2, h3, h4, h5⟩ := h
  refine ⟨?_, ?_, ?_⟩
  · intro hlt
    obtain ⟨c, hc⟩ := Int.eq_ofNat_of_zero_le h1
    obtain ⟨o, ho⟩ := Int.eq_ofNat_of_zero_le h4
    obtain ⟨a, b, ha, hb, hr⟩ := Right_spec e c o hc (by omega) (by omega) ho (by omega)
    exact ⟨a, b, _, ha, hb, hr, rfl, rfl⟩
  · intro rw r
    obtain ⟨e0, hp, hw0, ht, hc, ho, hwd⟩ := PutRune_eq_Right rw e r hwf
    have hlen : (e0.text.length : Int) = (e.text.length : Int) + 1 := by
      rw [ht]
      simp only [List.length_append, List.length_cons, List.length_take, List.length_drop]
      push_cast
      omega
    exact ⟨e0, hp, hw0, by omega, hc, ho, hwd, hlen⟩
  · intro hpos
    have hne : e.cursorIdx ≠ 0 := by omega
    rw [Left_eq, if_neg hne]
    dsimp only
    refine ⟨rfl, ?_⟩
    by_cases hle : e.cursorIdx - 1 ≤ e.offsetIdx
    · rw [if_pos hle, if_pos hle]
      by_cases hneg : e.offsetIdx - 16 < 0
      · rw [if_pos hneg, max_eq_right (le_of_lt hneg)]
      · rw [if_neg hneg, max_eq_left (not_lt.mp hneg)]
    · rw [if_neg hle, if_neg hle]

/-- C17, at a state with twenty runes in an editor two columns wide, the
cursor in the middle: `Right()` scrolls the view by the batch of 16. -/
theorem C17_rescroll_batching_witness :
    WellFormed longSample
      ∧ ((longSample.cursorIdx < (longSample.text.length : Int) →
          ∃ a b e1, idx longSample.textWidth (longSample.cursorIdx + 1) = some a
            ∧ idx longSample.textWidth longSample.offsetIdx = some b
            ∧ Right longSample = some e1
            ∧ e1.cursorIdx = longSample.cursorIdx + 1
            ∧ e1.offsetIdx = (if longSample.width < a - b then
                min (longSample.offsetIdx + 16) ((longSample.text.length : Int) - 1)
              else longSample.offsetIdx))
        ∧ (∀ (rw : Rune → Int) (r : Rune), ∃ e0, PutRune rw longSample r = Right e0
            ∧ WellFormed e0
            ∧ e0.cursorIdx < (e0.text.length : Int)
            ∧ e0.cursorIdx = longSample.cursorIdx ∧ e0.offsetIdx = longSample.offsetIdx
            ∧ e0.width = longSample.width
            ∧ (e0.text.length : Int) = (longSample.text.length : Int) + 1)
        ∧ (0 < longSample.cursorIdx →
            (Left longSample).cursorIdx = longSample.cursorIdx - 1
              ∧ (Left longSample).offsetIdx = (if longSample.cursorIdx - 1 ≤ longSample.offsetIdx
                  then max (longSample.offsetIdx - 16) 0 else longSample.offsetIdx)))
      ∧ Right longSample = some { longSample with cursorIdx := 11, offsetIdx := 16 } :=
  ⟨by decide, C17_rescroll_batching longSample (by decide), by rfl⟩

/-- C18: from `newEditor(w)`, for any `w`, no sequence of `PutRune`,
`RemRune`, `Left`, `Right`, `Resize`, `Flush`, `IsCommand` and `Draw` calls
panics: every index and slice expression on `text` and `textWidth` is within
bounds, for any `RuneWidth`. -/
theorem C18_editor_totality (rw : Rune → Int) (w : Int) (cs : List Call) :
    ∃ e, runCalls rw (newEditor w) cs = some e ∧ WellFormed e := by
  obtain ⟨e, h1, h2⟩ := runCalls_inv rw cs (newEditor w) (newEditor_inv w)
  exact ⟨e, h1, h2.1⟩

/-- C19 (as stated, fails): the line of one rune with the single split point
`I = 0` has non-empty split points with non-negative, strictly increasing `I`
and a last point at the last rune index (`0 ≥ 1 - 1`), and its render pass
panics: at rune 0 the split point matches, `spIdx` becomes 1 and
`SplitPoints[1].X` is out of range. -/
theorem C19_panic_with_last_point_at_last_rune :
    SplitPointsEndAt oneRuneLine ((oneRuneLine.Content.length : Int) - 1)
      ∧ drawLine 80 sampleWidth oneRuneLine Fmt.init 0 = none := by
  refine ⟨⟨by decide, ?_, ?_, ?_⟩, by rfl⟩
  · intro p hp
    simp only [oneRuneLine, List.mem_singleton] at hp
    subst hp; decide
  · simp [oneRuneLine]
  · intro p hp
    simp only [oneRuneLine, List.getLast?_singleton, Option.some.injEq] at hp
    subst hp; decide

/-- C19 (amended): for every line whose split points are non-empty, have
non-negative strictly increasing `I` values, and end with a point at or after
the END of the runes (`I ≥` number of runes), the render pass of the line
never indexes `SplitPoints` out of range, for every width, start row and
formatting variables. -/
theorem C19_split_point_indexing (w : Int) (rw : Rune → Int) (line : Line) (f : Fmt) (y0 : Int)
    (h : SplitPointsEndAt line (line.Content.length : Int)) :
    ∃ res, drawLine w rw line f y0 = some res := by
  obtain ⟨hne, -, -, hlast⟩ := h
  apply drawLine_ok
  unfold LineOK
  cases hl : line.SplitPoints.getLast? with
  | none => exact absurd (List.getLast?_eq_none_iff.mp hl) hne
  | some p => exact hlast p hl

/-- C19 (amended), at the line `abc` with split points at 0 and 3. -/
theorem C19_split_point_indexing_witness :
    SplitPointsEndAt sampleLine (sampleLine.Content.length : Int)
      ∧ ∃ res, drawLine 80 sampleWidth sampleLine Fmt.init 0 = some res :=
  have hs : SplitPointsEndAt sampleLine (sampleLine.Content.length : Int) := by
    refine ⟨by decide, ?_, ?_, ?_⟩
    · intro p hp
      simp only [sampleLine, List.mem_cons, List.mem_singleton, List.not_mem_nil, or_false] at hp
      rcases hp with rfl | rfl <;> decide
    · simp [sampleLine]
    · intro p hp
      have : p = { X := 3, I := 3, Split := true } := by
        simp [sampleLine] at hp
        exact hp.symm
      subst this; decide
  ⟨hs, C19_split_point_indexing 80 sampleWidth sampleLine Fmt.init 0 hs⟩

/-- C20: the walk of `drawBuffer` starts on fresh formatting variables
(default style, no bold, italic or underline, parse state 0), the render
pass of any line leaves fresh variables whatever the line contained, so every
render pass is entered on fresh variables; on fresh variables the cells a
line writes are those it writes from the initial variables (the accumulators
`fgColor` and `bgColor` have no influence); and the cells `drawBuffer` writes
are those of the clearing loops followed, pass by pass, by the cells each
rendered line writes on its own from its start row. -/
theorem C20_style_isolation (w h : Int) (rw : Rune → Int) (rh : Line → Int → Int) (s : Int)
    (atTop : Bool) (content : List Line) :
    Fresh Fmt.init
      ∧ (∀ (line : Line) (f : Fmt) (y0 : Int) (f1 : Fmt) (out : List Cell),
          drawLine w rw line f y0 = some (f1, out) → Fresh f1)
      ∧ (∀ (line : Line) (f : Fmt) (y0 : Int), Fresh f →
          (drawLine w rw line f y0).map Prod.snd
            = (drawLine w rw line Fmt.init y0).map Prod.snd)
      ∧ (∀ res, drawBuffer w h rw rh s atTop content = some res →
          res.cells = clearCells w h ++ res.passes.flatMap (passCells w rw content.reverse 1)
            ∧ (3 ≤ h → ∃ fs, passStarts w (h - 3) rw rh content.reverse Fmt.init
                    (wrapInt (s + h - 3)) = some fs
                ∧ fs.length = res.passes.length ∧ ∀ g ∈ fs, Fresh g)) := by
  refine ⟨fresh_init, fun line f y0 f1 out hl => drawLine_fresh w rw line f y0 f1 out hl,
    fun line f y0 hf => drawLine_same w rw line f Fmt.init y0 (SameFormat.of_fresh hf fresh_init),
    ?_⟩
  intro res hres
  by_cases hh : h < 3
  · unfold drawBuffer at hres
    rw [if_pos hh] at hres
    cases hres
    have : (h - 3).toNat = 0 := by omega
    refine ⟨by simp [clearCells, this], fun h3 => absurd hh (by omega)⟩
  · by_cases hne : content = []
    · subst hne
      unfold drawBuffer at hres
      rw [if_neg hh] at hres
      simp only [List.length_nil, if_true, Option.some.injEq] at hres
      subst hres
      exact ⟨by simp, fun _ => ⟨[], rfl, rfl, by simp⟩⟩
    · obtain ⟨f1, y1, out, hd, -⟩ :=
        drawBuffer_eq w h rw rh s atTop content (by omega) hne res hres
      obtain ⟨-, -, hout⟩ := drawLines_cells w (h - 3) rw rh content.reverse 1 Fmt.init
        (wrapInt (s + h - 3)) f1 y1 out res.passes fresh_init hd
      obtain ⟨fs, a1, a2, a3⟩ := passStarts_fresh w (h - 3) rw rh content.reverse 1 Fmt.init
        (wrapInt (s + h - 3)) f1 y1 out res.passes hd
      refine ⟨?_, fun _ => ⟨fs, a1, a2, a3 fresh_init⟩⟩
      have hc : res.cells = clearCells w h ++ out := by
        unfold drawBuffer at hres
        have hlen : ¬ content.length = 0 := fun h0 => hne (List.length_eq_zero.mp h0)
        rw [if_neg hh, if_neg hlen] at hres
        dsimp only at hres
        rw [hd] at hres
        simp only [Option.bind_eq_bind, Option.some_bind, Option.some.injEq] at hres
        rw [← hres]
      rw [hc, hout]

/-- C20, on a screen of height 13 and width 4 with the line `abc` stored above (older
than) a line that ends inside a colour code with bold and underline on: the
older line is written in the default style. -/
theorem C20_style_isolation_witness :
    (Fresh Fmt.init
      ∧ (∀ (line : Line) (f : Fmt) (y0 : Int) (f1 : Fmt) (out : List Cell),
          drawLine 4 sampleWidth line f y0 = some (f1, out) → Fresh f1)
      ∧ (∀ (line : Line) (f : Fmt) (y0 : Int), Fresh f →
          (drawLine 4 sampleWidth line f y0).map Prod.snd
            = (drawLine 4 sampleWidth line Fmt.init y0).map Prod.snd)
      ∧ (∀ res, drawBuffer 4 13 sampleWidth unitHeight 0 false [sampleLine, unclosedLine]
            = some res →
          res.cells = clearCells 4 13
              ++ res.passes.flatMap (passCells 4 sampleWidth [sampleLine, unclosedLine].reverse 1)
            ∧ ((3 : Int) ≤ 13 → ∃ fs, passStarts 4 (13 - 3) sampleWidth unitHeight
                    [sampleLine, unclosedLine].reverse Fmt.init (wrapInt (0 + 13 - 3)) = some fs
                ∧ fs.length = res.passes.length ∧ ∀ g ∈ fs, Fresh g)))
    ∧ (drawBuffer 4 13 sampleWidth unitHeight 0 false [sampleLine, unclosedLine]).map
        (fun res => (res.passes, res.cells.filter (fun c => c.r != 32)))
      = some ([(1, 9), (2, 8)],
          [{ x := 0, y := 9, r := 97,
             st := { StyleDefault with bold := true, underline := true } },
           { x := 1, y := 9, r := 98,
             st := { StyleDefault with bold := true, underline := true } },
           { x := 0, y := 8, r := 97, st := StyleDefault },
           { x := 1, y := 8, r := 98, st := StyleDefault },
           { x := 2, y := 8, r := 99, st := StyleDefault }])
    ∧ passStarts 4 (13 - 3) sampleWidth unitHeight [sampleLine, unclosedLine].reverse Fmt.init
        (wrapInt (0 + 13 - 3))
      = some [Fmt.init, { Fmt.init with fgColor := 5, bgColor := 1 }] :=
  ⟨C20_style_isolation 4 13 sampleWidth unitHeight 0 false [sampleLine, unclosedLine],
    by rfl, by rfl⟩

end Senpai
